import Mathlib

/-!
# Patch transfer engine of the authserver (`class PatchMgr`)

A shallow embedding of `src/server/apps/authserver/Patcher/PatchMgr.{h,cpp}`.

Conventions of the embedding:

* `std::string` values that the code compares or lower-cases are byte lists
  (`List Nat`); file paths are only ever used as keys and stay `String`.
* Pointers are identities: an `AuthSession*` is a `Nat` (`0` is `nullptr`), a
  `PatchInfo*` is the (immutable) record it points to, `Option` when the code
  tests it against `nullptr`.
* `uint16`/`uint32`/`uint64` values are `Nat` with an explicit `% 2^w` wherever
  the code can wrap.
* `std::ifstream` is the record `IfStream` driven by the file system `FileSys`.
* Everything a caller can observe besides return values (frames handed to a
  session, info/error log lines) is appended to `PatchMgr.trace`.
* An integer division by zero ends the process: functions that can reach one
  return `Option`, `none` meaning the process died.
-/

namespace Patcher

/-! ## Data model (`PatchMgr.h`) -/

/-- Lower-cases one byte the way `::tolower` does in the "C" locale. -/
def tolower (c : Nat) : Nat :=
  if 65 ≤ c ∧ c ≤ 90 then c + 32 else c

/-- The `std::transform(..., ::tolower)` idiom on a whole string. -/
def toLowerStr (s : List Nat) : List Nat :=
  s.map tolower

/-- Bytes of an ASCII string literal, to write locales readably. -/
def ascii (s : String) : List Nat :=
  s.toList.map Char.toNat

/-- Record `struct PatchInfo`; the optional in-memory cache (`Data`) is never
touched by the code under study, only its flag is kept. -/
structure PatchInfo where
  Build : Nat
  Locale : List Nat
  FileSize : Nat
  MD5 : List Nat
  FilePath : String
  DataLoaded : Bool
deriving DecidableEq, Repr

/-- The externally visible condition of one `std::ifstream`: whether a file is
attached, which one, where the get pointer stands, and the three error bits. -/
structure IfStream where
  is_open : Bool
  path : String
  cursor : Nat
  failbit : Bool
  eofbit : Bool
  badbit : Bool
deriving DecidableEq, Repr

/-- A default-constructed stream: closed, no error bit. -/
def IfStream.closed : IfStream :=
  { is_open := false, path := "", cursor := 0, failbit := false, eofbit := false, badbit := false }

/-- Record `struct PatchJob`. `Patch` is the record the job points to: jobs are
only ever created by `InitiatePatch`, after its null guard. -/
structure PatchJob where
  Session : Nat
  Patch : PatchInfo
  File : IfStream
  Position : Nat
  Active : Bool
  LastLoggedProgress : Nat
deriving DecidableEq, Repr

/-- What the outside world observes of the manager. -/
inductive Event where
  | sendPacket (session : Nat) (bytes : List Nat)
  | logProgress (path : String) (progress position fileSize : Nat)
  | logCompleted
  | logError
deriving DecidableEq, Repr

/-- The members of `class PatchMgr`, plus the trace of observable effects. -/
structure PatchMgr where
  _patches : List PatchInfo
  _jobs : List PatchJob
  _minBuild : Nat
  _enabled : Bool
  _patchDir : String
  _chunkSize : Nat
  trace : List Event
deriving DecidableEq, Repr

/-! ## `FindPatchForClient` -/

/-- The `for (auto& patch : _patches)` loop of `FindPatchForClient`, with the
local `fallback` as accumulator and the early `return` on an exact match. -/
def findLoop (build : Nat) (localeLower : List Nat) :
    List PatchInfo → Option PatchInfo → Option PatchInfo
  | [], fallback => fallback
  | patch :: rest, fallback =>
    if patch.Locale = localeLower then
      if patch.Build = build then some patch
      else if patch.Build = 0 ∧ fallback = none then findLoop build localeLower rest (some patch)
      else findLoop build localeLower rest fallback
    else findLoop build localeLower rest fallback

/-- `PatchMgr::FindPatchForClient`. -/
def FindPatchForClient (m : PatchMgr) (build : Nat) (locale : List Nat) : Option PatchInfo :=
  if !m._enabled || m._patches.isEmpty then none
  else findLoop build (toLowerStr locale) m._patches none

/-! ## The file layer under `std::ifstream` -/

/-- The part of the file system the manager reads. `content p` is the byte
sequence of the regular file at `p` (`none`: it cannot be opened); `seekable p
pos` tells whether the file layer accepts an absolute seek to `pos` on `p`;
`readFault p pos` tells whether reading `p` at `pos` ends in a device error. -/
structure FileSys where
  content : String → Option (List Nat)
  seekable : String → Nat → Bool
  readFault : String → Nat → Bool

/-- `fail()`, also what `!stream` tests. -/
def IfStream.fail (f : IfStream) : Bool :=
  f.failbit || f.badbit

/-- `good()`. -/
def IfStream.good (f : IfStream) : Bool :=
  !(f.failbit || f.eofbit || f.badbit)

/-- `open(path, std::ios::binary)`: fails (sets `failbit`) on a stream that is
already open or a file that cannot be opened; clears the state on success. -/
def IfStream.open (fs : FileSys) (f : IfStream) (path : String) : IfStream :=
  if f.is_open then { f with failbit := true }
  else
    match fs.content path with
    | some _ =>
      { is_open := true, path := path, cursor := 0,
        failbit := false, eofbit := false, badbit := false }
    | none => { f with failbit := true }

/-- `seekg(pos)`: clears `eofbit`, then moves the get pointer unless the stream
has already failed; a refused seek sets `failbit`. -/
def IfStream.seekg (fs : FileSys) (f : IfStream) (pos : Nat) : IfStream :=
  let g := { f with eofbit := false }
  if g.failbit || g.badbit then { g with failbit := true }
  else if g.is_open && fs.seekable g.path pos then { g with cursor := pos }
  else { g with failbit := true }

/-- `read(buf, n)` into a zero-filled buffer of `n` bytes: returns the stream
afterwards and the buffer. A stream that is not `good()` reads nothing and gets
`failbit`; a device error sets `badbit`; fewer than `n` bytes left sets
`eofbit` and `failbit`. -/
def IfStream.read (fs : FileSys) (f : IfStream) (n : Nat) : IfStream × List Nat :=
  if !f.good then ({ f with failbit := true }, List.replicate n 0)
  else if !f.is_open then ({ f with failbit := true, eofbit := true }, List.replicate n 0)
  else if fs.readFault f.path f.cursor then ({ f with badbit := true }, List.replicate n 0)
  else
    let got := (((fs.content f.path).getD []).drop f.cursor).take n
    if got.length < n then
      ({ f with cursor := f.cursor + got.length, failbit := true, eofbit := true },
        got ++ List.replicate (n - got.length) 0)
    else ({ f with cursor := f.cursor + n }, got)

/-! ## Wire frames -/

/-- Command byte `XFER_INITIATE`. -/
def XFER_INITIATE : Nat := 0x30

/-- Command byte `XFER_DATA`. -/
def XFER_DATA : Nat := 0x31

/-- The `w` bytes of `n`, least significant first (the host order of the
packed structs and of `ByteBuffer`). -/
def leBytes (w n : Nat) : List Nat :=
  (List.range w).map (fun i => n / 256 ^ i % 256)

/-- The packed `TransferInitiatePacket` that `InitiatePatch` fills in. -/
def initiatePacket (patch : PatchInfo) : List Nat :=
  [XFER_INITIATE, 5, 80, 97, 116, 99, 104] ++ leBytes 8 patch.FileSize ++ patch.MD5.take 16

/-- The `XFER_DATA` packet built in `SendPatchChunk`. -/
def dataPacket (chunkSize : Nat) (chunkData : List Nat) : List Nat :=
  [XFER_DATA] ++ leBytes 2 chunkSize ++ chunkData

/-! ## Job management -/

/-- `PatchMgr::RemoveJob`: the erase/remove_if idiom keeps the other jobs in
their order. -/
def RemoveJob (jobs : List PatchJob) (session : Nat) : List PatchJob :=
  jobs.filter (fun job => !decide (job.Session = session))

/-- `PatchMgr::InitiatePatch`; returns the manager afterwards and the result. -/
def InitiatePatch (m : PatchMgr) (session : Nat) (patch : Option PatchInfo) : PatchMgr × Bool :=
  match patch with
  | none => (m, false)
  | some p =>
    if session = 0 then (m, false)
    else
      let job : PatchJob :=
        { Session := session, Patch := p, File := IfStream.closed,
          Position := 0, Active := false, LastLoggedProgress := 0 }
      ({ m with
          _jobs := RemoveJob m._jobs session ++ [job],
          trace := m.trace ++ [Event.sendPacket session (initiatePacket p)] }, true)

/-- The loop of `HandleXferAccept` over `_jobs`: the first job of the session
decides. -/
def acceptLoop (fs : FileSys) (session : Nat) : List PatchJob → List PatchJob × Bool
  | [] => ([], false)
  | job :: rest =>
    if job.Session = session then
      let file := job.File.open fs job.Patch.FilePath
      if file.fail then ({ job with File := file } :: rest, false)
      else ({ job with File := file, Position := 0, Active := true } :: rest, true)
    else
      let r := acceptLoop fs session rest
      (job :: r.1, r.2)

/-- `PatchMgr::HandleXferAccept`. -/
def HandleXferAccept (fs : FileSys) (m : PatchMgr) (session : Nat) : PatchMgr × Bool :=
  let r := acceptLoop fs session m._jobs
  ({ m with _jobs := r.1 }, r.2)

/-- The loop of `HandleXferResume` over `_jobs`. -/
def resumeLoop (fs : FileSys) (session position : Nat) : List PatchJob → List PatchJob × Bool
  | [] => ([], false)
  | job :: rest =>
    if job.Session = session then
      let opened := if !job.File.is_open then job.File.open fs job.Patch.FilePath else job.File
      if !job.File.is_open && opened.fail then ({ job with File := opened } :: rest, false)
      else
        let file := opened.seekg fs position
        if file.fail then ({ job with File := file } :: rest, false)
        else ({ job with File := file, Position := position, Active := true } :: rest, true)
    else
      let r := resumeLoop fs session position rest
      (job :: r.1, r.2)

/-- `PatchMgr::HandleXferResume`. -/
def HandleXferResume (fs : FileSys) (m : PatchMgr) (session position : Nat) : PatchMgr × Bool :=
  let r := resumeLoop fs session position m._jobs
  ({ m with _jobs := r.1 }, r.2)

/-- `PatchMgr::HandleXferCancel`. -/
def HandleXferCancel (m : PatchMgr) (session : Nat) : PatchMgr × Bool :=
  ({ m with _jobs := RemoveJob m._jobs session }, true)

/-! ## Chunk sending and the periodic update -/

/-- `PatchMgr::SendPatchChunk`: the job afterwards and what was observed, or
`none` when the progress quotient divides by a zero `FileSize`. -/
def SendPatchChunk (chunkCfg : Nat) (fs : FileSys) (job : PatchJob) :
    Option (PatchJob × List Event) :=
  if job.Session = 0 then some (job, [])
  else
    let remaining := (job.Patch.FileSize + 2 ^ 64 - job.Position) % 2 ^ 64
    let chunkSize := min chunkCfg remaining % 2 ^ 16
    if chunkSize = 0 then some (job, [])
    else
      let r := job.File.read fs chunkSize
      if r.1.fail && !r.1.eofbit then
        some ({ job with File := r.1, Active := false }, [Event.logError])
      else
        let sent := Event.sendPacket job.Session (dataPacket chunkSize r.2)
        let position := (job.Position + chunkSize) % 2 ^ 64
        if job.Patch.FileSize = 0 then none
        else
          let progress := (position * 100 % 2 ^ 64 / job.Patch.FileSize) % 2 ^ 32
          if progress / 10 > job.LastLoggedProgress / 10 then
            some ({ job with File := r.1, Position := position, LastLoggedProgress := progress },
              [sent, Event.logProgress job.Patch.FilePath progress position job.Patch.FileSize])
          else
            some ({ job with File := r.1, Position := position }, [sent])

/-- The first loop of `UpdateJobs`: one `SendPatchChunk` for every job that is
active with an open file, in list order. -/
def driveJobs (chunkCfg : Nat) (fs : FileSys) :
    List PatchJob → Option (List PatchJob × List Event)
  | [] => some ([], [])
  | job :: rest =>
    if !job.Active || !job.File.is_open then
      (driveJobs chunkCfg fs rest).map (fun r => (job :: r.1, r.2))
    else
      match SendPatchChunk chunkCfg fs job with
      | none => none
      | some (job', ev) =>
        (driveJobs chunkCfg fs rest).map (fun r => (job' :: r.1, ev ++ r.2))

/-- The test of the second loop of `UpdateJobs`. -/
def completed (job : PatchJob) : Bool :=
  decide (job.Position ≥ job.Patch.FileSize)

/-- `PatchMgr::UpdateJobs`. -/
def UpdateJobs (fs : FileSys) (m : PatchMgr) : Option PatchMgr :=
  if !m._enabled then some m
  else
    match driveJobs m._chunkSize fs m._jobs with
    | none => none
    | some (jobs, ev) =>
      some { m with
        _jobs := jobs.filter (fun job => !completed job),
        trace := m.trace ++ ev ++ (jobs.filter completed).map (fun _ => Event.logCompleted) }

/-! ## Call sequences -/

/-- One call into the manager. -/
inductive Op where
  | initiate (session : Nat) (patch : Option PatchInfo)
  | accept (session : Nat)
  | resume (session position : Nat)
  | cancel (session : Nat)
  | tick
deriving DecidableEq, Repr

/-- The manager after one call (`none`: the process died in it). -/
def step (fs : FileSys) (m : PatchMgr) : Op → Option PatchMgr
  | Op.initiate session patch => some (InitiatePatch m session patch).1
  | Op.accept session => some (HandleXferAccept fs m session).1
  | Op.resume session position => some (HandleXferResume fs m session position).1
  | Op.cancel session => some (HandleXferCancel m session).1
  | Op.tick => UpdateJobs fs m

/-- The manager after a sequence of calls, first call first. -/
def run (fs : FileSys) : List Op → PatchMgr → Option PatchMgr
  | [], m => some m
  | op :: ops, m =>
    match step fs m op with
    | none => none
    | some m' => run fs ops m'

/-- The manager as its constructor leaves it. -/
def PatchMgr.new : PatchMgr :=
  { _patches := [], _jobs := [], _minBuild := 12340, _enabled := false,
    _patchDir := "ClientPatches", _chunkSize := 1500, trace := [] }

/-- Jobs of one session. -/
def jobsOf (session : Nat) (jobs : List PatchJob) : List PatchJob :=
  jobs.filter (fun job => decide (job.Session = session))

/-- Payload length of every `XFER_DATA` frame sent to `session`, in order. -/
def dataLens (session : Nat) : List Event → List Nat
  | [] => []
  | Event.sendPacket s bytes :: rest =>
    if s = session ∧ bytes.head? = some XFER_DATA then
      (bytes.length - 3) :: dataLens session rest
    else dataLens session rest
  | _ :: rest => dataLens session rest

/-! ## Conditions used to state the properties -/

/-- The stream states in which a `read` without device error does not send
`SendPatchChunk` into its error branch: no error bit at all, or `eofbit`. -/
def IfStream.usable (f : IfStream) : Bool :=
  f.eofbit || (!f.failbit && !f.badbit)

/-- A job of session `s` that a tick drives: active, file open, stream usable,
no device error on its file, offset within the size of its patch, and a patch
size that is positive and fits `uint64`. -/
structure Healthy (fs : FileSys) (s : Nat) (j : PatchJob) : Prop where
  session : j.Session = s
  nonnull : s ≠ 0
  active : j.Active = true
  isOpen : j.File.is_open = true
  usable : j.File.usable = true
  nofault : ∀ pos, fs.readFault j.File.path pos = false
  inRange : j.Position ≤ j.Patch.FileSize
  sizePos : 0 < j.Patch.FileSize
  sizeLt : j.Patch.FileSize < 2 ^ 64

/-- The body of the first loop of `UpdateJobs` for one job. -/
def driveOne (chunkCfg : Nat) (fs : FileSys) (job : PatchJob) : Option (PatchJob × List Event) :=
  if !job.Active || !job.File.is_open then some (job, [])
  else SendPatchChunk chunkCfg fs job

/-- A call whose arguments respect the offset range: a Resume offset is at
most the file size of the patch of every job of the session, and an offered
patch has a size that fits `uint64`. -/
def opInRange (m : PatchMgr) : Op → Bool
  | Op.resume s k => m._jobs.all (fun j => decide (j.Session = s → k ≤ j.Patch.FileSize))
  | Op.initiate _ (some p) => decide (p.FileSize < 2 ^ 64)
  | _ => true

/-- Every call of the sequence respects the offset range in the state it is
made in. -/
def runInRange (fs : FileSys) : List Op → PatchMgr → Bool
  | [], _ => true
  | op :: ops, m =>
    opInRange m op &&
      match step fs m op with
      | none => true
      | some m' => runInRange fs ops m'

/-! ## Concrete inputs -/

/-- Registry of scenario 1: the single entry `(engb, 12340)`, 1000 bytes. -/
def patchEnGB : PatchInfo :=
  { Build := 12340, Locale := ascii "engb", FileSize := 1000,
    MD5 := List.replicate 16 7, FilePath := "ClientPatches/enGB12340.mpq", DataLoaded := false }

/-- The fallback entry `(frfr, 0)` of scenario 2, 500 bytes. -/
def patchFrFR : PatchInfo :=
  { Build := 0, Locale := ascii "frfr", FileSize := 500,
    MD5 := List.replicate 16 9, FilePath := "ClientPatches/frFR0.mpq", DataLoaded := false }

/-- An enabled manager holding the given registry and no job. -/
def mgrWith (patches : List PatchInfo) (chunk : Nat) : PatchMgr :=
  { PatchMgr.new with _patches := patches, _enabled := true, _chunkSize := chunk }

/-- A disk holding the two patch files of the scenarios; as on a regular file,
a seek to any offset that fits the signed stream offset is accepted, also past
the end of the file; no device error. -/
def diskFs : FileSys :=
  { content := fun path =>
      if path = patchEnGB.FilePath then some (List.replicate 1000 1)
      else if path = patchFrFR.FilePath then some (List.replicate 500 2)
      else none,
    seekable := fun _ pos => decide (pos < 2 ^ 63),
    readFault := fun _ _ => false }

/-- A call sequence in which session 1 is offered one patch, then another,
accepts, session 2 is offered a patch and resumes at 700, and session 1
cancels between two ticks. -/
def demoOps : List Op :=
  [Op.initiate 1 (some patchEnGB), Op.initiate 1 (some patchFrFR), Op.accept 1,
   Op.initiate 2 (some patchEnGB), Op.resume 2 700, Op.tick, Op.cancel 1, Op.tick]

/-- The number whose bytes, least significant first, are `bytes`. -/
def leDecode : List Nat → Nat
  | [] => 0
  | b :: rest => b + 256 * leDecode rest

/-- Total payload length of the `XFER_DATA` frames of a trace, all sessions
together. -/
def dataBytes : List Event → Nat
  | [] => 0
  | Event.sendPacket _ bytes :: rest =>
    (if bytes.head? = some XFER_DATA then bytes.length - 3 else 0) + dataBytes rest
  | _ :: rest => dataBytes rest

/-- The manager of the scenarios (chunk size 300) after session 1 was offered
the 1000-byte patch and accepted it, and session 2 was offered the 500-byte
patch and has not answered yet. -/
def activeAndPending : PatchMgr :=
  (InitiatePatch (HandleXferAccept diskFs
    (InitiatePatch (mgrWith [patchEnGB, patchFrFR] 300) 1 (some patchEnGB)).1 1).1
    2 (some patchFrFR)).1

/-- The disk of the scenarios with a defect: every read of the 1000-byte patch
file at offset 300 or beyond ends in a device error. -/
def faultyFs : FileSys :=
  { content := diskFs.content,
    seekable := diskFs.seekable,
    readFault := fun _ pos => decide (300 ≤ pos) }

/-- The progress values of the progress lines of a trace, in order. -/
def progressLines : List Event → List Nat
  | [] => []
  | Event.logProgress _ progress _ _ :: rest => progress :: progressLines rest
  | _ :: rest => progressLines rest

/-- The progress `floor(offset * 100 / fileSize)` once `i` chunks of size `c`
of a file of size `F` have been sent from offset 0. -/
def progressAfter (c F i : Nat) : Nat :=
  min (i * c) F * 100 / F

/-- The progress lines of chunks `a + 1`, `a + 2`, ... of a transfer during `n`
ticks, under the rule "a line after a chunk exactly when the decile of the
progress is higher than after the chunk before"; the transfer ends when `a`
chunks cover the file. -/
def expectedLines (c F : Nat) : Nat → Nat → List Nat
  | _, 0 => []
  | a, n + 1 =>
    if a * c < F then
      (if progressAfter c F (a + 1) / 10 > progressAfter c F a / 10 then
        [progressAfter c F (a + 1)] else []) ++ expectedLines c F (a + 1) n
    else []

/-- An ASCII letter, `A`..`Z` or `a`..`z`. -/
def isAsciiLetter (c : Nat) : Bool :=
  (decide (65 ≤ c) && decide (c ≤ 90)) || (decide (97 ≤ c) && decide (c ≤ 122))

/-- Two bytes that are equal or are the two cases of one ASCII letter. -/
def caseVariant (a b : Nat) : Bool :=
  decide (a = b) ||
    (isAsciiLetter a && isAsciiLetter b && (decide (a = b + 32) || decide (b = a + 32)))

/-- Two strings that differ only in the case of ASCII letters. -/
def sameUpToCase : List Nat → List Nat → Bool
  | [], [] => true
  | a :: as, b :: bs => caseVariant a b && sameUpToCase as bs
  | _, _ => false

/-! ## Loading the registry (`Initialize`, `LoadPatches`, `CalculateMD5`)

`Acore::Crypto::MD5` is not part of the sources at hand. A hash object is taken
as the function `md5` from the sequence of blocks handed to `UpdateData`, in
call order, to the digest that `Finalize`/`GetDigest` then give. -/

/-- One entry of the directory iteration in `LoadPatches`. -/
structure DirEntry where
  filename : List Nat
  is_regular_file : Bool
  path : String
  file_size : Nat
deriving DecidableEq, Repr

/-- A decimal digit, `0`..`9`. -/
def isDigit (c : Nat) : Bool :=
  decide (48 ≤ c) && decide (c ≤ 57)

/-- `std::regex_match` against `([a-zA-Z]{4})(\d+)\.mpq` with `icase`: the two
captured groups when the whole name is four letters, one or more digits and
the extension in any case. -/
def matchPatchName (name : List Nat) : Option (List Nat × List Nat) :=
  let locale := name.take 4
  let rest := name.drop 4
  let digits := rest.take (rest.length - 4)
  let ext := rest.drop (rest.length - 4)
  if decide (9 ≤ name.length) && locale.all isAsciiLetter && digits.all isDigit &&
      decide (toLowerStr ext = ascii ".mpq") then
    some (locale, digits)
  else none

/-- The number written by a string of decimal digits. -/
def decimalValue (digits : List Nat) : Nat :=
  digits.foldl (fun acc d => acc * 10 + (d - 48)) 0

/-- `std::stoul` on a string of digits, for an `unsigned long` of `ulongBits`
bits: `none` stands for the `std::out_of_range` it throws. -/
def stoul (ulongBits : Nat) (digits : List Nat) : Option Nat :=
  if decimalValue digits < 2 ^ ulongBits then some (decimalValue digits) else none

/-- `read(buf, n)` seen through `gcount()`: the stream afterwards and the bytes
actually extracted. Same stream transitions as `IfStream.read`. -/
def IfStream.extract (fs : FileSys) (f : IfStream) (n : Nat) : IfStream × List Nat :=
  if !f.good then ({ f with failbit := true }, [])
  else if !f.is_open then ({ f with failbit := true, eofbit := true }, [])
  else if fs.readFault f.path f.cursor then ({ f with badbit := true }, [])
  else
    let got := (((fs.content f.path).getD []).drop f.cursor).take n
    if got.length < n then
      ({ f with cursor := f.cursor + got.length, failbit := true, eofbit := true }, got)
    else ({ f with cursor := f.cursor + n }, got)

/-- The `while (file.read(buffer, 8192) || file.gcount() > 0)` loop of
`CalculateMD5`: the blocks handed to `UpdateData`, for at most `fuel` reads. -/
def hashBlocks (fs : FileSys) : Nat → IfStream → List (List Nat)
  | 0, _ => []
  | fuel + 1, f =>
    let r := f.extract fs 8192
    if !r.1.fail then r.2 :: hashBlocks fs fuel r.1
    else if r.2.length > 0 then r.2 :: hashBlocks fs fuel r.1
    else []

/-- `PatchMgr::CalculateMD5`: `none` is its `return false` (the file cannot
be opened). The loop gets as many reads as a file of that length can need. -/
def CalculateMD5 (md5 : List (List Nat) → List Nat) (fs : FileSys) (filepath : String) :
    Option (List Nat) :=
  let file := IfStream.closed.open fs filepath
  if file.fail then none
  else some (md5 (hashBlocks fs (((fs.content filepath).getD []).length / 8192 + 2) file))

/-- The body of the directory loop of `LoadPatches` for one entry: `some none`
when the entry is skipped, `some (some patch)` when it is loaded, `none` when
`std::stoul` throws and the exception leaves `LoadPatches`. -/
def loadEntry (md5 : List (List Nat) → List Nat) (ulongBits : Nat) (fs : FileSys)
    (entry : DirEntry) : Option (Option PatchInfo) :=
  if !entry.is_regular_file then some none
  else
    match matchPatchName entry.filename with
    | none => some none
    | some (locale, digits) =>
      match stoul ulongBits digits with
      | none => none
      | some value =>
        match CalculateMD5 md5 fs entry.path with
        | none => some none
        | some digest =>
          some (some { Build := value % 2 ^ 32, Locale := toLowerStr locale,
                       FileSize := entry.file_size, MD5 := digest,
                       FilePath := entry.path, DataLoaded := false })

/-- The directory loop of `LoadPatches`, pushing loaded patches at the back. -/
def loadLoop (md5 : List (List Nat) → List Nat) (ulongBits : Nat) (fs : FileSys) :
    List DirEntry → List PatchInfo → Option (List PatchInfo)
  | [], acc => some acc
  | entry :: rest, acc =>
    match loadEntry md5 ulongBits fs entry with
    | none => none
    | some none => loadLoop md5 ulongBits fs rest acc
    | some (some patch) => loadLoop md5 ulongBits fs rest (acc ++ [patch])

/-- `PatchMgr::LoadPatches` on the listing of `_patchDir` (`none`: the
directory does not exist and is created empty). The result `none` is an
exception leaving the function. -/
def LoadPatches (md5 : List (List Nat) → List Nat) (ulongBits : Nat) (fs : FileSys)
    (dir : Option (List DirEntry)) (m : PatchMgr) : Option PatchMgr :=
  match dir with
  | none => some { m with _patches := [] }
  | some entries =>
    (loadLoop md5 ulongBits fs entries []).map (fun ps => { m with _patches := ps })

/-- `PatchMgr::Initialize` with the four configuration options as arguments. -/
def Initialize (md5 : List (List Nat) → List Nat) (ulongBits : Nat) (fs : FileSys)
    (dir : Option (List DirEntry)) (cfgEnabled : Bool) (cfgMinBuild : Nat) (cfgDir : String)
    (cfgChunkSize : Nat) (m : PatchMgr) : Option PatchMgr :=
  let c1 := if cfgChunkSize < 100 then 100 else cfgChunkSize
  let c2 := if c1 > 65535 then 65535 else c1
  let m1 := { m with _enabled := cfgEnabled, _minBuild := cfgMinBuild, _patchDir := cfgDir,
                     _chunkSize := c2 }
  if cfgEnabled then LoadPatches md5 ulongBits fs dir m1 else some m1

/-- A stand-in hash for concrete runs: the digest is the sum of all bytes
modulo 256, repeated 16 times. -/
def sumHash (blocks : List (List Nat)) : List Nat :=
  List.replicate 16 (blocks.flatten.sum % 256)

/-- The listing of the patch directory of scenarios 1 and 2, plus a note file
and a sub-directory. -/
def scenarioDir : List DirEntry :=
  [{ filename := ascii "enGB12340.mpq", is_regular_file := true,
     path := patchEnGB.FilePath, file_size := 1000 },
   { filename := ascii "readme.txt", is_regular_file := true,
     path := "ClientPatches/readme.txt", file_size := 12 },
   { filename := ascii "old", is_regular_file := false,
     path := "ClientPatches/old", file_size := 0 },
   { filename := ascii "frFR0.MPQ", is_regular_file := true,
     path := patchFrFR.FilePath, file_size := 500 }]

/-- A disk on which every path is a readable 10-byte file. -/
def uniformFs : FileSys :=
  { content := fun _ => some (List.replicate 10 1),
    seekable := fun _ pos => decide (pos < 2 ^ 63),
    readFault := fun _ _ => false }

/-- A regular file whose name carries the build number `10^20 - 1`, beyond
every `unsigned long`. -/
def hugeBuildEntry : DirEntry :=
  { filename := ascii "enGB99999999999999999999.mpq", is_regular_file := true,
    path := "ClientPatches/enGB99999999999999999999.mpq", file_size := 10 }

/-- A regular file whose name carries the build number `2^32`. -/
def wrapBuildEntry : DirEntry :=
  { filename := ascii "enGB4294967296.mpq", is_regular_file := true,
    path := "ClientPatches/enGB4294967296.mpq", file_size := 10 }

/-- The session a call is made for; a tick is made for none. -/
def Op.target : Op → Option Nat
  | Op.initiate session _ => some session
  | Op.accept session => some session
  | Op.resume session _ => some session
  | Op.cancel session => some session
  | Op.tick => none

/-- A registry entry whose file has no bytes. -/
def patchEmpty : PatchInfo :=
  { Build := 12340, Locale := ascii "dede", FileSize := 0,
    MD5 := List.replicate 16 3, FilePath := "ClientPatches/deDE12340.mpq", DataLoaded := false }

/-- The disk of the scenarios with the empty patch file added. -/
def emptyFileFs : FileSys :=
  { content := fun path => if path = patchEmpty.FilePath then some [] else diskFs.content path,
    seekable := diskFs.seekable,
    readFault := diskFs.readFault }

/-! ## The installer: patch slots (`installer.c`)

`windows.h` is not part of the sources at hand: the constants and the file
attribute call that the installer takes from it are fields of `WinApi`. -/

/-- What `FindNextPatchNumber` uses of `windows.h`: `MAX_PATH`, the two
attribute constants, and `GetFileAttributesA` as a function of the path. -/
structure WinApi where
  MAX_PATH : Nat
  INVALID_FILE_ATTRIBUTES : Nat
  FILE_ATTRIBUTE_DIRECTORY : Nat
  GetFileAttributesA : List Nat → Nat

/-- `FileExists`: the path has attributes and is not a directory. -/
def FileExists (w : WinApi) (filename : List Nat) : Bool :=
  let attrib := w.GetFileAttributesA filename
  decide (attrib ≠ w.INVALID_FILE_ATTRIBUTES) &&
    !decide (attrib &&& w.FILE_ATTRIBUTE_DIRECTORY ≠ 0)

/-- The conversion `%d` of an `int`. -/
def formatInt (n : Int) : List Nat :=
  ascii (toString n)

/-- The `snprintf(path, MAX_PATH, "%s\\patch-%s-%d.MPQ", localeDir, locale,
patchNum)` of `FindNextPatchNumber`: the formatted text, cut to `MAX_PATH - 1`
characters. -/
def patchSlotPath (w : WinApi) (localeDir locale : List Nat) (patchNum : Int) : List Nat :=
  (localeDir ++ [92] ++ ascii "patch-" ++ locale ++ ascii "-" ++ formatInt patchNum ++
    ascii ".MPQ").take (w.MAX_PATH - 1)

/-- The loop of `FindNextPatchNumber` from `patchNum` on; `none` when `fuel`
iterations were not enough. -/
def findSlot (w : WinApi) (localeDir locale : List Nat) : Nat → Int → Option Int
  | 0, _ => none
  | fuel + 1, patchNum =>
    if patchNum ≤ 9 then
      if !FileExists w (patchSlotPath w localeDir locale patchNum) then some patchNum
      else findSlot w localeDir locale fuel (patchNum + 1)
    else some (-1)

/-- `FindNextPatchNumber`. -/
def FindNextPatchNumber (w : WinApi) (localeDir locale : List Nat) : Option Int :=
  findSlot w localeDir locale 9 2

/-- A client folder in which `patch-frFR-2.MPQ` and `patch-frFR-3.MPQ` are
files of `Data\frFR` and `patch-frFR-4.MPQ` is a directory there. -/
def clientDir : WinApi :=
  { MAX_PATH := 260, INVALID_FILE_ATTRIBUTES := 0xFFFFFFFF, FILE_ATTRIBUTE_DIRECTORY := 0x10,
    GetFileAttributesA := fun path =>
      if path = ascii "Data" ++ [92] ++ ascii "frFR" ++ [92] ++ ascii "patch-frFR-2.MPQ" then 0x20
      else if path = ascii "Data" ++ [92] ++ ascii "frFR" ++ [92] ++ ascii "patch-frFR-3.MPQ"
        then 0x80
      else if path = ascii "Data" ++ [92] ++ ascii "frFR" ++ [92] ++ ascii "patch-frFR-4.MPQ"
        then 0x10
      else 0xFFFFFFFF }

/-- A client folder in which every path is a file. -/
def fullDir : WinApi :=
  { MAX_PATH := 260, INVALID_FILE_ATTRIBUTES := 0xFFFFFFFF, FILE_ATTRIBUTE_DIRECTORY := 0x10,
    GetFileAttributesA := fun _ => 0x20 }

/-! ## The installer: MD5 (`installer.c`)

`DWORD` and `unsigned int` have 32 bits; bytes are `unsigned char` values. -/

/-- Record `MD5_CTX`: `state[4]`, `count[2]` (bit count, low word first) and
the 64-byte `buffer`. -/
structure MD5_CTX where
  state : Nat × Nat × Nat × Nat
  count : Nat × Nat
  buffer : List Nat
deriving DecidableEq, Repr

/-- The table `PADDING`. -/
def PADDING : List Nat := 0x80 :: List.replicate 63 0

/-- Macro `F`; `~x` on a `DWORD` is `x ^ 0xFFFFFFFF`. -/
def F (x y z : Nat) : Nat := (x &&& y) ||| ((x ^^^ 0xFFFFFFFF) &&& z)

/-- Macro `G`. -/
def G (x y z : Nat) : Nat := (x &&& z) ||| (y &&& (z ^^^ 0xFFFFFFFF))

/-- Macro `H`. -/
def H (x y z : Nat) : Nat := x ^^^ y ^^^ z

/-- Macro `I`. -/
def I (x y z : Nat) : Nat := y ^^^ (x ||| (z ^^^ 0xFFFFFFFF))

/-- Macro `ROTATE_LEFT` on a `DWORD`. -/
def ROTATE_LEFT (x n : Nat) : Nat := ((x <<< n) % 2 ^ 32) ||| (x >>> (32 - n))

/-- Macro `FF`: the value of `a` afterwards. -/
def FF (a b c d x s ac : Nat) : Nat :=
  (ROTATE_LEFT ((a + (F b c d + x + ac) % 2 ^ 32) % 2 ^ 32) s + b) % 2 ^ 32

/-- Macro `GG`: the value of `a` afterwards. -/
def GG (a b c d x s ac : Nat) : Nat :=
  (ROTATE_LEFT ((a + (G b c d + x + ac) % 2 ^ 32) % 2 ^ 32) s + b) % 2 ^ 32

/-- Macro `HH`: the value of `a` afterwards. -/
def HH (a b c d x s ac : Nat) : Nat :=
  (ROTATE_LEFT ((a + (H b c d + x + ac) % 2 ^ 32) % 2 ^ 32) s + b) % 2 ^ 32

/-- Macro `II`: the value of `a` afterwards. -/
def II (a b c d x s ac : Nat) : Nat :=
  (ROTATE_LEFT ((a + (I b c d + x + ac) % 2 ^ 32) % 2 ^ 32) s + b) % 2 ^ 32

/-- The word `x[i]` that `MD5Transform` decodes from bytes `4 i .. 4 i + 3` of
the block, least significant first. -/
def blockWord (block : List Nat) (i : Nat) : Nat :=
  (block.getD (4 * i) 0 ||| (block.getD (4 * i + 1) 0 <<< 8) |||
    (block.getD (4 * i + 2) 0 <<< 16) ||| (block.getD (4 * i + 3) 0 <<< 24)) % 2 ^ 32

/-- `MD5Transform`: the state after the 64 steps on one block. -/
def MD5Transform (state : Nat × Nat × Nat × Nat) (block : List Nat) : Nat × Nat × Nat × Nat :=
  let a := state.1
  let b := state.2.1
  let c := state.2.2.1
  let d := state.2.2.2
  let x := blockWord block
  let a := FF a b c d (x 0) 7 0xd76aa478
  let d := FF d a b c (x 1) 12 0xe8c7b756
  let c := FF c d a b (x 2) 17 0x242070db
  let b := FF b c d a (x 3) 22 0xc1bdceee
  let a := FF a b c d (x 4) 7 0xf57c0faf
  let d := FF d a b c (x 5) 12 0x4787c62a
  let c := FF c d a b (x 6) 17 0xa8304613
  let b := FF b c d a (x 7) 22 0xfd469501
  let a := FF a b c d (x 8) 7 0x698098d8
  let d := FF d a b c (x 9) 12 0x8b44f7af
  let c := FF c d a b (x 10) 17 0xffff5bb1
  let b := FF b c d a (x 11) 22 0x895cd7be
  let a := FF a b c d (x 12) 7 0x6b901122
  let d := FF d a b c (x 13) 12 0xfd987193
  let c := FF c d a b (x 14) 17 0xa679438e
  let b := FF b c d a (x 15) 22 0x49b40821
  let a := GG a b c d (x 1) 5 0xf61e2562
  let d := GG d a b c (x 6) 9 0xc040b340
  let c := GG c d a b (x 11) 14 0x265e5a51
  let b := GG b c d a (x 0) 20 0xe9b6c7aa
  let a := GG a b c d (x 5) 5 0xd62f105d
  let d := GG d a b c (x 10) 9 0x02441453
  let c := GG c d a b (x 15) 14 0xd8a1e681
  let b := GG b c d a (x 4) 20 0xe7d3fbc8
  let a := GG a b c d (x 9) 5 0x21e1cde6
  let d := GG d a b c (x 14) 9 0xc33707d6
  let c := GG c d a b (x 3) 14 0xf4d50d87
  let b := GG b c d a (x 8) 20 0x455a14ed
  let a := GG a b c d (x 13) 5 0xa9e3e905
  let d := GG d a b c (x 2) 9 0xfcefa3f8
  let c := GG c d a b (x 7) 14 0x676f02d9
  let b := GG b c d a (x 12) 20 0x8d2a4c8a
  let a := HH a b c d (x 5) 4 0xfffa3942
  let d := HH d a b c (x 8) 11 0x8771f681
  let c := HH c d a b (x 11) 16 0x6d9d6122
  let b := HH b c d a (x 14) 23 0xfde5380c
  let a := HH a b c d (x 1) 4 0xa4beea44
  let d := HH d a b c (x 4) 11 0x4bdecfa9
  let c := HH c d a b (x 7) 16 0xf6bb4b60
  let b := HH b c d a (x 10) 23 0xbebfbc70
  let a := HH a b c d (x 13) 4 0x289b7ec6
  let d := HH d a b c (x 0) 11 0xeaa127fa
  let c := HH c d a b (x 3) 16 0xd4ef3085
  let b := HH b c d a (x 6) 23 0x04881d05
  let a := HH a b c d (x 9) 4 0xd9d4d039
  let d := HH d a b c (x 12) 11 0xe6db99e5
  let c := HH c d a b (x 15) 16 0x1fa27cf8
  let b := HH b c d a (x 2) 23 0xc4ac5665
  let a := II a b c d (x 0) 6 0xf4292244
  let d := II d a b c (x 7) 10 0x432aff97
  let c := II c d a b (x 14) 15 0xab9423a7
  let b := II b c d a (x 5) 21 0xfc93a039
  let a := II a b c d (x 12) 6 0x655b59c3
  let d := II d a b c (x 3) 10 0x8f0ccc92
  let c := II c d a b (x 10) 15 0xffeff47d
  let b := II b c d a (x 1) 21 0x85845dd1
  let a := II a b c d (x 8) 6 0x6fa87e4f
  let d := II d a b c (x 15) 10 0xfe2ce6e0
  let c := II c d a b (x 6) 15 0xa3014314
  let b := II b c d a (x 13) 21 0x4e0811a1
  let a := II a b c d (x 4) 6 0xf7537e82
  let d := II d a b c (x 11) 10 0xbd3af235
  let c := II c d a b (x 2) 15 0x2ad7d2bb
  let b := II b c d a (x 9) 21 0xeb86d391
  ((state.1 + a) % 2 ^ 32, (state.2.1 + b) % 2 ^ 32, (state.2.2.1 + c) % 2 ^ 32,
    (state.2.2.2 + d) % 2 ^ 32)

/-- `MD5Init`: sets the counts and the state and leaves the buffer as it
was. -/
def MD5Init (context : MD5_CTX) : MD5_CTX :=
  { context with count := (0, 0), state := (0x67452301, 0xefcdab89, 0x98badcfe, 0x10325476) }

/-- `memcpy(&dst[off], src, src.length)` within an array. -/
def memcpy (dst : List Nat) (off : Nat) (src : List Nat) : List Nat :=
  dst.take off ++ src ++ dst.drop (off + src.length)

/-- The loop `for (i = partLen; i + 63 < inputLen; i += 64)` of `MD5Update`
from `i` on, with `unsigned int` arithmetic: the state and `i` at its end;
`none` when it reads beyond the input or `fuel` iterations were not enough. -/
def transformLoop (input : List Nat) :
    Nat → Nat × Nat × Nat × Nat → Nat → Option ((Nat × Nat × Nat × Nat) × Nat)
  | 0, _, _ => none
  | fuel + 1, state, i =>
    if (i + 63) % 2 ^ 32 < input.length then
      if i + 64 ≤ input.length then
        transformLoop input fuel (MD5Transform state ((input.drop i).take 64)) ((i + 64) % 2 ^ 32)
      else none
    else some (state, i)

/-- `MD5Update` on `input` with `inputLen = input.length`; `none` when the
length does not fit `unsigned int` or the block loop has no result. -/
def MD5Update (context : MD5_CTX) (input : List Nat) : Option MD5_CTX :=
  let inputLen := input.length
  if 2 ^ 32 ≤ inputLen then none
  else
    let index := (context.count.1 >>> 3) &&& 0x3F
    let count0 := (context.count.1 + (inputLen <<< 3) % 2 ^ 32) % 2 ^ 32
    let count1 := if count0 < (inputLen <<< 3) % 2 ^ 32 then (context.count.2 + 1) % 2 ^ 32
      else context.count.2
    let count1 := (count1 + (inputLen >>> 29)) % 2 ^ 32
    let partLen := 64 - index
    if inputLen ≥ partLen then
      let buffer := memcpy context.buffer index (input.take partLen)
      let state := MD5Transform context.state buffer
      match transformLoop input (inputLen / 64 + 1) state partLen with
      | none => none
      | some (state, i) =>
        some { state := state, count := (count0, count1),
               buffer := memcpy buffer 0 ((input.drop i).take (inputLen - i)) }
    else
      some { state := context.state, count := (count0, count1),
             buffer := memcpy context.buffer index (input.take inputLen) }

/-- The four bytes of a `DWORD`, least significant first, as the casts
`(unsigned char)(v >> (i * 8))` give them. -/
def dwordBytes (v : Nat) : List Nat :=
  [v % 256, (v >>> 8) % 256, (v >>> 16) % 256, (v >>> 24) % 256]

/-- `MD5Final`: the 16 digest bytes. -/
def MD5Final (context : MD5_CTX) : Option (List Nat) :=
  let bits := dwordBytes context.count.1 ++ dwordBytes context.count.2
  let index := (context.count.1 >>> 3) &&& 0x3f
  let padLen := if index < 56 then 56 - index else 120 - index
  match MD5Update context (PADDING.take padLen) with
  | none => none
  | some c1 =>
    match MD5Update c1 bits with
    | none => none
    | some c2 =>
      some (dwordBytes c2.state.1 ++ dwordBytes c2.state.2.1 ++ dwordBytes c2.state.2.2.1 ++
        dwordBytes c2.state.2.2.2)

/-- One hexadecimal digit in lower case. -/
def hexDigit (n : Nat) : Nat := if n < 10 then 48 + n else 87 + n

/-- The conversion `%02x` of a byte. -/
def formatHex (b : Nat) : List Nat := [hexDigit (b / 16), hexDigit (b % 16)]

/-- The loop `while ((bytesRead = fread(buffer, 1, 4096, file)) > 0)` of
`CalculateFileMD5` on a file with bytes `data`, from offset `pos` on. -/
def freadLoop (data : List Nat) : Nat → MD5_CTX → Nat → Option MD5_CTX
  | 0, _, _ => none
  | fuel + 1, ctx, pos =>
    let got := (data.drop pos).take 4096
    if got.length > 0 then
      match MD5Update ctx got with
      | none => none
      | some ctx' => freadLoop data fuel ctx' (pos + got.length)
    else some ctx

/-- `CalculateFileMD5` on a file with the given content (`none`: it cannot be
opened), with `ctx` as the stack leaves it: `some none` is the result `FALSE`,
`some (some hash)` is `TRUE` with the 32 characters of `hashOut`, and `none`
stands for a run without result. -/
def CalculateFileMD5 (content : Option (List Nat)) (ctx : MD5_CTX) : Option (Option (List Nat)) :=
  match content with
  | none => some none
  | some data =>
    match freadLoop data (data.length / 4096 + 2) (MD5Init ctx) 0 with
    | none => none
    | some ctx' => (MD5Final ctx').map (fun digest => some (digest.flatMap formatHex))

/-- A context as the stack may leave it: nothing set, the buffer full of
`0xCC`. -/
def staleCtx : MD5_CTX :=
  { state := (1, 2, 3, 4), count := (5, 6), buffer := List.replicate 64 0xCC }

/-- A disk with one 10000-byte patch file on which every read that starts at
offset 8192 or beyond ends in a device error. -/
def brokenDiskFs : FileSys :=
  { content := fun path =>
      if path = "ClientPatches/enGB12340.mpq" then some (List.replicate 10000 1) else none,
    seekable := fun _ pos => decide (pos < 2 ^ 63),
    readFault := fun _ pos => decide (8192 ≤ pos) }

/-- The directory entry of the file of `brokenDiskFs`. -/
def brokenDiskDir : List DirEntry :=
  [{ filename := ascii "enGB12340.mpq", is_regular_file := true,
     path := "ClientPatches/enGB12340.mpq", file_size := 10000 }]
/-! ## The job-set lock

The calls once more, as the sequence of what they do with `_jobsMutex` and
under it, in program order. -/

/-- One step of a call, as far as the lock is concerned. -/
inductive LockStep where
  /-- Construction of the `std::lock_guard` on `_jobsMutex`. -/
  | lock
  /-- Its destruction, at the return that leaves its scope. -/
  | unlock
  /-- The test of `_enabled`, with what it read. -/
  | enabled (value : Bool)
  /-- An observable effect: a packet handed to the session, a log line. -/
  | emit (e : Event)
  /-- A read or write of `_jobs`, with the job set it leaves. -/
  | jobs (js : List PatchJob)
deriving DecidableEq, Repr

/-- A step on the job set. -/
def LockStep.isJobs : LockStep → Bool
  | LockStep.jobs _ => true
  | _ => false

/-- A step that sends or logs. -/
def LockStep.isEmit : LockStep → Bool
  | LockStep.emit _ => true
  | _ => false

/-- The effects of a step sequence, in order. -/
def emitted : List LockStep → List Event
  | [] => []
  | LockStep.emit e :: rest => e :: emitted rest
  | _ :: rest => emitted rest

/-- The job set after a step sequence that starts on job set `js`: what the
last step on `_jobs` leaves. -/
def jobsAfter : List PatchJob → List LockStep → List PatchJob
  | js, [] => js
  | _, LockStep.jobs js :: rest => jobsAfter js rest
  | js, _ :: rest => jobsAfter js rest

/-- Whether, starting with the lock held or not, the lock is never taken while
held, never released while free, free at the end, and held at every step that
`guarded` selects. -/
def lockScan (guarded : LockStep → Bool) : Bool → List LockStep → Bool
  | held, [] => !held
  | held, LockStep.lock :: rest => !held && lockScan guarded true rest
  | held, LockStep.unlock :: rest => held && lockScan guarded false rest
  | held, step :: rest => (held || !guarded step) && lockScan guarded held rest

/-- The steps of `PatchMgr::InitiatePatch`: the argument test, the packet sent
through the session, then the lock and under it `RemoveJob` and `push_back`. -/
def InitiatePatchSteps (m : PatchMgr) (session : Nat) (patch : Option PatchInfo) :
    List LockStep :=
  match patch with
  | none => []
  | some p =>
    if session = 0 then []
    else
      let job : PatchJob :=
        { Session := session, Patch := p, File := IfStream.closed,
          Position := 0, Active := false, LastLoggedProgress := 0 }
      [LockStep.emit (Event.sendPacket session (initiatePacket p)), LockStep.lock,
       LockStep.jobs (RemoveJob m._jobs session),
       LockStep.jobs (RemoveJob m._jobs session ++ [job]), LockStep.unlock]

/-- The steps of `PatchMgr::HandleXferAccept`: the lock first, the loop over
`_jobs` under it. -/
def HandleXferAcceptSteps (fs : FileSys) (m : PatchMgr) (session : Nat) : List LockStep :=
  [LockStep.lock, LockStep.jobs (acceptLoop fs session m._jobs).1, LockStep.unlock]

/-- The steps of `PatchMgr::HandleXferResume`. -/
def HandleXferResumeSteps (fs : FileSys) (m : PatchMgr) (session position : Nat) :
    List LockStep :=
  [LockStep.lock, LockStep.jobs (resumeLoop fs session position m._jobs).1, LockStep.unlock]

/-- The steps of `PatchMgr::HandleXferCancel`. -/
def HandleXferCancelSteps (m : PatchMgr) (session : Nat) : List LockStep :=
  [LockStep.lock, LockStep.jobs (RemoveJob m._jobs session), LockStep.unlock]

/-- The steps of `PatchMgr::UpdateJobs`: the test of `_enabled`, then the lock
and under it the chunk of every driven job and the removal of the completed
jobs; `none` when a chunk divides by a zero `FileSize`. -/
def UpdateJobsSteps (fs : FileSys) (m : PatchMgr) : Option (List LockStep) :=
  if !m._enabled then some [LockStep.enabled false]
  else
    match driveJobs m._chunkSize fs m._jobs with
    | none => none
    | some (jobs, ev) =>
      some (LockStep.enabled true :: LockStep.lock ::
        (ev.map LockStep.emit ++ LockStep.jobs jobs ::
          ((jobs.filter completed).map (fun _ => LockStep.emit Event.logCompleted) ++
            [LockStep.jobs (jobs.filter (fun job => !completed job)), LockStep.unlock])))

/-- The steps of one call. -/
def stepsOf (fs : FileSys) (m : PatchMgr) : Op → Option (List LockStep)
  | Op.initiate session patch => some (InitiatePatchSteps m session patch)
  | Op.accept session => some (HandleXferAcceptSteps fs m session)
  | Op.resume session position => some (HandleXferResumeSteps fs m session position)
  | Op.cancel session => some (HandleXferCancelSteps m session)
  | Op.tick => UpdateJobsSteps fs m

set_option maxRecDepth 100000

/-! ## Registry lookups -/

/-- The loop of `FindPatchForClient` started with any `fallback`: an exact
entry wins, then the incoming fallback, then the first build-0 entry. -/
theorem findLoop_eq (build : Nat) (loc : List Nat) (ps : List PatchInfo)
    (fb : Option PatchInfo) :
    findLoop build loc ps fb =
      (ps.find? (fun p => decide (p.Locale = loc ∧ p.Build = build))).orElse
        (fun _ => fb.orElse
          (fun _ => ps.find? (fun p => decide (p.Locale = loc ∧ p.Build = 0)))) := by
  induction ps generalizing fb with
  | nil => cases fb <;> simp [findLoop]
  | cons p rest ih =>
    by_cases hl : p.Locale = loc
    · by_cases hb : p.Build = build
      · simp [findLoop, hl, hb, List.find?_cons]
      · by_cases h0 : p.Build = 0
        · have hb0 : ¬ (0 = build) := h0 ▸ hb
          cases fb with
          | none => simp [findLoop, hl, hb0, h0, List.find?_cons, ih]
          | some x => simp [findLoop, hl, hb0, h0, List.find?_cons, ih]
        · simp [findLoop, hl, hb, h0, List.find?_cons, ih]
    · simp [findLoop, hl, List.find?_cons, ih]

/-- Whatever the loop of `FindPatchForClient` returns is the incoming fallback
or an entry of the list with the requested locale. -/
theorem findLoop_sound (build : Nat) (loc : List Nat) (ps : List PatchInfo)
    (fb : Option PatchInfo) (p : PatchInfo) (h : findLoop build loc ps fb = some p) :
    fb = some p ∨ (p ∈ ps ∧ p.Locale = loc) := by
  induction ps generalizing fb with
  | nil => left; simpa [findLoop] using h
  | cons q rest ih =>
    unfold findLoop at h
    split_ifs at h with hl hb h0
    · right
      cases h
      exact ⟨List.mem_cons_self _ _, hl⟩
    · rcases ih _ h with h1 | ⟨h1, h2⟩
      · right
        cases h1
        exact ⟨List.mem_cons_self _ _, hl⟩
      · exact Or.inr ⟨List.mem_cons_of_mem _ h1, h2⟩
    · rcases ih _ h with h1 | ⟨h1, h2⟩
      · exact Or.inl h1
      · exact Or.inr ⟨List.mem_cons_of_mem _ h1, h2⟩
    · rcases ih _ h with h1 | ⟨h1, h2⟩
      · exact Or.inl h1
      · exact Or.inr ⟨List.mem_cons_of_mem _ h1, h2⟩

/-- C1: with patching enabled, `FindPatchForClient(B, L)` is the first entry in
list order with locale `lower(L)` and build `B` when there is one, otherwise the
first entry in list order with locale `lower(L)` and build `0` when there is
one, otherwise none. -/
theorem FindPatchForClient_exact_then_fallback (m : PatchMgr) (build : Nat) (locale : List Nat)
    (hen : m._enabled = true) :
    FindPatchForClient m build locale =
      (m._patches.find? (fun p => decide (p.Locale = toLowerStr locale ∧ p.Build = build))).orElse
        (fun _ => m._patches.find?
          (fun p => decide (p.Locale = toLowerStr locale ∧ p.Build = 0))) := by
  unfold FindPatchForClient
  by_cases he : m._patches = []
  · simp [he, hen]
  · have hne : m._patches.isEmpty = false := by
      cases hp : m._patches with
      | nil => exact absurd hp he
      | cons a l => rfl
    simp [hen, hne, findLoop_eq]

/-- C1 at the registry of scenarios 1 and 2. -/
theorem FindPatchForClient_exact_then_fallback_witness :
    FindPatchForClient (mgrWith [patchEnGB] 1500) 12340 (ascii "enGB") = some patchEnGB ∧
    FindPatchForClient (mgrWith [patchEnGB] 1500) 12341 (ascii "enGB") = none ∧
    FindPatchForClient (mgrWith [patchEnGB, patchFrFR] 1500) 99 (ascii "frFR") = some patchFrFR :=
  ⟨(FindPatchForClient_exact_then_fallback (mgrWith [patchEnGB] 1500) 12340 (ascii "enGB")
      rfl).trans (by decide),
   (FindPatchForClient_exact_then_fallback (mgrWith [patchEnGB] 1500) 12341 (ascii "enGB")
      rfl).trans (by decide),
   (FindPatchForClient_exact_then_fallback (mgrWith [patchEnGB, patchFrFR] 1500) 99
      (ascii "frFR") rfl).trans (by decide)⟩

/-- C2: an entry returned by `FindPatchForClient` is an entry of the patch list
and its locale is the lower-cased requested locale. -/
theorem FindPatchForClient_member_same_locale (m : PatchMgr) (build : Nat) (locale : List Nat)
    (p : PatchInfo) (h : FindPatchForClient m build locale = some p) :
    p ∈ m._patches ∧ p.Locale = toLowerStr locale := by
  unfold FindPatchForClient at h
  split_ifs at h
  rcases findLoop_sound _ _ _ _ _ h with h1 | h1
  · cases h1
  · exact h1

/-- C2 at the fallback lookup of scenario 2. -/
theorem FindPatchForClient_member_same_locale_witness :
    patchFrFR ∈ (mgrWith [patchEnGB, patchFrFR] 1500)._patches ∧
      patchFrFR.Locale = toLowerStr (ascii "frFR") :=
  FindPatchForClient_member_same_locale (mgrWith [patchEnGB, patchFrFR] 1500) 99 (ascii "frFR")
    patchFrFR (by decide)

/-! ## One job per session -/

theorem acceptLoop_sessions (fs : FileSys) (s : Nat) (js : List PatchJob) :
    (acceptLoop fs s js).1.map PatchJob.Session = js.map PatchJob.Session := by
  induction js with
  | nil => rfl
  | cons j rest ih =>
    simp only [acceptLoop]
    split_ifs <;> simp [ih]

theorem resumeLoop_sessions (fs : FileSys) (s pos : Nat) (js : List PatchJob) :
    (resumeLoop fs s pos js).1.map PatchJob.Session = js.map PatchJob.Session := by
  induction js with
  | nil => rfl
  | cons j rest ih =>
    simp only [resumeLoop]
    split_ifs <;> simp [ih]

/-- `SendPatchChunk` never changes whose job it is nor which patch it sends. -/
theorem SendPatchChunk_keeps (c : Nat) (fs : FileSys) (j j' : PatchJob) (ev : List Event)
    (h : SendPatchChunk c fs j = some (j', ev)) :
    j'.Session = j.Session ∧ j'.Patch = j.Patch := by
  unfold SendPatchChunk at h
  simp only at h
  split_ifs at h <;> simp only [Option.some.injEq, Prod.mk.injEq] at h <;>
    (obtain ⟨rfl, -⟩ := h; exact ⟨rfl, rfl⟩)

theorem driveJobs_sessions (c : Nat) (fs : FileSys) (js js' : List PatchJob) (ev : List Event)
    (h : driveJobs c fs js = some (js', ev)) :
    js'.map PatchJob.Session = js.map PatchJob.Session := by
  induction js generalizing js' ev with
  | nil =>
    simp only [driveJobs, Option.some.injEq, Prod.mk.injEq] at h
    rw [← h.1]
  | cons j rest ih =>
    unfold driveJobs at h
    split_ifs at h with hskip
    · cases hr : driveJobs c fs rest with
      | none => simp [hr] at h
      | some r =>
        simp only [hr, Option.map_some', Option.some.injEq, Prod.mk.injEq] at h
        rw [← h.1]
        simp [ih r.1 r.2 hr]
    · cases hs : SendPatchChunk c fs j with
      | none => simp [hs] at h
      | some q =>
        obtain ⟨j1, ev1⟩ := q
        cases hr : driveJobs c fs rest with
        | none => simp [hs, hr] at h
        | some r =>
          simp only [hs, hr, Option.map_some', Option.some.injEq, Prod.mk.injEq] at h
          rw [← h.1]
          simp [ih r.1 r.2 hr, (SendPatchChunk_keeps c fs j j1 ev1 hs).1]

theorem RemoveJob_sessions_nodup (js : List PatchJob) (s : Nat)
    (hn : (js.map PatchJob.Session).Nodup) :
    ((RemoveJob js s).map PatchJob.Session).Nodup :=
  hn.sublist (List.Sublist.map _ (List.filter_sublist js))

theorem RemoveJob_not_mem (js : List PatchJob) (s : Nat) :
    s ∉ (RemoveJob js s).map PatchJob.Session := by
  simp [RemoveJob, List.mem_map, List.mem_filter]

/-- Every call keeps the sessions of the job set pairwise distinct. -/
theorem step_sessions_nodup (fs : FileSys) (m m' : PatchMgr) (op : Op)
    (h : step fs m op = some m') (hn : (m._jobs.map PatchJob.Session).Nodup) :
    (m'._jobs.map PatchJob.Session).Nodup := by
  cases op with
  | initiate s p =>
    simp only [step, Option.some.injEq] at h
    subst h
    unfold InitiatePatch
    cases p with
    | none => exact hn
    | some p =>
      by_cases hs : s = 0
      · simpa [hs] using hn
      · simp only [hs, if_false, List.map_append, List.map_cons, List.map_nil]
        rw [List.nodup_append]
        refine ⟨RemoveJob_sessions_nodup _ _ hn, List.nodup_singleton _, ?_⟩
        intro a ha hb
        rw [List.mem_singleton] at hb
        subst hb
        exact RemoveJob_not_mem _ _ ha
  | accept s =>
    simp only [step, Option.some.injEq] at h
    subst h
    simpa [HandleXferAccept, acceptLoop_sessions] using hn
  | resume s pos =>
    simp only [step, Option.some.injEq] at h
    subst h
    simpa [HandleXferResume, resumeLoop_sessions] using hn
  | cancel s =>
    simp only [step, Option.some.injEq] at h
    subst h
    exact RemoveJob_sessions_nodup _ _ hn
  | tick =>
    simp only [step, UpdateJobs] at h
    split_ifs at h with hen
    · simp only [Option.some.injEq] at h
      subst h
      exact hn
    · cases hd : driveJobs m._chunkSize fs m._jobs with
      | none => simp [hd] at h
      | some r =>
        obtain ⟨js, ev⟩ := r
        simp only [hd, Option.some.injEq] at h
        subst h
        have hs := driveJobs_sessions _ _ _ _ _ hd
        simp only
        refine List.Nodup.sublist (List.Sublist.map _ (List.filter_sublist js)) ?_
        rw [hs]
        exact hn

theorem run_sessions_nodup (fs : FileSys) (ops : List Op) (m m' : PatchMgr)
    (h : run fs ops m = some m') (hn : (m._jobs.map PatchJob.Session).Nodup) :
    (m'._jobs.map PatchJob.Session).Nodup := by
  induction ops generalizing m with
  | nil =>
    simp only [run, Option.some.injEq] at h
    subst h
    exact hn
  | cons op ops ih =>
    unfold run at h
    cases hs : step fs m op with
    | none => simp [hs] at h
    | some m1 =>
      simp only [hs] at h
      exact ih m1 h (step_sessions_nodup fs m m1 op hs hn)

theorem jobsOf_length_le_one (s : Nat) (js : List PatchJob)
    (hn : (js.map PatchJob.Session).Nodup) : (jobsOf s js).length ≤ 1 := by
  have h1 := List.nodup_iff_count_le_one.mp hn s
  have h2 : (jobsOf s js).length = (js.map PatchJob.Session).count s := by
    unfold jobsOf
    induction js with
    | nil => rfl
    | cons j rest ih =>
      have hr := ih (List.Nodup.of_cons hn) (List.nodup_iff_count_le_one.mp (List.Nodup.of_cons hn) s)
      by_cases hj : j.Session = s
      · simp [List.filter_cons, hj, hr, List.count_cons]
      · simp [List.filter_cons, hj, hr, List.count_cons]
  omega

/-- C3: starting from an empty job set, after any finite sequence of Initiate,
Accept, Resume, Cancel and Tick calls that the process survives, the job set
holds at most one job for each session identity. -/
theorem at_most_one_job_per_session (fs : FileSys) (m m' : PatchMgr) (ops : List Op)
    (hempty : m._jobs = []) (hrun : run fs ops m = some m') (s : Nat) :
    (jobsOf s m'._jobs).length ≤ 1 :=
  jobsOf_length_le_one s m'._jobs
    (run_sessions_nodup fs ops m m' hrun (by simp [hempty]))

/-- C3 on a run that supersedes a job, resumes, ticks and cancels. -/
theorem at_most_one_job_per_session_witness :
    ∃ m', run diskFs demoOps (mgrWith [patchEnGB, patchFrFR] 300) = some m' ∧
      (jobsOf 1 m'._jobs).length ≤ 1 ∧ (jobsOf 2 m'._jobs).length ≤ 1 :=
  have h : (run diskFs demoOps (mgrWith [patchEnGB, patchFrFR] 300)).isSome = true := by decide
  ⟨_, (Option.some_get h).symm,
    at_most_one_job_per_session diskFs (mgrWith [patchEnGB, patchFrFR] 300) _ demoOps rfl
      (Option.some_get h).symm 1,
    at_most_one_job_per_session diskFs (mgrWith [patchEnGB, patchFrFR] 300) _ demoOps rfl
      (Option.some_get h).symm 2⟩

/-! ## Cancel and the guards of Initiate -/

theorem jobsOf_RemoveJob_self (js : List PatchJob) (s : Nat) : jobsOf s (RemoveJob js s) = [] := by
  simp [jobsOf, RemoveJob, List.filter_filter]

theorem jobsOf_RemoveJob_other (js : List PatchJob) (s t : Nat) (h : t ≠ s) :
    jobsOf t (RemoveJob js s) = jobsOf t js := by
  simp only [jobsOf, RemoveJob, List.filter_filter]
  apply List.filter_congr
  intro j _
  by_cases hj : j.Session = t
  · simp [hj, h]
  · simp [hj]

theorem RemoveJob_of_no_job (js : List PatchJob) (s : Nat) (h : jobsOf s js = []) :
    RemoveJob js s = js := by
  unfold RemoveJob
  rw [List.filter_eq_self]
  intro j hj
  have hno : j ∉ jobsOf s js := by simp [h]
  simp only [jobsOf, List.mem_filter, decide_eq_true_eq, not_and] at hno
  simpa using hno hj

/-- C8: `HandleXferCancel` always reports success; when the session has no job
the manager is left exactly as it was; cancelling twice leaves what cancelling
once leaves. -/
theorem HandleXferCancel_idempotent (m : PatchMgr) (s : Nat) :
    (HandleXferCancel m s).2 = true ∧
    (jobsOf s m._jobs = [] → (HandleXferCancel m s).1 = m) ∧
    HandleXferCancel (HandleXferCancel m s).1 s = HandleXferCancel m s := by
  refine ⟨rfl, ?_, ?_⟩
  · intro h
    simp [HandleXferCancel, RemoveJob_of_no_job _ _ h]
  · have h2 : RemoveJob (RemoveJob m._jobs s) s = RemoveJob m._jobs s :=
      RemoveJob_of_no_job _ _ (jobsOf_RemoveJob_self _ _)
    simp [HandleXferCancel, h2]

/-- C8 on a job set holding one pending job of session 3: cancelling session
7, which has no job, leaves the manager as it was. -/
theorem HandleXferCancel_idempotent_witness :
    jobsOf 7 (InitiatePatch (mgrWith [patchEnGB] 300) 3 (some patchEnGB)).1._jobs = [] ∧
    (HandleXferCancel (InitiatePatch (mgrWith [patchEnGB] 300) 3 (some patchEnGB)).1 7).1 =
      (InitiatePatch (mgrWith [patchEnGB] 300) 3 (some patchEnGB)).1 :=
  ⟨by decide,
    (HandleXferCancel_idempotent (InitiatePatch (mgrWith [patchEnGB] 300) 3 (some patchEnGB)).1
      7).2.1 (by decide)⟩

/-- C9: after `HandleXferCancel(A)` no job of `A` remains, every other session
keeps exactly its jobs (same patch, offset, stream, active flag and last logged
progress), and the jobs that remain are the former ones in their former order;
nothing else of the manager changes. -/
theorem HandleXferCancel_frame (m : PatchMgr) (a : Nat) :
    jobsOf a (HandleXferCancel m a).1._jobs = [] ∧
    (∀ b, b ≠ a → jobsOf b (HandleXferCancel m a).1._jobs = jobsOf b m._jobs) ∧
    (HandleXferCancel m a).1._jobs.Sublist m._jobs ∧
    (∀ j ∈ m._jobs, j.Session ≠ a → j ∈ (HandleXferCancel m a).1._jobs) ∧
    (HandleXferCancel m a).1.trace = m.trace ∧
    (HandleXferCancel m a).1._patches = m._patches := by
  refine ⟨jobsOf_RemoveJob_self _ _, fun b hb => jobsOf_RemoveJob_other _ _ _ hb,
    List.filter_sublist _, ?_, rfl, rfl⟩
  intro j hj hne
  simp [HandleXferCancel, RemoveJob, List.mem_filter, hj, hne]

/-- C9 with two sessions that were each offered a patch: cancelling session 1
leaves the job of session 2 as it was. -/
theorem HandleXferCancel_frame_witness :
    jobsOf 2 (HandleXferCancel (InitiatePatch (InitiatePatch (mgrWith [patchEnGB, patchFrFR] 300)
        1 (some patchEnGB)).1 2 (some patchFrFR)).1 1).1._jobs =
      jobsOf 2 (InitiatePatch (InitiatePatch (mgrWith [patchEnGB, patchFrFR] 300)
        1 (some patchEnGB)).1 2 (some patchFrFR)).1._jobs :=
  (HandleXferCancel_frame (InitiatePatch (InitiatePatch (mgrWith [patchEnGB, patchFrFR] 300)
        1 (some patchEnGB)).1 2 (some patchFrFR)).1 1).2.1 2 (by decide)

/-- C10: `InitiatePatch` with a null session or a null patch reports failure
and leaves the manager as it was: same job set, nothing sent. -/
theorem InitiatePatch_absent_argument (m : PatchMgr) (session : Nat) (patch : Option PatchInfo)
    (h : session = 0 ∨ patch = none) :
    InitiatePatch m session patch = (m, false) := by
  unfold InitiatePatch
  cases patch with
  | none => rfl
  | some p =>
    rcases h with h | h
    · simp [h]
    · cases h

/-- C10 for a null session with a present patch, and a present session with a
null patch. -/
theorem InitiatePatch_absent_argument_witness :
    InitiatePatch (mgrWith [patchEnGB] 300) 0 (some patchEnGB) = (mgrWith [patchEnGB] 300, false) ∧
    InitiatePatch (mgrWith [patchEnGB] 300) 5 none = (mgrWith [patchEnGB] 300, false) :=
  ⟨InitiatePatch_absent_argument (mgrWith [patchEnGB] 300) 0 (some patchEnGB) (Or.inl rfl),
   InitiatePatch_absent_argument (mgrWith [patchEnGB] 300) 5 none (Or.inr rfl)⟩

/-! ## Resume past the end of the file -/

/-- C5 at its failing input: on a pending job for a 1000-byte patch, `Resume`
at offset 2000 reports success, moves the job's offset to 2000 and activates
it. -/
theorem HandleXferResume_past_end_accepted :
    (HandleXferResume diskFs (InitiatePatch (mgrWith [patchEnGB] 300) 1 (some patchEnGB)).1
      1 2000).2 = true ∧
    (HandleXferResume diskFs (InitiatePatch (mgrWith [patchEnGB] 300) 1 (some patchEnGB)).1
      1 2000).1._jobs.map (fun j => (j.Session, j.Patch.FileSize, j.Position, j.Active)) =
      [(1, 1000, 2000, true)] := by
  decide

/-- C4 at its failing input: from an empty job set, Initiate then Resume at
2000 leaves a job whose offset exceeds the size of its patch. -/
theorem offset_invariant_broken_by_resume :
    (mgrWith [patchEnGB] 300)._jobs = [] ∧
    ∃ m', run diskFs [Op.initiate 1 (some patchEnGB), Op.resume 1 2000]
        (mgrWith [patchEnGB] 300) = some m' ∧
      ∃ j ∈ m'._jobs, ¬ (j.Position ≤ j.Patch.FileSize) := by
  refine ⟨rfl, (HandleXferResume diskFs
    (InitiatePatch (mgrWith [patchEnGB] 300) 1 (some patchEnGB)).1 1 2000).1, rfl, ?_⟩
  decide

/-- C7 at its failing input: after a successful Resume at 2000 on a 1000-byte
patch with chunk size 300, one tick sends a 300-byte DATA frame (zero filled,
nothing is left to read) and removes the job. -/
theorem resume_past_end_sends_chunk :
    (HandleXferResume diskFs (InitiatePatch (mgrWith [patchEnGB] 300) 1 (some patchEnGB)).1
      1 2000).2 = true ∧
    (run diskFs [Op.initiate 1 (some patchEnGB), Op.resume 1 2000, Op.tick]
        (mgrWith [patchEnGB] 300)).map
      (fun m' => (m'._jobs, dataLens 1 m'.trace, m'.trace.getLast?)) =
      some ([], [300], some Event.logCompleted) := by
  decide

/-! ## Driving one transfer -/

theorem read_length (fs : FileSys) (f : IfStream) (n : Nat) : (f.read fs n).2.length = n := by
  simp only [IfStream.read]
  split_ifs with h1 h2 h3 h4
  · simp
  · simp
  · simp
  · simp only [List.length_append, List.length_replicate]
    omega
  · simp only [List.length_take] at h4 ⊢
    omega

theorem read_usable (fs : FileSys) (f : IfStream) (n : Nat) (hu : f.usable = true)
    (hnf : ∀ pos, fs.readFault f.path pos = false) :
    ((f.read fs n).1.fail && !(f.read fs n).1.eofbit) = false ∧ (f.read fs n).1.usable = true ∧
      (f.read fs n).1.is_open = f.is_open ∧ (f.read fs n).1.path = f.path := by
  obtain ⟨o, p, cur, fb, eb, bb⟩ := f
  simp only [IfStream.usable] at hu
  simp only at hnf
  unfold IfStream.read
  simp only [hnf, IfStream.good]
  cases fb <;> cases eb <;> cases bb <;> cases o <;>
    simp_all [IfStream.fail, IfStream.usable]
  all_goals split_ifs <;> simp

theorem dataLens_append (s : Nat) (a b : List Event) :
    dataLens s (a ++ b) = dataLens s a ++ dataLens s b := by
  induction a with
  | nil => rfl
  | cons e rest ih =>
    cases e with
    | sendPacket t bytes =>
      simp only [List.cons_append, dataLens]
      split_ifs <;> simp [ih]
    | logProgress p a b c => simpa [dataLens] using ih
    | logCompleted => simpa [dataLens] using ih
    | logError => simpa [dataLens] using ih

theorem dataLens_dataPacket (s k : Nat) (data : List Nat) (rest : List Event)
    (h : data.length = k) :
    dataLens s (Event.sendPacket s (dataPacket k data) :: rest) = k :: dataLens s rest := by
  simp [dataLens, dataPacket, leBytes, h]

/-- One `SendPatchChunk` on a healthy job: it sends `min(chunk, remaining)`
bytes, advances the offset by as much, and leaves the job healthy. -/
theorem SendPatchChunk_healthy (c : Nat) (fs : FileSys) (s : Nat) (j : PatchJob)
    (hc0 : 0 < c) (hc : c ≤ 65535) (h : Healthy fs s j) :
    ∃ j' ev, SendPatchChunk c fs j = some (j', ev) ∧ j'.Patch = j.Patch ∧
      j'.Position = j.Position + min c (j.Patch.FileSize - j.Position) ∧
      j'.File.path = j.File.path ∧ Healthy fs s j' ∧
      dataLens s ev = if min c (j.Patch.FileSize - j.Position) = 0 then []
        else [min c (j.Patch.FileSize - j.Position)] := by
  obtain ⟨hs, hs0, hact, hopen, hus, hnf, hin, hpos, hlt⟩ := h
  have hrem : (j.Patch.FileSize + 2 ^ 64 - j.Position) % 2 ^ 64 =
      j.Patch.FileSize - j.Position := by
    have h1 : j.Patch.FileSize + 2 ^ 64 - j.Position = (j.Patch.FileSize - j.Position) + 2 ^ 64 := by
      omega
    rw [h1, Nat.add_mod_right]
    exact Nat.mod_eq_of_lt (by omega)
  have hle : min c (j.Patch.FileSize - j.Position) ≤ c := Nat.min_le_left _ _
  have hle2 : min c (j.Patch.FileSize - j.Position) ≤ j.Patch.FileSize - j.Position :=
    Nat.min_le_right _ _
  have hchunk : min c (j.Patch.FileSize - j.Position) % 2 ^ 16 =
      min c (j.Patch.FileSize - j.Position) := Nat.mod_eq_of_lt (by omega)
  generalize hk : min c (j.Patch.FileSize - j.Position) = k at *
  have hsne : ¬ j.Session = 0 := by rw [hs]; exact hs0
  have hF : ¬ j.Patch.FileSize = 0 := by omega
  have hposn : (j.Position + k) % 2 ^ 64 = j.Position + k := Nat.mod_eq_of_lt (by omega)
  obtain ⟨hr1, hr2, hr3, hr4⟩ := read_usable fs j.File k hus hnf
  have hlen := read_length fs j.File k
  unfold SendPatchChunk
  simp only [hsne, if_false, hrem, hk, hchunk, hr1, hF, hposn, Bool.false_eq_true]
  by_cases hk0 : k = 0
  · simp only [hk0, if_true]
    refine ⟨j, [], rfl, rfl, by omega, rfl, ⟨hs, hs0, hact, hopen, hus, hnf, hin, hpos, hlt⟩, rfl⟩
  · simp only [hk0, if_false]
    split_ifs with hp
    · refine ⟨_, _, rfl, rfl, rfl, hr4, ⟨hs, hs0, hact, ?_, hr2, ?_, ?_, hpos, hlt⟩, ?_⟩
      · simpa using hr3.trans hopen
      · simpa [hr4] using hnf
      · simp only; omega
      · rw [← hs]
        rw [dataLens_dataPacket _ _ _ _ hlen]
        rfl
    · refine ⟨_, _, rfl, rfl, rfl, hr4, ⟨hs, hs0, hact, ?_, hr2, ?_, ?_, hpos, hlt⟩, ?_⟩
      · simpa using hr3.trans hopen
      · simpa [hr4] using hnf
      · simp only; omega
      · rw [← hs]
        exact dataLens_dataPacket _ _ _ _ hlen

theorem driveJobs_cons (c : Nat) (fs : FileSys) (j : PatchJob) (rest : List PatchJob) :
    driveJobs c fs (j :: rest) =
      (driveOne c fs j).bind (fun a =>
        (driveJobs c fs rest).map (fun r => (a.1 :: r.1, a.2 ++ r.2))) := by
  simp only [driveJobs, driveOne]
  split_ifs with hskip
  · simp
  · cases hs : SendPatchChunk c fs j with
    | none => rfl
    | some q => rfl

theorem driveJobs_cons_some (c : Nat) (fs : FileSys) (j : PatchJob) (rest js' : List PatchJob)
    (ev : List Event) (h : driveJobs c fs (j :: rest) = some (js', ev)) :
    ∃ j1 e1 r1 e2, driveOne c fs j = some (j1, e1) ∧ driveJobs c fs rest = some (r1, e2) ∧
      js' = j1 :: r1 ∧ ev = e1 ++ e2 := by
  rw [driveJobs_cons] at h
  cases h1 : driveOne c fs j with
  | none => simp [h1] at h
  | some a =>
    cases h2 : driveJobs c fs rest with
    | none => simp [h1, h2] at h
    | some r =>
      simp only [h1, h2, Option.some_bind, Option.map_some', Option.some.injEq,
        Prod.mk.injEq] at h
      exact ⟨a.1, a.2, r.1, r.2, rfl, rfl, h.1.symm, h.2.symm⟩

theorem driveOne_keeps (c : Nat) (fs : FileSys) (j j' : PatchJob) (ev : List Event)
    (h : driveOne c fs j = some (j', ev)) : j'.Session = j.Session ∧ j'.Patch = j.Patch := by
  unfold driveOne at h
  split_ifs at h
  · simp only [Option.some.injEq, Prod.mk.injEq] at h
    obtain ⟨rfl, -⟩ := h
    exact ⟨rfl, rfl⟩
  · exact SendPatchChunk_keeps c fs j j' ev h

/-- What one job sends never shows up as a DATA frame of another session. -/
theorem driveOne_other (c : Nat) (fs : FileSys) (s : Nat) (j j' : PatchJob) (ev : List Event)
    (h : driveOne c fs j = some (j', ev)) (hne : j.Session ≠ s) : dataLens s ev = [] := by
  unfold driveOne at h
  split_ifs at h
  · simp only [Option.some.injEq, Prod.mk.injEq] at h
    rw [← h.2]
    rfl
  · unfold SendPatchChunk at h
    simp only at h
    split_ifs at h <;> simp only [Option.some.injEq, Prod.mk.injEq] at h <;>
      (rw [← h.2]; simp [dataLens, hne])

/-- Driving the whole job set, seen from one session: its jobs are driven as
if they were alone, and its DATA frames are theirs. -/
theorem driveJobs_jobsOf (c : Nat) (fs : FileSys) (s : Nat) (js js' : List PatchJob)
    (ev : List Event) (h : driveJobs c fs js = some (js', ev)) :
    ∃ e, driveJobs c fs (jobsOf s js) = some (jobsOf s js', e) ∧
      dataLens s e = dataLens s ev := by
  induction js generalizing js' ev with
  | nil =>
    simp only [driveJobs, Option.some.injEq, Prod.mk.injEq] at h
    obtain ⟨rfl, rfl⟩ := h
    exact ⟨[], rfl, rfl⟩
  | cons j rest ih =>
    obtain ⟨j1, e1, r1, e2, h1, h2, rfl, rfl⟩ := driveJobs_cons_some c fs j rest js' ev h
    obtain ⟨e, he1, he2⟩ := ih r1 e2 h2
    have hk := (driveOne_keeps c fs j j1 e1 h1).1
    by_cases hj : j.Session = s
    · have hj1 : j1.Session = s := hk.trans hj
      refine ⟨e1 ++ e, ?_, ?_⟩
      · simp only [jobsOf, List.filter_cons, hj, hj1, decide_True, if_true]
        rw [driveJobs_cons, h1]
        simp only [jobsOf] at he1
        simp [he1]
      · rw [dataLens_append, dataLens_append, he2]
    · have hj1 : ¬ j1.Session = s := by rw [hk]; exact hj
      refine ⟨e, ?_, ?_⟩
      · simp only [jobsOf, List.filter_cons, hj, hj1, decide_False]
        simpa [jobsOf] using he1
      · rw [dataLens_append, driveOne_other c fs s j j1 e1 h1 hj, he2]
        rfl

theorem dataLens_logCompleted (s : Nat) (js : List PatchJob) :
    dataLens s (js.map (fun _ => Event.logCompleted)) = [] := by
  induction js with
  | nil => rfl
  | cons j rest ih => simpa [dataLens] using ih

/-- One `UpdateJobs` of an enabled manager, seen from one session. -/
theorem UpdateJobs_jobsOf (fs : FileSys) (s : Nat) (m m' : PatchMgr) (hen : m._enabled = true)
    (h : UpdateJobs fs m = some m') :
    ∃ js e, driveJobs m._chunkSize fs (jobsOf s m._jobs) = some (js, e) ∧
      jobsOf s m'._jobs = js.filter (fun job => !completed job) ∧
      dataLens s m'.trace = dataLens s m.trace ++ dataLens s e ∧
      m'._enabled = true ∧ m'._chunkSize = m._chunkSize := by
  unfold UpdateJobs at h
  simp only [hen, Bool.not_true, Bool.false_eq_true, if_false] at h
  cases hd : driveJobs m._chunkSize fs m._jobs with
  | none => simp [hd] at h
  | some r =>
    obtain ⟨js, ev⟩ := r
    simp only [hd, Option.some.injEq] at h
    subst h
    obtain ⟨e, he1, he2⟩ := driveJobs_jobsOf _ fs s _ _ _ hd
    refine ⟨_, e, he1, ?_, ?_, rfl, rfl⟩
    · simp only [jobsOf, List.filter_filter]
      apply List.filter_congr
      intro x _
      exact Bool.and_comm _ _
    · simp only [dataLens_append, dataLens_logCompleted, he2, List.append_nil]

theorem run_cons_some (fs : FileSys) (op : Op) (ops : List Op) (m m' : PatchMgr)
    (h : run fs (op :: ops) m = some m') :
    ∃ m1, step fs m op = some m1 ∧ run fs ops m1 = some m' := by
  unfold run at h
  cases hs : step fs m op with
  | none => simp [hs] at h
  | some m1 => exact ⟨m1, rfl, by simpa [hs] using h⟩

/-- Ticks do nothing for a session that has no job. -/
theorem ticks_no_job (fs : FileSys) (s n : Nat) (m m' : PatchMgr) (hno : jobsOf s m._jobs = [])
    (hrun : run fs (List.replicate n Op.tick) m = some m') :
    jobsOf s m'._jobs = [] ∧ dataLens s m'.trace = dataLens s m.trace := by
  induction n generalizing m with
  | zero =>
    simp only [List.replicate, run, Option.some.injEq] at hrun
    subst hrun
    exact ⟨hno, rfl⟩
  | succ n ih =>
    obtain ⟨m1, h1, h2⟩ := run_cons_some fs _ _ m m' hrun
    simp only [step] at h1
    cases hen : m._enabled with
    | false =>
      have : m1 = m := by simpa [UpdateJobs, hen] using h1.symm
      subst this
      exact ih m1 hno h2
    | true =>
      obtain ⟨js, e, hd, hj, ht, -, -⟩ := UpdateJobs_jobsOf fs s m m1 hen h1
      rw [hno] at hd
      simp only [driveJobs, Option.some.injEq, Prod.mk.injEq] at hd
      obtain ⟨rfl, rfl⟩ := hd
      obtain ⟨r1, r2⟩ := ih m1 (by simpa using hj) h2
      refine ⟨r1, ?_⟩
      rw [r2, ht]
      simp [dataLens]

/-- A healthy job under `n` ticks: while `n` chunks do not cover what remains
it is still there, healthy, `n` chunks further; once they do it is gone; the
DATA frames sent to its session in those ticks carry `min(n * chunk,
remaining)` bytes in total. -/
theorem ticks_healthy (fs : FileSys) (s c : Nat) (hc0 : 0 < c) (hc : c ≤ 65535) (n : Nat)
    (m m' : PatchMgr) (j : PatchJob) (hen : m._enabled = true) (hcs : m._chunkSize = c)
    (hj : jobsOf s m._jobs = [j]) (hh : Healthy fs s j)
    (hrun : run fs (List.replicate n Op.tick) m = some m') :
    (n * c < j.Patch.FileSize - j.Position →
      ∃ j', jobsOf s m'._jobs = [j'] ∧ Healthy fs s j' ∧ j'.Patch = j.Patch ∧
        j'.Position = j.Position + n * c ∧ j'.File.path = j.File.path) ∧
    (j.Patch.FileSize - j.Position ≤ n * c → 0 < n → jobsOf s m'._jobs = []) ∧
    (∃ L, dataLens s m'.trace = dataLens s m.trace ++ L ∧
      L.sum = min (n * c) (j.Patch.FileSize - j.Position)) := by
  induction n generalizing m j with
  | zero =>
    simp only [List.replicate, run, Option.some.injEq] at hrun
    subst hrun
    refine ⟨fun _ => ⟨j, hj, hh, rfl, by simp, rfl⟩, fun _ h0 => absurd h0 (by decide),
      ⟨[], by simp, by simp⟩⟩
  | succ n ih =>
    obtain ⟨m1, h1, h2⟩ := run_cons_some fs _ _ m m' hrun
    simp only [step] at h1
    obtain ⟨js, e, hd, hj1, ht, hen1, hcs1⟩ := UpdateJobs_jobsOf fs s m m1 hen h1
    rw [hj, hcs, driveJobs_cons] at hd
    obtain ⟨j1, e1, hs1, hp1, hpos1, hpath1, hh1, hl1⟩ := SendPatchChunk_healthy c fs s j hc0 hc hh
    have hone : driveOne c fs j = some (j1, e1) := by
      simp [driveOne, hh.active, hh.isOpen, hs1]
    simp only [hone, driveJobs, Option.some_bind, Option.map_some', Option.some.injEq,
      Prod.mk.injEq, List.append_nil] at hd
    obtain ⟨rfl, rfl⟩ := hd
    have hmul : (n + 1) * c = n * c + c := Nat.succ_mul n c
    have hin := hh.inRange
    rw [hmul]
    generalize hx : n * c = x at *
    by_cases hdone : j.Patch.FileSize - j.Position ≤ c
    · have hk : min c (j.Patch.FileSize - j.Position) = j.Patch.FileSize - j.Position :=
        Nat.min_eq_right hdone
      have hcomp : completed j1 = true := by
        simp only [completed, decide_eq_true_eq, hp1, hpos1, hk]
        omega
      have hnone : jobsOf s m1._jobs = [] := by simp [hj1, hcomp]
      obtain ⟨r1, r2⟩ := ticks_no_job fs s n m1 m' hnone h2
      refine ⟨fun hlt => absurd hlt (by omega), fun _ _ => r1, ?_⟩
      refine ⟨dataLens s e1, by rw [r2, ht], ?_⟩
      rw [hl1, hk]
      split_ifs with h0
      · simp only [List.sum_nil]; omega
      · simp only [List.sum_cons, List.sum_nil]; omega
    · have hk : min c (j.Patch.FileSize - j.Position) = c := Nat.min_eq_left (by omega)
      have hcomp : completed j1 = false := by
        simp only [completed, decide_eq_false_iff_not, hp1, hpos1, hk]
        omega
      have hsome : jobsOf s m1._jobs = [j1] := by simp [hj1, hcomp]
      obtain ⟨a1, a2, L, a3, a4⟩ := ih m1 j1 hen1 (hcs1.trans hcs) hsome hh1 h2
      rw [hp1, hpos1, hk] at a1 a2 a4
      refine ⟨?_, ?_, ?_⟩
      · intro hlt
        have hlt1 : x < j.Patch.FileSize - (j.Position + c) := by
          clear a1 a2 ih
          omega
        obtain ⟨j', b1, b2, b3, b4, b5⟩ := a1 hlt1
        exact ⟨j', b1, b2, b3, by rw [b4, Nat.add_assoc, Nat.add_comm c x], b5.trans hpath1⟩
      · intro hle _
        rcases Nat.eq_zero_or_pos n with hn0 | hnpos
        · subst hn0
          rw [Nat.zero_mul] at hx
          clear a1 a2 ih
          omega
        · have hle1 : j.Patch.FileSize - (j.Position + c) ≤ x := by
            clear a1 a2 ih
            omega
          exact a2 hle1 hnpos
      · refine ⟨dataLens s e1 ++ L, by rw [a3, ht, List.append_assoc], ?_⟩
        rw [hl1, hk]
        simp only [Nat.pos_iff_ne_zero.mp hc0, if_false, List.sum_append, List.sum_cons,
          List.sum_nil, a4]
        clear a1 a2 ih
        omega

/-! ## No zero-size patch, no division by zero -/

theorem SendPatchChunk_total (c : Nat) (fs : FileSys) (j : PatchJob)
    (h : 0 < j.Patch.FileSize) : ∃ r, SendPatchChunk c fs j = some r := by
  have hF : ¬ j.Patch.FileSize = 0 := by omega
  unfold SendPatchChunk
  simp only [hF, if_false]
  split_ifs <;> exact ⟨_, rfl⟩

theorem driveOne_total (c : Nat) (fs : FileSys) (j : PatchJob)
    (h : 0 < j.Patch.FileSize) : ∃ r, driveOne c fs j = some r := by
  unfold driveOne
  split_ifs
  · exact ⟨_, rfl⟩
  · exact SendPatchChunk_total c fs j h

theorem driveJobs_total (c : Nat) (fs : FileSys) (js : List PatchJob)
    (h : ∀ j ∈ js, 0 < j.Patch.FileSize) :
    ∃ js' ev, driveJobs c fs js = some (js', ev) ∧ ∀ j ∈ js', 0 < j.Patch.FileSize := by
  induction js with
  | nil => exact ⟨[], [], rfl, by simp⟩
  | cons j rest ih =>
    obtain ⟨r, hr⟩ := driveOne_total c fs j (h j (List.mem_cons_self _ _))
    obtain ⟨js', ev, h1, h2⟩ := ih (fun x hx => h x (List.mem_cons_of_mem _ hx))
    refine ⟨r.1 :: js', r.2 ++ ev, by simp [driveJobs_cons, hr, h1], ?_⟩
    intro x hx
    rcases List.mem_cons.mp hx with hx | hx
    · rw [hx, (driveOne_keeps c fs j r.1 r.2 hr).2]
      exact h j (List.mem_cons_self _ _)
    · exact h2 x hx

theorem UpdateJobs_total (fs : FileSys) (m : PatchMgr) (h : ∀ j ∈ m._jobs, 0 < j.Patch.FileSize) :
    ∃ m', UpdateJobs fs m = some m' ∧ ∀ j ∈ m'._jobs, 0 < j.Patch.FileSize := by
  obtain ⟨js', ev, h1, h2⟩ := driveJobs_total m._chunkSize fs m._jobs h
  unfold UpdateJobs
  rw [h1]
  split_ifs
  · exact ⟨m, rfl, h⟩
  · exact ⟨_, rfl, fun x hx => h2 x (List.mem_of_mem_filter hx)⟩

theorem ticks_total (fs : FileSys) (n : Nat) (m : PatchMgr)
    (h : ∀ j ∈ m._jobs, 0 < j.Patch.FileSize) :
    ∃ m', run fs (List.replicate n Op.tick) m = some m' := by
  induction n generalizing m with
  | zero => exact ⟨m, rfl⟩
  | succ n ih =>
    obtain ⟨m1, h1, h2⟩ := UpdateJobs_total fs m h
    obtain ⟨m', hm'⟩ := ih m1 h2
    exact ⟨m', by simp only [List.replicate, run, step, h1, hm']⟩

/-! ## Accept and Resume, seen from one session -/

theorem acceptLoop_patches (fs : FileSys) (s : Nat) (js : List PatchJob) :
    (acceptLoop fs s js).1.map PatchJob.Patch = js.map PatchJob.Patch := by
  induction js with
  | nil => rfl
  | cons j rest ih =>
    simp only [acceptLoop]
    split_ifs <;> simp [ih]

theorem resumeLoop_patches (fs : FileSys) (s pos : Nat) (js : List PatchJob) :
    (resumeLoop fs s pos js).1.map PatchJob.Patch = js.map PatchJob.Patch := by
  induction js with
  | nil => rfl
  | cons j rest ih =>
    simp only [resumeLoop]
    split_ifs <;> simp [ih]

theorem acceptLoop_jobsOf (fs : FileSys) (s : Nat) (js : List PatchJob) :
    jobsOf s (acceptLoop fs s js).1 = (acceptLoop fs s (jobsOf s js)).1 ∧
      (acceptLoop fs s js).2 = (acceptLoop fs s (jobsOf s js)).2 := by
  induction js with
  | nil => exact ⟨rfl, rfl⟩
  | cons j rest ih =>
    by_cases hj : j.Session = s
    · simp only [jobsOf, List.filter_cons, hj, decide_True, if_true, acceptLoop]
      split_ifs <;> simp [List.filter_cons, hj]
    · simp only [jobsOf, List.filter_cons, hj, decide_False, acceptLoop, if_false,
        Bool.false_eq_true]
      exact ih

theorem resumeLoop_jobsOf (fs : FileSys) (s pos : Nat) (js : List PatchJob) :
    jobsOf s (resumeLoop fs s pos js).1 = (resumeLoop fs s pos (jobsOf s js)).1 ∧
      (resumeLoop fs s pos js).2 = (resumeLoop fs s pos (jobsOf s js)).2 := by
  induction js with
  | nil => exact ⟨rfl, rfl⟩
  | cons j rest ih =>
    by_cases hj : j.Session = s
    · simp only [jobsOf, List.filter_cons, hj, decide_True, if_true, resumeLoop]
      split_ifs <;> simp [List.filter_cons, hj]
    · simp only [jobsOf, List.filter_cons, hj, decide_False, resumeLoop, if_false,
        Bool.false_eq_true]
      exact ih

theorem jobsOf_InitiatePatch (m : PatchMgr) (s : Nat) (p : PatchInfo) (hs : s ≠ 0) :
    jobsOf s (InitiatePatch m s (some p)).1._jobs =
      [{ Session := s, Patch := p, File := IfStream.closed, Position := 0, Active := false,
         LastLoggedProgress := 0 }] ∧
    dataLens s (InitiatePatch m s (some p)).1.trace = dataLens s m.trace ∧
    (InitiatePatch m s (some p)).1._enabled = m._enabled ∧
    (InitiatePatch m s (some p)).1._chunkSize = m._chunkSize := by
  refine ⟨?_, ?_, ?_, ?_⟩
  · have h1 := jobsOf_RemoveJob_self m._jobs s
    simp only [jobsOf] at h1
    simp [InitiatePatch, hs, jobsOf, List.filter_append, h1]
  · simp only [InitiatePatch, hs, if_false]
    rw [dataLens_append]
    simp [dataLens, initiatePacket, XFER_INITIATE, XFER_DATA]
  · simp only [InitiatePatch, hs, if_false]
  · simp only [InitiatePatch, hs, if_false]

theorem ticks_config (fs : FileSys) (n : Nat) (m m' : PatchMgr)
    (hrun : run fs (List.replicate n Op.tick) m = some m') :
    m'._enabled = m._enabled ∧ m'._chunkSize = m._chunkSize := by
  induction n generalizing m with
  | zero =>
    simp only [List.replicate, run, Option.some.injEq] at hrun
    subst hrun
    exact ⟨rfl, rfl⟩
  | succ n ih =>
    obtain ⟨m1, h1, h2⟩ := run_cons_some fs _ _ m m' hrun
    obtain ⟨a, b⟩ := ih m1 h2
    simp only [step, UpdateJobs] at h1
    split_ifs at h1
    · simp only [Option.some.injEq] at h1
      subst h1
      exact ⟨a, b⟩
    · cases hd : driveJobs m._chunkSize fs m._jobs with
      | none => simp [hd] at h1
      | some r =>
        simp only [hd, Option.some.injEq] at h1
        subst h1
        exact ⟨a, b⟩

theorem mem_patch_of_map_eq (js js' : List PatchJob)
    (h : js'.map PatchJob.Patch = js.map PatchJob.Patch)
    (hp : ∀ j ∈ js, 0 < j.Patch.FileSize) : ∀ j ∈ js', 0 < j.Patch.FileSize := by
  intro j hj
  have h1 : j.Patch ∈ js'.map PatchJob.Patch := List.mem_map_of_mem _ hj
  rw [h] at h1
  obtain ⟨j0, h2, h3⟩ := List.mem_map.mp h1
  rw [← h3]
  exact hp j0 h2

theorem ceil_div_gt (n c F : Nat) (hc : 0 < c) : n < (F + c - 1) / c ↔ n * c < F := by
  rw [Nat.lt_iff_add_one_le, Nat.le_div_iff_mul_le hc, Nat.succ_mul]
  omega

/-- Initiate then Accept on a file that can be opened leaves the session one
healthy job at offset 0, and Accept reports success. -/
theorem accept_after_initiate (fs : FileSys) (m : PatchMgr) (s : Nat) (p : PatchInfo)
    (data : List Nat) (hs : s ≠ 0) (hpos : 0 < p.FileSize) (hlt : p.FileSize < 2 ^ 64)
    (hfile : fs.content p.FilePath = some data)
    (hnf : ∀ pos, fs.readFault p.FilePath pos = false) :
    (HandleXferAccept fs (InitiatePatch m s (some p)).1 s).2 = true ∧
    ∃ j, jobsOf s (HandleXferAccept fs (InitiatePatch m s (some p)).1 s).1._jobs = [j] ∧
      Healthy fs s j ∧ j.Patch = p ∧ j.Position = 0 := by
  obtain ⟨h1, -, -, -⟩ := jobsOf_InitiatePatch m s p hs
  obtain ⟨h2, h3⟩ := acceptLoop_jobsOf fs s (InitiatePatch m s (some p)).1._jobs
  simp only [HandleXferAccept]
  rw [h2, h3, h1]
  simp only [acceptLoop, IfStream.open, IfStream.closed, hfile, IfStream.fail, if_true,
    Bool.false_eq_true, if_false, Bool.or_self, true_and, List.cons.injEq, and_true,
    exists_eq_left']
  exact ⟨rfl, hs, rfl, rfl, rfl, hnf, Nat.zero_le _, hpos, hlt⟩

/-- C6: for a patch of positive size and a chunk size `c` in `[100, 65535]`,
with patching enabled, the file openable and no device error on it: Initiate
then Accept succeeds, and after `n` further ticks the job of the session is
still there at offset `n * c` while `n < ceil(fileSize / c)` and is gone from
tick `ceil(fileSize / c)` on; the DATA frames sent to the session in those
ticks carry `min(n * c, fileSize)` bytes, hence exactly `fileSize` once the
job is gone; in the tick that removes it the job is driven to offset
`fileSize` before it is erased. The process survives the whole run whenever no
job of the set refers to a zero-size patch. -/
theorem accepted_transfer_completes (fs : FileSys) (m : PatchMgr) (s : Nat) (p : PatchInfo)
    (data : List Nat) (n : Nat) (hen : m._enabled = true)
    (hc1 : 100 ≤ m._chunkSize) (hc2 : m._chunkSize ≤ 65535)
    (hs : s ≠ 0) (hpos : 0 < p.FileSize) (hlt : p.FileSize < 2 ^ 64)
    (hfile : fs.content p.FilePath = some data)
    (hnf : ∀ pos, fs.readFault p.FilePath pos = false) :
    (HandleXferAccept fs (InitiatePatch m s (some p)).1 s).2 = true ∧
    ((∀ j ∈ m._jobs, 0 < j.Patch.FileSize) →
      ∃ m', run fs (Op.initiate s (some p) :: Op.accept s :: List.replicate n Op.tick) m
        = some m') ∧
    ∀ m', run fs (Op.initiate s (some p) :: Op.accept s :: List.replicate n Op.tick) m
        = some m' →
      (n < (p.FileSize + m._chunkSize - 1) / m._chunkSize →
        ∃ j, jobsOf s m'._jobs = [j] ∧ j.Patch = p ∧ j.Position = n * m._chunkSize ∧
          j.Active = true) ∧
      ((p.FileSize + m._chunkSize - 1) / m._chunkSize ≤ n → jobsOf s m'._jobs = []) ∧
      (∃ L, dataLens s m'.trace = dataLens s m.trace ++ L ∧
        L.sum = min (n * m._chunkSize) p.FileSize ∧
        ((p.FileSize + m._chunkSize - 1) / m._chunkSize ≤ n → L.sum = p.FileSize)) ∧
      (n + 1 = (p.FileSize + m._chunkSize - 1) / m._chunkSize →
        ∀ js ev, driveJobs m._chunkSize fs m'._jobs = some (js, ev) →
          ∃ j, jobsOf s js = [j] ∧ j.Position = p.FileSize) := by
  have hc0 : 0 < m._chunkSize := by omega
  obtain ⟨hacc, j2, hj2, hh2, hp2, hpos2⟩ := accept_after_initiate fs m s p data hs hpos hlt hfile hnf
  obtain ⟨-, ht1, he1, hcs1⟩ := jobsOf_InitiatePatch m s p hs
  have hrunEq : ∀ ops, run fs (Op.initiate s (some p) :: Op.accept s :: ops) m =
      run fs ops (HandleXferAccept fs (InitiatePatch m s (some p)).1 s).1 := fun ops => rfl
  refine ⟨hacc, ?_, ?_⟩
  · intro hall
    rw [hrunEq]
    apply ticks_total
    apply mem_patch_of_map_eq _ _ (acceptLoop_patches fs s _)
    intro j hj
    simp only [InitiatePatch, hs, if_false, List.mem_append, List.mem_singleton] at hj
    rcases hj with hj | hj
    · exact hall j (List.mem_of_mem_filter hj)
    · rw [hj]
      exact hpos
  · intro m' hrun
    rw [hrunEq] at hrun
    have hen2 : (HandleXferAccept fs (InitiatePatch m s (some p)).1 s).1._enabled = true :=
      he1.trans hen
    have hcs2 : (HandleXferAccept fs (InitiatePatch m s (some p)).1 s).1._chunkSize =
      m._chunkSize := hcs1
    have ht2 : dataLens s (HandleXferAccept fs (InitiatePatch m s (some p)).1 s).1.trace =
      dataLens s m.trace := ht1
    obtain ⟨a1, a2, L, a3, a4⟩ :=
      ticks_healthy fs s m._chunkSize hc0 hc2 n _ m' j2 hen2 hcs2 hj2 hh2 hrun
    obtain ⟨hen', hcs'⟩ := ticks_config fs n _ m' hrun
    rw [hp2, hpos2, Nat.sub_zero] at a1 a2 a4
    rw [Nat.zero_add] at a1
    rw [ht2] at a3
    have hN := ceil_div_gt n m._chunkSize p.FileSize hc0
    refine ⟨?_, ?_, ⟨L, a3, a4, ?_⟩, ?_⟩
    · intro hlt'
      obtain ⟨j', b1, b2, b3, b4, -⟩ := a1 (hN.mp hlt')
      exact ⟨j', b1, b3, b4, b2.active⟩
    · intro hge
      have h1 : p.FileSize ≤ n * m._chunkSize := by
        rw [← not_lt, ← hN]
        exact not_lt.mpr hge
      have h2 : 0 < n := by
        rcases Nat.eq_zero_or_pos n with h0 | h0
        · rw [h0, Nat.zero_mul] at h1
          omega
        · exact h0
      exact a2 h1 h2
    · intro hge
      have h1 : p.FileSize ≤ n * m._chunkSize := by
        rw [← not_lt, ← hN]
        exact not_lt.mpr hge
      rw [a4]
      exact Nat.min_eq_right h1
    · intro hlast js ev hd
      have hlt' : n < (p.FileSize + m._chunkSize - 1) / m._chunkSize := by omega
      have hge' : ¬ (n + 1) * m._chunkSize < p.FileSize := by
        rw [← ceil_div_gt (n + 1) m._chunkSize p.FileSize hc0]
        omega
      obtain ⟨j', b1, b2, b3, b4, -⟩ := a1 (hN.mp hlt')
      obtain ⟨e, d1, -⟩ := driveJobs_jobsOf m._chunkSize fs s _ js ev hd
      obtain ⟨j1, e1, c1, c2, c3, -, -, -⟩ :=
        SendPatchChunk_healthy m._chunkSize fs s j' hc0 hc2 b2
      have hone : driveOne m._chunkSize fs j' = some (j1, e1) := by
        simp [driveOne, b2.active, b2.isOpen, c1]
      rw [b1, driveJobs_cons, hone] at d1
      simp only [driveJobs, Option.some_bind, Option.map_some', Option.some.injEq,
        Prod.mk.injEq, List.append_nil] at d1
      refine ⟨j1, d1.1.symm, ?_⟩
      rw [c3, b3, b4]
      have h3 := hN.mp hlt'
      rw [Nat.succ_mul] at hge'
      generalize n * m._chunkSize = x at *
      clear a1 a2
      omega

/-- C6 at scenario 3: chunk size 300, file size 1000. Three ticks leave the
job at offset 900; the fourth removes it; the chunks are 300, 300, 300, 100. -/
theorem accepted_transfer_completes_witness :
    (run diskFs (Op.initiate 1 (some patchEnGB) :: Op.accept 1 :: List.replicate 3 Op.tick)
        (mgrWith [patchEnGB] 300)).map
      (fun m' => (m'._jobs.map (fun j => (j.Session, j.Position)), dataLens 1 m'.trace)) =
      some ([(1, 900)], [300, 300, 300]) ∧
    (run diskFs (Op.initiate 1 (some patchEnGB) :: Op.accept 1 :: List.replicate 4 Op.tick)
        (mgrWith [patchEnGB] 300)).map
      (fun m' => (m'._jobs, dataLens 1 m'.trace)) = some ([], [300, 300, 300, 100]) ∧
    ∃ m', run diskFs (Op.initiate 1 (some patchEnGB) :: Op.accept 1 :: List.replicate 4 Op.tick)
        (mgrWith [patchEnGB] 300) = some m' ∧
      jobsOf 1 m'._jobs = [] ∧
      ∃ L, dataLens 1 m'.trace = dataLens 1 (mgrWith [patchEnGB] 300).trace ++ L ∧
        L.sum = patchEnGB.FileSize :=
  have T := accepted_transfer_completes diskFs (mgrWith [patchEnGB] 300) 1 patchEnGB
    (List.replicate 1000 1) 4 rfl (by decide) (by decide) (by decide) (by decide) (by decide)
    (by decide) (fun _ => rfl)
  ⟨by decide, by decide,
    (T.2.1 (by decide)).elim fun m' h =>
      ⟨m', h, (T.2.2 m' h).2.1 (by decide),
        (T.2.2 m' h).2.2.1.elim fun L hL => ⟨L, hL.1, hL.2.2 (by decide)⟩⟩⟩

/-- A Resume that reports success leaves the job active at the requested
offset on an open stream without error bit. -/
theorem resumeLoop_success (fs : FileSys) (s k : Nat) (j : PatchJob) (hj : j.Session = s)
    (hok : (resumeLoop fs s k [j]).2 = true) :
    ∃ j', (resumeLoop fs s k [j]).1 = [j'] ∧ j'.Session = s ∧ j'.Patch = j.Patch ∧
      j'.Position = k ∧ j'.Active = true ∧ j'.File.is_open = true ∧ j'.File.usable = true := by
  obtain ⟨ses, pat, ⟨o, pth, cur, fb, eb, bb⟩, posn, act, llp⟩ := j
  simp only at hj
  subst hj
  simp only [resumeLoop, if_true] at hok ⊢
  cases o <;> cases fb <;> cases bb <;> cases hc : fs.content pat.FilePath <;>
    simp_all [IfStream.open, IfStream.seekg, IfStream.fail, IfStream.usable] <;>
    (split_ifs at hok ⊢ <;> simp_all)

/-- Resume inside the file: when `Resume(session, K)` with `K ≤ fileSize`
reports success and no read meets a device error, `n` ticks later the DATA
frames sent to the session since carry `min(n * c, fileSize - K)` bytes, and
the job is gone as soon as that is `fileSize - K` (and one tick has run). -/
theorem resume_within_file_sends_rest (fs : FileSys) (m m' : PatchMgr) (s k n : Nat) (j0 : PatchJob)
    (hen : m._enabled = true) (hc1 : 100 ≤ m._chunkSize) (hc2 : m._chunkSize ≤ 65535)
    (hs : s ≠ 0) (hj : jobsOf s m._jobs = [j0]) (hk : k ≤ j0.Patch.FileSize)
    (hpos : 0 < j0.Patch.FileSize) (hlt : j0.Patch.FileSize < 2 ^ 64)
    (hnf : ∀ path pos, fs.readFault path pos = false)
    (hok : (HandleXferResume fs m s k).2 = true)
    (hrun : run fs (Op.resume s k :: List.replicate n Op.tick) m = some m') :
    (n * m._chunkSize < j0.Patch.FileSize - k →
      ∃ j, jobsOf s m'._jobs = [j] ∧ j.Position = k + n * m._chunkSize) ∧
    (j0.Patch.FileSize - k ≤ n * m._chunkSize → 0 < n → jobsOf s m'._jobs = []) ∧
    ∃ L, dataLens s m'.trace = dataLens s m.trace ++ L ∧
      L.sum = min (n * m._chunkSize) (j0.Patch.FileSize - k) := by
  have hc0 : 0 < m._chunkSize := by omega
  have hses : j0.Session = s := by
    have hmem : j0 ∈ jobsOf s m._jobs := by simp [hj]
    simpa [jobsOf] using (List.mem_filter.mp hmem).2
  obtain ⟨h1, h2⟩ := resumeLoop_jobsOf fs s k m._jobs
  rw [hj] at h1 h2
  have hok1 : (resumeLoop fs s k [j0]).2 = true := by
    rw [← h2]
    exact hok
  obtain ⟨j1, g1, g2, g3, g4, g5, g6, g7⟩ := resumeLoop_success fs s k j0 hses hok1
  rw [g1] at h1
  have hh : Healthy fs s j1 :=
    ⟨g2, hs, g5, g6, g7, fun pos => hnf _ pos, by rw [g3, g4]; exact hk, by rw [g3]; exact hpos,
      by rw [g3]; exact hlt⟩
  have hrun1 : run fs (List.replicate n Op.tick) (HandleXferResume fs m s k).1 = some m' := hrun
  obtain ⟨a1, a2, a3⟩ :=
    ticks_healthy fs s m._chunkSize hc0 hc2 n (HandleXferResume fs m s k).1 m' j1 hen rfl h1 hh
      hrun1
  rw [g3, g4] at a1 a2 a3
  refine ⟨fun hlt1 => ?_, a2, a3⟩
  obtain ⟨j, b1, -, -, b4, -⟩ := a1 hlt1
  exact ⟨j, b1, b4⟩

/-- Scenario 4: Resume at 700 on the 1000-byte file with chunk size 300 sends
one 300-byte chunk and the job completes in that tick. -/
theorem resume_within_file_scenario :
    (HandleXferResume diskFs (InitiatePatch (mgrWith [patchEnGB] 300) 1 (some patchEnGB)).1
      1 700).2 = true ∧
    (run diskFs [Op.initiate 1 (some patchEnGB), Op.resume 1 700, Op.tick]
        (mgrWith [patchEnGB] 300)).map
      (fun m' => (m'._jobs, dataLens 1 m'.trace, m'.trace.getLast?)) =
      some ([], [300], some Event.logCompleted) := by
  decide

/-! ## The offset invariant, away from out-of-range resumes -/

theorem SendPatchChunk_inRange (c : Nat) (fs : FileSys) (j j' : PatchJob) (ev : List Event)
    (hin : j.Position ≤ j.Patch.FileSize) (hlt : j.Patch.FileSize < 2 ^ 64)
    (h : SendPatchChunk c fs j = some (j', ev)) : j'.Position ≤ j'.Patch.FileSize := by
  have hrem : (j.Patch.FileSize + 2 ^ 64 - j.Position) % 2 ^ 64 =
      j.Patch.FileSize - j.Position := by
    have h1 : j.Patch.FileSize + 2 ^ 64 - j.Position = (j.Patch.FileSize - j.Position) + 2 ^ 64 := by
      omega
    rw [h1, Nat.add_mod_right]
    exact Nat.mod_eq_of_lt (by omega)
  have hk1 : min c (j.Patch.FileSize - j.Position) % 2 ^ 16 ≤ j.Patch.FileSize - j.Position :=
    (Nat.mod_le _ _).trans (Nat.min_le_right _ _)
  have hk2 : (j.Position + min c (j.Patch.FileSize - j.Position) % 2 ^ 16) % 2 ^ 64 ≤
      j.Patch.FileSize := (Nat.mod_le _ _).trans (by omega)
  unfold SendPatchChunk at h
  simp only [hrem] at h
  split_ifs at h <;> simp only [Option.some.injEq, Prod.mk.injEq] at h <;>
    (obtain ⟨rfl, -⟩ := h; first | exact hin | exact hk2)

theorem driveJobs_inRange (c : Nat) (fs : FileSys) (js js' : List PatchJob) (ev : List Event)
    (hin : ∀ j ∈ js, j.Position ≤ j.Patch.FileSize ∧ j.Patch.FileSize < 2 ^ 64)
    (h : driveJobs c fs js = some (js', ev)) :
    ∀ j ∈ js', j.Position ≤ j.Patch.FileSize ∧ j.Patch.FileSize < 2 ^ 64 := by
  induction js generalizing js' ev with
  | nil =>
    simp only [driveJobs, Option.some.injEq, Prod.mk.injEq] at h
    rw [← h.1]
    simp
  | cons j rest ih =>
    obtain ⟨j1, e1, r1, e2, h1, h2, rfl, rfl⟩ := driveJobs_cons_some c fs j rest js' ev h
    obtain ⟨hj1, hj2⟩ := hin j (List.mem_cons_self _ _)
    intro x hx
    rcases List.mem_cons.mp hx with hx | hx
    · subst hx
      have hp := (driveOne_keeps c fs j x e1 h1).2
      refine ⟨?_, by rw [hp]; exact hj2⟩
      unfold driveOne at h1
      split_ifs at h1
      · simp only [Option.some.injEq, Prod.mk.injEq] at h1
        rw [← h1.1]
        exact hj1
      · exact SendPatchChunk_inRange c fs j x e1 hj1 hj2 h1
    · exact ih r1 e2 (fun y hy => hin y (List.mem_cons_of_mem _ hy)) h2 x hx

theorem acceptLoop_inRange (fs : FileSys) (s : Nat) (js : List PatchJob)
    (hin : ∀ j ∈ js, j.Position ≤ j.Patch.FileSize ∧ j.Patch.FileSize < 2 ^ 64) :
    ∀ j ∈ (acceptLoop fs s js).1, j.Position ≤ j.Patch.FileSize ∧ j.Patch.FileSize < 2 ^ 64 := by
  induction js with
  | nil => simp [acceptLoop]
  | cons j rest ih =>
    have hj := hin j (List.mem_cons_self _ _)
    have hrest := fun y hy => hin y (List.mem_cons_of_mem j hy)
    simp only [acceptLoop]
    split_ifs <;> intro x hx <;> rcases List.mem_cons.mp hx with hx | hx
    · subst hx; exact hj
    · exact hrest x hx
    · subst hx; exact ⟨Nat.zero_le _, hj.2⟩
    · exact hrest x hx
    · subst hx; exact hj
    · exact ih hrest x hx

theorem resumeLoop_inRange (fs : FileSys) (s k : Nat) (js : List PatchJob)
    (hin : ∀ j ∈ js, j.Position ≤ j.Patch.FileSize ∧ j.Patch.FileSize < 2 ^ 64)
    (hk : ∀ j ∈ js, j.Session = s → k ≤ j.Patch.FileSize) :
    ∀ j ∈ (resumeLoop fs s k js).1, j.Position ≤ j.Patch.FileSize ∧ j.Patch.FileSize < 2 ^ 64 := by
  induction js with
  | nil => simp [resumeLoop]
  | cons j rest ih =>
    have hj := hin j (List.mem_cons_self _ _)
    have hrest := fun y hy => hin y (List.mem_cons_of_mem j hy)
    have hkrest := fun y hy => hk y (List.mem_cons_of_mem j hy)
    simp only [resumeLoop]
    split_ifs with hs <;> intro x hx <;> rcases List.mem_cons.mp hx with hx | hx
    all_goals first
      | exact hrest x hx
      | exact ih hrest hkrest x hx
      | (subst hx; exact hj)
      | (subst hx; exact ⟨hk j (List.mem_cons_self _ _) hs, hj.2⟩)

/-- The offset invariant of the data model holds along every run whose Resume
offsets stay within the file (and whose patches have a `uint64` size): from an
empty job set, every job then satisfies `offset ≤ fileSize`. -/
theorem offset_within_file_of_resumes_in_range (fs : FileSys) (ops : List Op)
    (m m' : PatchMgr) (hempty : m._jobs = []) (hops : runInRange fs ops m = true)
    (hrun : run fs ops m = some m') : ∀ j ∈ m'._jobs, j.Position ≤ j.Patch.FileSize := by
  have key : ∀ (ops : List Op) (m m' : PatchMgr),
      (∀ j ∈ m._jobs, j.Position ≤ j.Patch.FileSize ∧ j.Patch.FileSize < 2 ^ 64) →
      runInRange fs ops m = true → run fs ops m = some m' →
      ∀ j ∈ m'._jobs, j.Position ≤ j.Patch.FileSize ∧ j.Patch.FileSize < 2 ^ 64 := by
    intro ops
    induction ops with
    | nil =>
      intro m m' hin _ hrun
      simp only [run, Option.some.injEq] at hrun
      subst hrun
      exact hin
    | cons op ops ih =>
      intro m m' hin hops hrun
      obtain ⟨m1, h1, h2⟩ := run_cons_some fs op ops m m' hrun
      simp only [runInRange, h1, Bool.and_eq_true] at hops
      obtain ⟨ho, hr⟩ := hops
      refine ih m1 m' ?_ hr h2
      cases op with
      | initiate s p =>
        simp only [step, Option.some.injEq] at h1
        subst h1
        cases p with
        | none => exact hin
        | some p =>
          simp only [InitiatePatch]
          split_ifs
          · exact hin
          · intro x hx
            rcases List.mem_append.mp hx with hx | hx
            · exact hin x (List.mem_of_mem_filter hx)
            · rw [List.mem_singleton.mp hx]
              exact ⟨Nat.zero_le _, by simpa [opInRange] using ho⟩
      | accept s =>
        simp only [step, Option.some.injEq] at h1
        subst h1
        exact acceptLoop_inRange fs s _ hin
      | resume s k =>
        simp only [step, Option.some.injEq] at h1
        subst h1
        simp only [opInRange, List.all_eq_true, decide_eq_true_eq] at ho
        exact resumeLoop_inRange fs s k _ hin ho
      | cancel s =>
        simp only [step, Option.some.injEq] at h1
        subst h1
        exact fun x hx => hin x (List.mem_of_mem_filter hx)
      | tick =>
        simp only [step, UpdateJobs] at h1
        split_ifs at h1
        · simp only [Option.some.injEq] at h1
          subst h1
          exact hin
        · cases hd : driveJobs m._chunkSize fs m._jobs with
          | none => simp [hd] at h1
          | some r =>
            simp only [hd, Option.some.injEq] at h1
            subst h1
            exact fun x hx => driveJobs_inRange _ fs _ r.1 r.2 hin hd x (List.mem_of_mem_filter hx)
  exact fun j hj => (key ops m m' (by simp [hempty]) hops hrun j hj).1

/-- The demonstration run resumes inside the file, and its jobs end within
their files. -/
theorem offset_within_file_demo :
    runInRange diskFs demoOps (mgrWith [patchEnGB, patchFrFR] 300) = true ∧
    ∃ m', run diskFs demoOps (mgrWith [patchEnGB, patchFrFR] 300) = some m' ∧
      ∀ j ∈ m'._jobs, j.Position ≤ j.Patch.FileSize :=
  have h : (run diskFs demoOps (mgrWith [patchEnGB, patchFrFR] 300)).isSome = true := by decide
  ⟨by decide, _, (Option.some_get h).symm,
    offset_within_file_of_resumes_in_range diskFs demoOps _ _ rfl (by decide)
      (Option.some_get h).symm⟩

/-! ## Initiate, Accept and Resume on one session -/

/-- C11: for a present session `s` and a present patch `p`, `InitiatePatch`
reports success, sends the INITIATE frame, and leaves `s` exactly one job: on
`p`, offset 0, not active, stream closed, whatever job `s` had before; the
jobs of every other session are the ones they had, and the new job is last. -/
theorem InitiatePatch_creates_pending_job (m : PatchMgr) (s : Nat) (p : PatchInfo)
    (hs : s ≠ 0) :
    (InitiatePatch m s (some p)).2 = true ∧
    jobsOf s (InitiatePatch m s (some p)).1._jobs =
      [{ Session := s, Patch := p, File := IfStream.closed, Position := 0, Active := false,
         LastLoggedProgress := 0 }] ∧
    (∀ t, t ≠ s → jobsOf t (InitiatePatch m s (some p)).1._jobs = jobsOf t m._jobs) ∧
    (InitiatePatch m s (some p)).1._jobs =
      m._jobs.filter (fun j => !decide (j.Session = s)) ++
        [{ Session := s, Patch := p, File := IfStream.closed, Position := 0, Active := false,
           LastLoggedProgress := 0 }] ∧
    (InitiatePatch m s (some p)).1.trace =
      m.trace ++ [Event.sendPacket s (initiatePacket p)] := by
  refine ⟨?_, (jobsOf_InitiatePatch m s p hs).1, ?_, ?_, ?_⟩
  · simp [InitiatePatch, hs]
  · intro t ht
    have h1 := jobsOf_RemoveJob_other m._jobs s t ht
    simp only [jobsOf] at h1
    have h2 : ¬ s = t := fun h => ht h.symm
    simp [InitiatePatch, hs, jobsOf, List.filter_append, h1, h2]
  · simp [InitiatePatch, hs, RemoveJob]
  · simp [InitiatePatch, hs]

/-- C11 where session 1 already holds an accepted job and session 2 a pending
one: offering session 1 the other patch leaves it one pending job. -/
theorem InitiatePatch_creates_pending_job_witness :
    jobsOf 1 (InitiatePatch (HandleXferAccept diskFs (InitiatePatch (InitiatePatch
        (mgrWith [patchEnGB, patchFrFR] 300) 1 (some patchEnGB)).1 2 (some patchEnGB)).1 1).1
        1 (some patchFrFR)).1._jobs =
      [{ Session := 1, Patch := patchFrFR, File := IfStream.closed, Position := 0,
         Active := false, LastLoggedProgress := 0 }] :=
  (InitiatePatch_creates_pending_job (HandleXferAccept diskFs (InitiatePatch (InitiatePatch
    (mgrWith [patchEnGB, patchFrFR] 300) 1 (some patchEnGB)).1 2 (some patchEnGB)).1 1).1
    1 patchFrFR (by decide)).2.1

theorem acceptLoop_no_job (fs : FileSys) (s : Nat) (js : List PatchJob)
    (h : ∀ x ∈ js, x.Session ≠ s) : acceptLoop fs s js = (js, false) := by
  induction js with
  | nil => rfl
  | cons j rest ih =>
    have hj : ¬ j.Session = s := h j (List.mem_cons_self _ _)
    simp [acceptLoop, hj, ih (fun x hx => h x (List.mem_cons_of_mem _ hx))]

theorem resumeLoop_no_job (fs : FileSys) (s k : Nat) (js : List PatchJob)
    (h : ∀ x ∈ js, x.Session ≠ s) : resumeLoop fs s k js = (js, false) := by
  induction js with
  | nil => rfl
  | cons j rest ih =>
    have hj : ¬ j.Session = s := h j (List.mem_cons_self _ _)
    simp [resumeLoop, hj, ih (fun x hx => h x (List.mem_cons_of_mem _ hx))]

theorem no_job_of_jobsOf_nil (s : Nat) (js : List PatchJob) (h : jobsOf s js = []) :
    ∀ x ∈ js, x.Session ≠ s := by
  intro x hx hs
  have : x ∈ jobsOf s js := by simp [jobsOf, hx, hs]
  rw [h] at this
  exact absurd this (List.not_mem_nil _)

/-- C12: for a session that has no job, `HandleXferAccept` and
`HandleXferResume` (at any offset) report failure and leave the manager, hence
the job set, as it was. -/
theorem accept_resume_without_job (fs : FileSys) (m : PatchMgr) (s k : Nat)
    (h : jobsOf s m._jobs = []) :
    HandleXferAccept fs m s = (m, false) ∧ HandleXferResume fs m s k = (m, false) := by
  have hno := no_job_of_jobsOf_nil s m._jobs h
  simp [HandleXferAccept, HandleXferResume, acceptLoop_no_job fs s _ hno,
    resumeLoop_no_job fs s k _ hno]

/-- C12 with a pending job of session 1 only: Accept and Resume of session 2
fail and change nothing. -/
theorem accept_resume_without_job_witness :
    HandleXferAccept diskFs (InitiatePatch (mgrWith [patchEnGB] 300) 1 (some patchEnGB)).1 2 =
      ((InitiatePatch (mgrWith [patchEnGB] 300) 1 (some patchEnGB)).1, false) ∧
    HandleXferResume diskFs (InitiatePatch (mgrWith [patchEnGB] 300) 1 (some patchEnGB)).1 2 700 =
      ((InitiatePatch (mgrWith [patchEnGB] 300) 1 (some patchEnGB)).1, false) :=
  accept_resume_without_job diskFs (InitiatePatch (mgrWith [patchEnGB] 300) 1 (some patchEnGB)).1
    2 700 (by decide)

theorem acceptLoop_skip (fs : FileSys) (s : Nat) (pre rest : List PatchJob)
    (h : ∀ x ∈ pre, x.Session ≠ s) :
    acceptLoop fs s (pre ++ rest) = (pre ++ (acceptLoop fs s rest).1, (acceptLoop fs s rest).2) := by
  induction pre with
  | nil => rfl
  | cons j pre ih =>
    have hj : ¬ j.Session = s := h j (List.mem_cons_self _ _)
    simp [acceptLoop, hj, ih (fun x hx => h x (List.mem_cons_of_mem _ hx))]

theorem resumeLoop_skip (fs : FileSys) (s k : Nat) (pre rest : List PatchJob)
    (h : ∀ x ∈ pre, x.Session ≠ s) :
    resumeLoop fs s k (pre ++ rest) =
      (pre ++ (resumeLoop fs s k rest).1, (resumeLoop fs s k rest).2) := by
  induction pre with
  | nil => rfl
  | cons j pre ih =>
    have hj : ¬ j.Session = s := h j (List.mem_cons_self _ _)
    simp [resumeLoop, hj, ih (fun x hx => h x (List.mem_cons_of_mem _ hx))]

/-- Accept on a stream that is not open: when the stream of the first job `j`
of session `s` is not open, as `InitiatePatch` leaves it, and its backing file
can be opened, `HandleXferAccept` reports success and replaces `j` in place by
the same job on a freshly opened stream, at offset 0 and active; the patch
reference, every other job and the rest of the manager are unchanged. -/
theorem HandleXferAccept_pending (fs : FileSys) (m : PatchMgr) (s : Nat)
    (pre post : List PatchJob) (j : PatchJob) (data : List Nat)
    (hjobs : m._jobs = pre ++ j :: post) (hpre : ∀ x ∈ pre, x.Session ≠ s)
    (hs : j.Session = s) (hpend : j.File.is_open = false)
    (hfile : fs.content j.Patch.FilePath = some data) :
    HandleXferAccept fs m s =
      ({ m with _jobs := pre ++
          { j with
            File := { is_open := true, path := j.Patch.FilePath, cursor := 0,
                      failbit := false, eofbit := false, badbit := false },
            Position := 0, Active := true } :: post }, true) := by
  simp [HandleXferAccept, hjobs, acceptLoop_skip fs s pre _ hpre, acceptLoop, hs,
    IfStream.open, hpend, hfile, IfStream.fail]

/-- Accept of a job of session 2, fresh from `InitiatePatch`, behind a job of
session 1. -/
theorem HandleXferAccept_pending_witness :
    (HandleXferAccept diskFs (InitiatePatch (InitiatePatch (mgrWith [patchEnGB, patchFrFR] 300)
        1 (some patchEnGB)).1 2 (some patchFrFR)).1 2).2 = true ∧
    (HandleXferAccept diskFs (InitiatePatch (InitiatePatch (mgrWith [patchEnGB, patchFrFR] 300)
        1 (some patchEnGB)).1 2 (some patchFrFR)).1 2).1._jobs.map
      (fun j => (j.Session, j.Patch.FileSize, j.Position, j.Active, j.File.is_open)) =
      [(1, 1000, 0, false, false), (2, 500, 0, true, true)] := by
  have h := HandleXferAccept_pending diskFs (InitiatePatch (InitiatePatch
    (mgrWith [patchEnGB, patchFrFR] 300) 1 (some patchEnGB)).1 2 (some patchFrFR)).1 2
    [{ Session := 1, Patch := patchEnGB, File := IfStream.closed, Position := 0, Active := false,
       LastLoggedProgress := 0 }] []
    { Session := 2, Patch := patchFrFR, File := IfStream.closed, Position := 0, Active := false,
      LastLoggedProgress := 0 } (List.replicate 500 2) (by decide) (by decide) rfl rfl (by decide)
  rw [h]
  decide

/-- C14: when the first job `j` of session `s` (pending or active) is resumed
at an offset for which the open (made only when the file is not open yet) and
the seek succeed, `HandleXferResume` reports success and replaces `j` in place
by the same job on the positioned stream, at the requested offset and active;
every other job and the rest of the manager are unchanged. -/
theorem HandleXferResume_success (fs : FileSys) (m : PatchMgr) (s k : Nat)
    (pre post : List PatchJob) (j : PatchJob)
    (hjobs : m._jobs = pre ++ j :: post) (hpre : ∀ x ∈ pre, x.Session ≠ s)
    (hs : j.Session = s)
    (hopen : j.File.is_open = false → (j.File.open fs j.Patch.FilePath).fail = false)
    (hseek : ((if !j.File.is_open then j.File.open fs j.Patch.FilePath else j.File).seekg
      fs k).fail = false) :
    HandleXferResume fs m s k =
      ({ m with _jobs := pre ++
          { j with
            File := (if !j.File.is_open then j.File.open fs j.Patch.FilePath
              else j.File).seekg fs k,
            Position := k, Active := true } :: post }, true) := by
  have h1 : (!j.File.is_open && (if !j.File.is_open then j.File.open fs j.Patch.FilePath
      else j.File).fail) = false := by
    cases ho : j.File.is_open with
    | true => rfl
    | false => simpa [ho] using hopen ho
  simp only [HandleXferResume, hjobs, resumeLoop_skip fs s k pre _ hpre, resumeLoop, hs,
    if_true, h1, hseek, Bool.false_eq_true, if_false]

/-- C14 on a pending job (the file is opened, then positioned at 700) and on
the job made active that way (repositioned at 300). -/
theorem HandleXferResume_success_witness :
    (HandleXferResume diskFs (InitiatePatch (mgrWith [patchEnGB] 300) 1 (some patchEnGB)).1
      1 700).2 = true ∧
    (HandleXferResume diskFs (InitiatePatch (mgrWith [patchEnGB] 300) 1 (some patchEnGB)).1
      1 700).1._jobs.map (fun j => (j.Session, j.Position, j.Active, j.File.cursor)) =
      [(1, 700, true, 700)] ∧
    (HandleXferResume diskFs (HandleXferResume diskFs (InitiatePatch (mgrWith [patchEnGB] 300) 1
      (some patchEnGB)).1 1 700).1 1 300).1._jobs.map
      (fun j => (j.Session, j.Position, j.Active, j.File.cursor)) = [(1, 300, true, 300)] := by
  have h := HandleXferResume_success diskFs
    (InitiatePatch (mgrWith [patchEnGB] 300) 1 (some patchEnGB)).1 1 700 [] []
    { Session := 1, Patch := patchEnGB, File := IfStream.closed, Position := 0, Active := false,
      LastLoggedProgress := 0 } (by decide) (by decide) rfl (by decide) (by decide)
  rw [h]
  decide

/-! ## What a tick does to the job set -/

/-- C16: after `UpdateJobs` with patching enabled, no remaining job has an
offset that has reached the size of its patch, and the remaining jobs are
exactly the driven jobs whose offset is below that size, in the order they had. -/
theorem UpdateJobs_reaps_completed (fs : FileSys) (m m' : PatchMgr) (hen : m._enabled = true)
    (h : UpdateJobs fs m = some m') :
    (∀ j ∈ m'._jobs, j.Position < j.Patch.FileSize) ∧
    ∃ driven ev, driveJobs m._chunkSize fs m._jobs = some (driven, ev) ∧
      m'._jobs = driven.filter (fun j => decide (j.Position < j.Patch.FileSize)) ∧
      m'._jobs.Sublist driven ∧
      (∀ j ∈ driven, j.Position < j.Patch.FileSize → j ∈ m'._jobs) ∧
      driven.map PatchJob.Session = m._jobs.map PatchJob.Session := by
  unfold UpdateJobs at h
  simp only [hen, Bool.not_true, Bool.false_eq_true, if_false] at h
  cases hd : driveJobs m._chunkSize fs m._jobs with
  | none => simp [hd] at h
  | some r =>
    obtain ⟨driven, ev⟩ := r
    simp only [hd, Option.some.injEq] at h
    subst h
    have hf : driven.filter (fun job => !completed job) =
        driven.filter (fun j => decide (j.Position < j.Patch.FileSize)) := by
      apply List.filter_congr
      intro x _
      simp only [completed]
      by_cases hx : x.Position < x.Patch.FileSize
      · simp [hx, Nat.not_le.mpr hx]
      · simp [hx, Nat.not_lt.mp hx]
    refine ⟨?_, driven, ev, rfl, hf, List.filter_sublist _, ?_,
      driveJobs_sessions _ _ _ _ _ hd⟩
    · intro j hj
      simp only [hf, List.mem_filter, decide_eq_true_eq] at hj
      exact hj.2
    · intro j hj hlt
      simp only [hf, List.mem_filter, decide_eq_true_eq]
      exact ⟨hj, hlt⟩

/-- C16 on a tick that completes the resumed job of session 1 while session 2
was only offered a patch: the finished job goes, the pending job stays. -/
theorem UpdateJobs_reaps_completed_witness :
    (HandleXferResume diskFs (InitiatePatch (InitiatePatch (mgrWith [patchEnGB, patchFrFR] 300)
        1 (some patchEnGB)).1 2 (some patchFrFR)).1 1 700).1._jobs.map
      (fun j => (j.Session, j.Position)) = [(1, 700), (2, 0)] ∧
    (UpdateJobs diskFs (HandleXferResume diskFs (InitiatePatch (InitiatePatch
        (mgrWith [patchEnGB, patchFrFR] 300) 1 (some patchEnGB)).1 2 (some patchFrFR)).1
        1 700).1).map (fun m' => m'._jobs.map (fun j => (j.Session, j.Position))) =
      some [(2, 0)] ∧
    ∃ m', UpdateJobs diskFs (HandleXferResume diskFs (InitiatePatch (InitiatePatch
        (mgrWith [patchEnGB, patchFrFR] 300) 1 (some patchEnGB)).1 2 (some patchFrFR)).1
        1 700).1 = some m' ∧ ∀ j ∈ m'._jobs, j.Position < j.Patch.FileSize :=
  have h : (UpdateJobs diskFs (HandleXferResume diskFs (InitiatePatch (InitiatePatch
      (mgrWith [patchEnGB, patchFrFR] 300) 1 (some patchEnGB)).1 2 (some patchFrFR)).1
      1 700).1).isSome = true := by decide
  ⟨by decide, by decide, _, (Option.some_get h).symm,
    (UpdateJobs_reaps_completed diskFs _ _ (by decide) (Option.some_get h).symm).1⟩

/-! ## The INITIATE frame -/

theorem leBytes_eight (n : Nat) :
    leBytes 8 n = [n % 256, n / 256 % 256, n / 65536 % 256, n / 16777216 % 256,
      n / 4294967296 % 256, n / 1099511627776 % 256, n / 281474976710656 % 256,
      n / 72057594037927936 % 256] := by
  simp [leBytes, List.range_succ]

/-- C20: for a patch whose size fits `uint64` and whose digest has its 16
bytes, the INITIATE frame that `InitiatePatch` sends is 31 bytes long: `0x30`,
`5`, the bytes of "Patch", the file size in 8 bytes least significant first,
the 16 digest bytes; bytes 7..14 decode to the file size and bytes 15..30 are
the digest. -/
theorem initiatePacket_layout (p : PatchInfo) (hsz : p.FileSize < 2 ^ 64)
    (hmd5 : p.MD5.length = 16) :
    (initiatePacket p).length = 31 ∧
    (initiatePacket p).take 7 = [0x30, 5, 80, 97, 116, 99, 104] ∧
    ((initiatePacket p).drop 7).take 8 =
      [p.FileSize % 256, p.FileSize / 256 % 256, p.FileSize / 65536 % 256,
       p.FileSize / 16777216 % 256, p.FileSize / 4294967296 % 256,
       p.FileSize / 1099511627776 % 256, p.FileSize / 281474976710656 % 256,
       p.FileSize / 72057594037927936 % 256] ∧
    leDecode (((initiatePacket p).drop 7).take 8) = p.FileSize ∧
    ((initiatePacket p).drop 15).take 16 = p.MD5 ∧
    ∀ (m : PatchMgr) (s : Nat), s ≠ 0 →
      (InitiatePatch m s (some p)).1.trace =
        m.trace ++ [Event.sendPacket s (initiatePacket p)] := by
  have htake : p.MD5.take 16 = p.MD5 := List.take_of_length_le (by omega)
  have hpk : initiatePacket p = [0x30, 5, 80, 97, 116, 99, 104] ++
      ([p.FileSize % 256, p.FileSize / 256 % 256, p.FileSize / 65536 % 256,
       p.FileSize / 16777216 % 256, p.FileSize / 4294967296 % 256,
       p.FileSize / 1099511627776 % 256, p.FileSize / 281474976710656 % 256,
       p.FileSize / 72057594037927936 % 256] ++ p.MD5) := by
    simp [initiatePacket, leBytes_eight, htake, XFER_INITIATE]
  refine ⟨?_, ?_, ?_, ?_, ?_, ?_⟩
  · simp [hpk, hmd5]
  · simp [hpk]
  · simp [hpk]
  · have h8 : ((initiatePacket p).drop 7).take 8 =
        [p.FileSize % 256, p.FileSize / 256 % 256, p.FileSize / 65536 % 256,
         p.FileSize / 16777216 % 256, p.FileSize / 4294967296 % 256,
         p.FileSize / 1099511627776 % 256, p.FileSize / 281474976710656 % 256,
         p.FileSize / 72057594037927936 % 256] := by simp [hpk]
    rw [h8]
    simp only [leDecode]
    norm_num at hsz
    omega
  · simp [hpk, hmd5, List.take_of_length_le]
  · intro m s hs
    simp [InitiatePatch, hs]

/-- C20 on the 1000-byte patch of scenario 1 (1000 = 0x03E8). -/
theorem initiatePacket_layout_witness :
    initiatePacket patchEnGB =
      [0x30, 5, 80, 97, 116, 99, 104, 0xE8, 0x03, 0, 0, 0, 0, 0, 0,
       7, 7, 7, 7, 7, 7, 7, 7, 7, 7, 7, 7, 7, 7, 7, 7] ∧
    (initiatePacket patchEnGB).length = 31 ∧
    leDecode (((initiatePacket patchEnGB).drop 7).take 8) = patchEnGB.FileSize :=
  ⟨by decide, (initiatePacket_layout patchEnGB (by decide) (by decide)).1,
    (initiatePacket_layout patchEnGB (by decide) (by decide)).2.2.2.1⟩

/-! ## The chunk length -/

/-- The chunk length within the file: for a job with a session, an offset
within its patch (whose size fits `uint64`) and a configured chunk size of at
most 65535, the chunk length that `SendPatchChunk` computes is
`min(chunk size, fileSize - offset)` capped to 65535; every frame it sends goes
to the job's session, carries exactly that many payload bytes, and comes with
the offset advanced by exactly as much; a chunk is sent whenever that length is
not 0 and the read does not fail; when the length is 0 nothing is sent and the
job is unchanged. -/
theorem SendPatchChunk_chunk_length (c : Nat) (fs : FileSys) (j : PatchJob)
    (hs : j.Session ≠ 0) (hc : c ≤ 65535) (hin : j.Position ≤ j.Patch.FileSize)
    (hlt : j.Patch.FileSize < 2 ^ 64) :
    min c ((j.Patch.FileSize + 2 ^ 64 - j.Position) % 2 ^ 64) % 2 ^ 16 =
      min (min c (j.Patch.FileSize - j.Position)) 65535 ∧
    ∃ j' ev, SendPatchChunk c fs j = some (j', ev) ∧
      (min (min c (j.Patch.FileSize - j.Position)) 65535 = 0 → j' = j ∧ ev = []) ∧
      (∀ t bytes, Event.sendPacket t bytes ∈ ev →
        t = j.Session ∧
        bytes = dataPacket (min (min c (j.Patch.FileSize - j.Position)) 65535)
          (j.File.read fs (min (min c (j.Patch.FileSize - j.Position)) 65535)).2 ∧
        bytes.length = 3 + min (min c (j.Patch.FileSize - j.Position)) 65535 ∧
        j'.Position = j.Position + min (min c (j.Patch.FileSize - j.Position)) 65535) ∧
      (min (min c (j.Patch.FileSize - j.Position)) 65535 ≠ 0 →
        ((j.File.read fs (min (min c (j.Patch.FileSize - j.Position)) 65535)).1.fail &&
          !(j.File.read fs (min (min c (j.Patch.FileSize - j.Position)) 65535)).1.eofbit)
          = false →
        ∃ bytes, Event.sendPacket j.Session bytes ∈ ev) := by
  have hrem : (j.Patch.FileSize + 2 ^ 64 - j.Position) % 2 ^ 64 =
      j.Patch.FileSize - j.Position := by
    have h1 : j.Patch.FileSize + 2 ^ 64 - j.Position = (j.Patch.FileSize - j.Position) + 2 ^ 64 := by
      omega
    rw [h1, Nat.add_mod_right]
    exact Nat.mod_eq_of_lt (by omega)
  have hle : min c (j.Patch.FileSize - j.Position) ≤ c := Nat.min_le_left _ _
  have hle2 : min c (j.Patch.FileSize - j.Position) ≤ j.Patch.FileSize - j.Position :=
    Nat.min_le_right _ _
  have hcap : min (min c (j.Patch.FileSize - j.Position)) 65535 =
      min c (j.Patch.FileSize - j.Position) := Nat.min_eq_left (by omega)
  have hchunk : min c (j.Patch.FileSize - j.Position) % 2 ^ 16 =
      min c (j.Patch.FileSize - j.Position) := Nat.mod_eq_of_lt (by omega)
  rw [hrem, hcap, hchunk]
  refine ⟨rfl, ?_⟩
  generalize hk : min c (j.Patch.FileSize - j.Position) = k at *
  have hposn : (j.Position + k) % 2 ^ 64 = j.Position + k := Nat.mod_eq_of_lt (by omega)
  have hlen := read_length fs j.File k
  by_cases hk0 : k = 0
  · have hval : SendPatchChunk c fs j = some (j, []) := by
      unfold SendPatchChunk
      simp only [hs, if_false, hrem, hk, hchunk]
      rw [if_pos hk0]
    exact ⟨j, [], hval, fun _ => ⟨rfl, rfl⟩, by simp, fun h => absurd hk0 h⟩
  · have hF : ¬ j.Patch.FileSize = 0 := by omega
    by_cases hfail : ((j.File.read fs k).1.fail && !(j.File.read fs k).1.eofbit) = true
    · have hval : SendPatchChunk c fs j =
          some ({ j with File := (j.File.read fs k).1, Active := false }, [Event.logError]) := by
        unfold SendPatchChunk
        simp only [hs, if_false, hrem, hk, hchunk, hk0, hfail, if_true]
      refine ⟨_, _, hval, fun h => absurd h hk0, by simp, fun _ h => ?_⟩
      rw [hfail] at h
      exact absurd h (by decide)
    · have hfail' : ((j.File.read fs k).1.fail && !(j.File.read fs k).1.eofbit) = false := by
        simpa using hfail
      have hpl : (dataPacket k (j.File.read fs k).2).length = 3 + k := by
        simp [dataPacket, leBytes, hlen]
        omega
      by_cases hp : ((j.Position + k) * 100 % 2 ^ 64 / j.Patch.FileSize) % 2 ^ 32 / 10 >
          j.LastLoggedProgress / 10
      · have hval : SendPatchChunk c fs j =
            some ({ j with File := (j.File.read fs k).1, Position := j.Position + k,
                           LastLoggedProgress :=
                             ((j.Position + k) * 100 % 2 ^ 64 / j.Patch.FileSize) % 2 ^ 32 },
              [Event.sendPacket j.Session (dataPacket k (j.File.read fs k).2),
               Event.logProgress j.Patch.FilePath
                 (((j.Position + k) * 100 % 2 ^ 64 / j.Patch.FileSize) % 2 ^ 32)
                 (j.Position + k) j.Patch.FileSize]) := by
          unfold SendPatchChunk
          simp only [hs, if_false, hrem, hk, hchunk, hk0, hfail', hF, hposn, hp, if_true,
            Bool.false_eq_true]
        refine ⟨_, _, hval, fun h => absurd h hk0, ?_, fun _ _ => ⟨_, List.mem_cons_self _ _⟩⟩
        intro t bytes hmem
        simp only [List.mem_cons, Event.sendPacket.injEq, List.mem_singleton, reduceCtorEq,
          List.not_mem_nil, or_false] at hmem
        obtain ⟨rfl, rfl⟩ := hmem
        exact ⟨rfl, rfl, hpl, rfl⟩
      · have hval : SendPatchChunk c fs j =
            some ({ j with File := (j.File.read fs k).1, Position := j.Position + k },
              [Event.sendPacket j.Session (dataPacket k (j.File.read fs k).2)]) := by
          unfold SendPatchChunk
          simp only [hs, if_false, hrem, hk, hchunk, hk0, hfail', hF, hposn, hp,
            Bool.false_eq_true]
        refine ⟨_, _, hval, fun h => absurd h hk0, ?_, fun _ _ => ⟨_, List.mem_cons_self _ _⟩⟩
        intro t bytes hmem
        simp only [List.mem_singleton, Event.sendPacket.injEq] at hmem
        obtain ⟨rfl, rfl⟩ := hmem
        exact ⟨rfl, rfl, hpl, rfl⟩

/-- The last chunk of scenario 3: at offset 900 of 1000 with chunk size 300
the chunk is 100 bytes long and the offset becomes 1000. -/
theorem SendPatchChunk_chunk_length_witness :
    (min 300 ((1000 + 2 ^ 64 - 900) % 2 ^ 64) % 2 ^ 16 = min (min 300 (1000 - 900)) 65535) ∧
    (SendPatchChunk 300 diskFs
      { Session := 1, Patch := patchEnGB,
        File := { is_open := true, path := patchEnGB.FilePath, cursor := 900, failbit := false,
                  eofbit := false, badbit := false },
        Position := 900, Active := true, LastLoggedProgress := 90 }).map
      (fun r => (r.1.Position, dataLens 1 r.2)) = some (1000, [100]) :=
  ⟨(SendPatchChunk_chunk_length 300 diskFs
      { Session := 1, Patch := patchEnGB,
        File := { is_open := true, path := patchEnGB.FilePath, cursor := 900, failbit := false,
                  eofbit := false, badbit := false },
        Position := 900, Active := true, LastLoggedProgress := 90 }
      (by decide) (by decide) (by decide) (by decide)).1, by decide⟩

/-! ## One chunk per active job and tick -/

theorem dataBytes_append (a b : List Event) : dataBytes (a ++ b) = dataBytes a + dataBytes b := by
  induction a with
  | nil => simp [dataBytes]
  | cons e rest ih =>
    cases e with
    | sendPacket t bytes =>
      rw [List.cons_append]
      simp only [dataBytes]
      rw [ih]
      omega
    | logProgress p a b c => simpa [dataBytes] using ih
    | logCompleted => simpa [dataBytes] using ih
    | logError => simpa [dataBytes] using ih

/-- One `SendPatchChunk` sends at most one DATA frame, to the job's session,
of at most the configured chunk size. -/
theorem SendPatchChunk_frames (c : Nat) (fs : FileSys) (s : Nat) (j j' : PatchJob)
    (ev : List Event) (h : SendPatchChunk c fs j = some (j', ev)) :
    (dataLens s ev).length ≤ (if j.Session = s then 1 else 0) ∧ dataBytes ev ≤ c := by
  have hk : min c ((j.Patch.FileSize + 2 ^ 64 - j.Position) % 2 ^ 64) % 2 ^ 16 ≤ c :=
    (Nat.mod_le _ _).trans (Nat.min_le_left _ _)
  have hlen := read_length fs j.File
    (min c ((j.Patch.FileSize + 2 ^ 64 - j.Position) % 2 ^ 64) % 2 ^ 16)
  have hpl : (dataPacket (min c ((j.Patch.FileSize + 2 ^ 64 - j.Position) % 2 ^ 64) % 2 ^ 16)
      (j.File.read fs (min c ((j.Patch.FileSize + 2 ^ 64 - j.Position) % 2 ^ 64)
        % 2 ^ 16)).2).length - 3 ≤ c := by
    simp only [dataPacket, leBytes, List.length_append, List.length_cons, List.length_nil,
      List.length_map, List.length_range, hlen]
    omega
  unfold SendPatchChunk at h
  simp only at h
  split_ifs at h <;> simp only [Option.some.injEq, Prod.mk.injEq] at h <;>
    obtain ⟨-, rfl⟩ := h
  · simp [dataLens, dataBytes]
  · simp [dataLens, dataBytes]
  · simp [dataLens, dataBytes]
  · refine ⟨?_, ?_⟩
    · simp only [dataLens]
      split_ifs <;> simp_all
    · simp only [dataBytes]
      split_ifs <;> omega
  · refine ⟨?_, ?_⟩
    · simp only [dataLens]
      split_ifs <;> simp_all
    · simp only [dataBytes]
      split_ifs <;> omega

/-- The first loop of `UpdateJobs` as a job-by-job account: every job that is
active with an open file gets one `SendPatchChunk`, every other job is left as
it is and yields nothing. -/
theorem driveJobs_results (c : Nat) (fs : FileSys) (js js' : List PatchJob) (ev : List Event)
    (h : driveJobs c fs js = some (js', ev)) :
    ∃ rs : List (PatchJob × List Event),
      List.Forall₂ (fun j r =>
        if j.Active && j.File.is_open then SendPatchChunk c fs j = some r else r = (j, []))
        js rs ∧
      js' = rs.map Prod.fst ∧ ev = (rs.map Prod.snd).flatten := by
  induction js generalizing js' ev with
  | nil =>
    simp only [driveJobs, Option.some.injEq, Prod.mk.injEq] at h
    obtain ⟨rfl, rfl⟩ := h
    exact ⟨[], List.Forall₂.nil, rfl, rfl⟩
  | cons j rest ih =>
    obtain ⟨j1, e1, r1, e2, h1, h2, rfl, rfl⟩ := driveJobs_cons_some c fs j rest js' ev h
    obtain ⟨rs, hrs, rfl, rfl⟩ := ih r1 e2 h2
    refine ⟨(j1, e1) :: rs, List.Forall₂.cons ?_ hrs, rfl, by simp⟩
    unfold driveOne at h1
    cases ha : j.Active <;> cases ho : j.File.is_open <;>
      simp_all

theorem results_bounds (c : Nat) (fs : FileSys) (s : Nat) (js : List PatchJob)
    (rs : List (PatchJob × List Event))
    (h : List.Forall₂ (fun j r =>
        if j.Active && j.File.is_open then SendPatchChunk c fs j = some r else r = (j, []))
        js rs) :
    (dataLens s (rs.map Prod.snd).flatten).length ≤
      (js.filter (fun j => decide (j.Session = s) && (j.Active && j.File.is_open))).length ∧
    dataBytes (rs.map Prod.snd).flatten ≤
      c * (js.filter (fun j => j.Active && j.File.is_open)).length := by
  induction h with
  | nil => simp [dataLens, dataBytes]
  | @cons j r js rs hjr _ ih =>
    obtain ⟨ih1, ih2⟩ := ih
    simp only [List.map_cons, List.flatten_cons, dataLens_append, dataBytes_append,
      List.length_append, List.filter_cons]
    by_cases hact : (j.Active && j.File.is_open) = true
    · rw [if_pos hact] at hjr
      obtain ⟨b1, b2⟩ := SendPatchChunk_frames c fs s j r.1 r.2 hjr
      by_cases hs : j.Session = s
      · simp only [hs, hact, decide_True, Bool.and_self, if_true, List.length_cons] at b1 ⊢
        refine ⟨by omega, ?_⟩
        rw [Nat.mul_succ]
        omega
      · simp only [hs, hact, decide_False, Bool.false_and, if_false, if_true,
          List.length_cons, Bool.false_eq_true] at b1 ⊢
        refine ⟨by omega, ?_⟩
        rw [Nat.mul_succ]
        omega
    · rw [if_neg hact] at hjr
      have hact' : (j.Active && j.File.is_open) = false := by simpa using hact
      simp only [hjr, hact', Bool.and_false, Bool.false_eq_true, if_false, dataLens, dataBytes,
        List.length_nil, Nat.zero_add]
      exact ⟨ih1, ih2⟩

/-- C15: in one `UpdateJobs` with patching enabled, every job that is active
with an open file gets exactly one `SendPatchChunk` and every other job is left
exactly as it is (same offset) and sends nothing; the jobs and the trace after
the tick are made of these per-job results, in order. Hence a session gets at
most as many DATA frames as it has driven jobs, at most one when sessions have
one job each, and the payload bytes of the tick are at most the chunk size
times the number of active jobs. -/
theorem UpdateJobs_one_chunk_per_active_job (fs : FileSys) (m m' : PatchMgr)
    (hen : m._enabled = true) (h : UpdateJobs fs m = some m') :
    ∃ rs : List (PatchJob × List Event),
      List.Forall₂ (fun j r =>
        if j.Active && j.File.is_open then SendPatchChunk m._chunkSize fs j = some r
        else r = (j, [])) m._jobs rs ∧
      m'._jobs = (rs.map Prod.fst).filter (fun j => !completed j) ∧
      m'.trace = m.trace ++ (rs.map Prod.snd).flatten ++
        ((rs.map Prod.fst).filter completed).map (fun _ => Event.logCompleted) ∧
      (∀ s, (dataLens s (rs.map Prod.snd).flatten).length ≤
        (m._jobs.filter
          (fun j => decide (j.Session = s) && (j.Active && j.File.is_open))).length) ∧
      ((m._jobs.map PatchJob.Session).Nodup →
        ∀ s, (dataLens s (rs.map Prod.snd).flatten).length ≤ 1) ∧
      dataBytes (rs.map Prod.snd).flatten ≤
        m._chunkSize * (m._jobs.filter (fun j => j.Active && j.File.is_open)).length ∧
      dataBytes (rs.map Prod.snd).flatten ≤
        m._chunkSize * (m._jobs.filter (fun j => j.Active)).length := by
  unfold UpdateJobs at h
  simp only [hen, Bool.not_true, Bool.false_eq_true, if_false] at h
  cases hd : driveJobs m._chunkSize fs m._jobs with
  | none => simp [hd] at h
  | some r =>
    obtain ⟨driven, ev⟩ := r
    simp only [hd, Option.some.injEq] at h
    subst h
    obtain ⟨rs, hrs, rfl, rfl⟩ := driveJobs_results _ fs _ _ _ hd
    have hb := fun s => results_bounds m._chunkSize fs s m._jobs rs hrs
    refine ⟨rs, hrs, rfl, rfl, fun s => (hb s).1, ?_, (hb 0).2, ?_⟩
    · intro hn s
      refine (hb s).1.trans (le_trans ?_ (jobsOf_length_le_one s m._jobs hn))
      unfold jobsOf
      rw [← List.filter_filter]
      exact (List.Sublist.filter _ (List.filter_sublist _)).length_le
    · refine (hb 0).2.trans (Nat.mul_le_mul_left _ ?_)
      have hf : m._jobs.filter (fun j => j.Active && j.File.is_open) =
          (m._jobs.filter (fun j => j.Active)).filter (fun j => j.File.is_open) := by
        rw [List.filter_filter]
        apply List.filter_congr
        intro x _
        exact Bool.and_comm _ _
      rw [hf]
      exact List.length_filter_le _ _

/-- C15 on one tick with session 1 active and session 2 pending: session 1
gets one 300-byte frame and moves to offset 300, session 2 gets nothing and
stays at offset 0. -/
theorem UpdateJobs_one_chunk_per_active_job_witness :
    (UpdateJobs diskFs activeAndPending).map
      (fun m' => (m'._jobs.map (fun j => (j.Session, j.Position, j.Active)),
        dataLens 1 m'.trace, dataLens 2 m'.trace, dataBytes m'.trace)) =
      some ([(1, 300, true), (2, 0, false)], [300], [], 300) ∧
    ∃ (m' : PatchMgr) (rs : List (PatchJob × List Event)),
      UpdateJobs diskFs activeAndPending = some m' ∧
      m'._jobs = (rs.map Prod.fst).filter (fun j => !completed j) ∧
      dataBytes (rs.map Prod.snd).flatten ≤
        activeAndPending._chunkSize * (activeAndPending._jobs.filter (fun j => j.Active)).length := by
  have h : (UpdateJobs diskFs activeAndPending).isSome = true := by decide
  obtain ⟨rs, -, h2, -, -, -, -, h7⟩ := UpdateJobs_one_chunk_per_active_job diskFs
    activeAndPending _ (by decide) (Option.some_get h).symm
  exact ⟨by decide, _, rs, (Option.some_get h).symm, h2, h7⟩

/-! ## A read that fails -/

/-- C18 refuted on a disk that fails from offset 300 on: the second tick's read
fails, no second DATA frame is sent, and the job of session 1 is left in the
job set at offset 300, inactive; five more ticks neither advance nor remove
it. -/
theorem failed_read_leaves_stalled_job :
    (run faultyFs [Op.initiate 1 (some patchEnGB), Op.accept 1, Op.tick, Op.tick]
        (mgrWith [patchEnGB] 300)).map
      (fun m' => (m'._jobs.map (fun j => (j.Session, j.Position, j.Active, j.File.is_open)),
        dataLens 1 m'.trace, m'.trace.getLast?)) =
      some ([(1, 300, false, true)], [300], some Event.logError) ∧
    (run faultyFs (Op.initiate 1 (some patchEnGB) :: Op.accept 1 :: List.replicate 7 Op.tick)
        (mgrWith [patchEnGB] 300)).map
      (fun m' => (m'._jobs.map (fun j => (j.Session, j.Position, j.Active, j.File.is_open)),
        dataLens 1 m'.trace, m'.trace.getLast?)) =
      some ([(1, 300, false, true)], [300], some Event.logError) :=
  ⟨by decide, by decide⟩

/-- Ticks leave a job that is not active and not at the end of its file where
it is. -/
theorem ticks_inactive (fs : FileSys) (s n : Nat) (m m' : PatchMgr) (j : PatchJob)
    (hj : jobsOf s m._jobs = [j]) (hina : j.Active = false)
    (hlt : j.Position < j.Patch.FileSize)
    (hrun : run fs (List.replicate n Op.tick) m = some m') :
    jobsOf s m'._jobs = [j] ∧ dataLens s m'.trace = dataLens s m.trace := by
  induction n generalizing m with
  | zero =>
    simp only [List.replicate, run, Option.some.injEq] at hrun
    subst hrun
    exact ⟨hj, rfl⟩
  | succ n ih =>
    obtain ⟨m1, h1, h2⟩ := run_cons_some fs _ _ m m' hrun
    simp only [step] at h1
    cases hen : m._enabled with
    | false =>
      have : m1 = m := by simpa [UpdateJobs, hen] using h1.symm
      subst this
      exact ih m1 hj h2
    | true =>
      obtain ⟨js, e, hd, hj1, ht, -, -⟩ := UpdateJobs_jobsOf fs s m m1 hen h1
      rw [hj, driveJobs_cons] at hd
      have hone : driveOne m._chunkSize fs j = some (j, []) := by simp [driveOne, hina]
      simp only [hone, driveJobs, Option.some_bind, Option.map_some', Option.some.injEq,
        Prod.mk.injEq, List.append_nil] at hd
      obtain ⟨rfl, rfl⟩ := hd
      have hcomp : completed j = false := by
        simp only [completed, decide_eq_false_iff_not]
        omega
      obtain ⟨r1, r2⟩ := ih m1 (by simp [hj1, hcomp]) h2
      refine ⟨r1, ?_⟩
      rw [r2, ht]
      simp [dataLens]

/-- C18 as the code has it: when the chunk read of an active job (offset below
the size of its patch) fails for a reason other than end-of-file,
`SendPatchChunk` sends no frame, leaves the offset, clears `Active` and logs an
error; the tick reports nothing and keeps the job, and however many ticks
follow, the job is still in the job set, unchanged, and its session has
received no further DATA frame. -/
theorem failed_read_deactivates_and_keeps_job (fs : FileSys) (m m' : PatchMgr) (s n : Nat)
    (j : PatchJob) (hen : m._enabled = true) (hc0 : 0 < m._chunkSize)
    (hc : m._chunkSize ≤ 65535) (hs : s ≠ 0) (hj : jobsOf s m._jobs = [j])
    (hact : j.Active = true) (hopen : j.File.is_open = true)
    (hlt : j.Position < j.Patch.FileSize) (hsz : j.Patch.FileSize < 2 ^ 64)
    (hfail : ((j.File.read fs (min m._chunkSize (j.Patch.FileSize - j.Position))).1.fail &&
      !(j.File.read fs (min m._chunkSize (j.Patch.FileSize - j.Position))).1.eofbit) = true)
    (hrun : run fs (List.replicate (n + 1) Op.tick) m = some m') :
    SendPatchChunk m._chunkSize fs j =
      some ({ j with
        File := (j.File.read fs (min m._chunkSize (j.Patch.FileSize - j.Position))).1,
        Active := false }, [Event.logError]) ∧
    jobsOf s m'._jobs =
      [{ j with
        File := (j.File.read fs (min m._chunkSize (j.Patch.FileSize - j.Position))).1,
        Active := false }] ∧
    dataLens s m'.trace = dataLens s m.trace := by
  have hses : j.Session = s := by
    have hmem : j ∈ jobsOf s m._jobs := by simp [hj]
    simpa [jobsOf] using (List.mem_filter.mp hmem).2
  have hsne : ¬ j.Session = 0 := by rw [hses]; exact hs
  have hrem : (j.Patch.FileSize + 2 ^ 64 - j.Position) % 2 ^ 64 =
      j.Patch.FileSize - j.Position := by
    have h1 : j.Patch.FileSize + 2 ^ 64 - j.Position = (j.Patch.FileSize - j.Position) + 2 ^ 64 := by
      omega
    rw [h1, Nat.add_mod_right]
    exact Nat.mod_eq_of_lt (by omega)
  have hle : min m._chunkSize (j.Patch.FileSize - j.Position) ≤ m._chunkSize :=
    Nat.min_le_left _ _
  have hchunk : min m._chunkSize (j.Patch.FileSize - j.Position) % 2 ^ 16 =
      min m._chunkSize (j.Patch.FileSize - j.Position) := Nat.mod_eq_of_lt (by omega)
  have hk0 : ¬ min m._chunkSize (j.Patch.FileSize - j.Position) = 0 := by
    rw [Nat.min_def]
    split_ifs <;> omega
  have hval : SendPatchChunk m._chunkSize fs j =
      some ({ j with
        File := (j.File.read fs (min m._chunkSize (j.Patch.FileSize - j.Position))).1,
        Active := false }, [Event.logError]) := by
    unfold SendPatchChunk
    simp only [hsne, if_false, hrem, hchunk, hk0, hfail, if_true]
  refine ⟨hval, ?_⟩
  obtain ⟨m1, h1, h2⟩ := run_cons_some fs _ _ m m' hrun
  simp only [step] at h1
  obtain ⟨js, e, hd, hj1, ht, -, -⟩ := UpdateJobs_jobsOf fs s m m1 hen h1
  rw [hj, driveJobs_cons] at hd
  have hone : driveOne m._chunkSize fs j = some ({ j with
        File := (j.File.read fs (min m._chunkSize (j.Patch.FileSize - j.Position))).1,
        Active := false }, [Event.logError]) := by
    simp [driveOne, hact, hopen, hval]
  simp only [hone, driveJobs, Option.some_bind, Option.map_some', Option.some.injEq,
    Prod.mk.injEq, List.append_nil] at hd
  obtain ⟨rfl, rfl⟩ := hd
  have hcomp : completed { j with
        File := (j.File.read fs (min m._chunkSize (j.Patch.FileSize - j.Position))).1,
        Active := false } = false := by
    simp only [completed, decide_eq_false_iff_not]
    omega
  obtain ⟨r1, r2⟩ := ticks_inactive fs s n m1 m'
    { j with
      File := (j.File.read fs (min m._chunkSize (j.Patch.FileSize - j.Position))).1,
      Active := false } (by simp [hj1, hcomp]) rfl hlt h2
  refine ⟨r1, ?_⟩
  rw [r2, ht]
  simp [dataLens]

/-- C18 as the code has it, on the faulty disk: with the job of session 1 at
offset 300 the read fails, and seven ticks later the job is still there at
offset 300, inactive, with no further DATA frame. -/
theorem failed_read_deactivates_and_keeps_job_witness :
    (run faultyFs [Op.initiate 1 (some patchEnGB), Op.resume 1 300] (mgrWith [patchEnGB] 300)) =
      some (HandleXferResume faultyFs
        (InitiatePatch (mgrWith [patchEnGB] 300) 1 (some patchEnGB)).1 1 300).1 ∧
    ∃ m', run faultyFs (List.replicate (6 + 1) Op.tick) (HandleXferResume faultyFs
        (InitiatePatch (mgrWith [patchEnGB] 300) 1 (some patchEnGB)).1 1 300).1 = some m' ∧
      (jobsOf 1 m'._jobs).map (fun j => (j.Position, j.Active)) = [(300, false)] ∧
      dataLens 1 m'.trace = [] := by
  have h : (run faultyFs (List.replicate (6 + 1) Op.tick) (HandleXferResume faultyFs
      (InitiatePatch (mgrWith [patchEnGB] 300) 1 (some patchEnGB)).1 1 300).1).isSome = true := by
    decide
  obtain ⟨-, h2, h3⟩ := failed_read_deactivates_and_keeps_job faultyFs (HandleXferResume faultyFs
      (InitiatePatch (mgrWith [patchEnGB] 300) 1 (some patchEnGB)).1 1 300).1 _ 1 6
    { Session := 1, Patch := patchEnGB,
      File := { is_open := true, path := patchEnGB.FilePath, cursor := 300, failbit := false,
                eofbit := false, badbit := false },
      Position := 300, Active := true, LastLoggedProgress := 0 }
    (by decide) (by decide) (by decide) (by decide) (by decide) rfl rfl (by decide) (by decide)
    (by decide) (Option.some_get h).symm
  refine ⟨rfl, _, (Option.some_get h).symm, ?_, ?_⟩
  · rw [h2]
    rfl
  · rw [h3]
    decide

/-! ## Progress lines -/

/-- C19 refuted on the 1000-byte file: with chunk size 300 the transfer passes
the ten boundaries 10 %, ..., 100 % but logs four lines (30, 60, 90, 100), none
of them in the deciles of 10 % and 20 %; with chunk size 100 the same file
logs ten lines. -/
theorem progress_lines_depend_on_chunk_size :
    (run diskFs (Op.initiate 1 (some patchEnGB) :: Op.accept 1 :: List.replicate 4 Op.tick)
        (mgrWith [patchEnGB] 300)).map (fun m' => (m'._jobs, progressLines m'.trace)) =
      some ([], [30, 60, 90, 100]) ∧
    (run diskFs (Op.initiate 1 (some patchEnGB) :: Op.accept 1 :: List.replicate 4 Op.tick)
        (mgrWith [patchEnGB] 300)).map
      (fun m' => (progressLines m'.trace).filter (fun x => x / 10 = 1 ∨ x / 10 = 2)) =
      some [] ∧
    (run diskFs (Op.initiate 1 (some patchEnGB) :: Op.accept 1 :: List.replicate 10 Op.tick)
        (mgrWith [patchEnGB] 100)).map (fun m' => (m'._jobs, progressLines m'.trace)) =
      some ([], [10, 20, 30, 40, 50, 60, 70, 80, 90, 100]) :=
  ⟨by decide, by decide, by decide⟩

theorem progressLines_append (a b : List Event) :
    progressLines (a ++ b) = progressLines a ++ progressLines b := by
  induction a with
  | nil => rfl
  | cons e rest ih =>
    cases e with
    | sendPacket t bytes => simpa [progressLines] using ih
    | logProgress p a b c => simpa [progressLines] using ih
    | logCompleted => simpa [progressLines] using ih
    | logError => simpa [progressLines] using ih

theorem progressLines_logCompleted (js : List PatchJob) :
    progressLines (js.map (fun _ => Event.logCompleted)) = [] := by
  induction js with
  | nil => rfl
  | cons j rest ih => simpa [progressLines] using ih

theorem progressAfter_mono (c F a : Nat) : progressAfter c F a ≤ progressAfter c F (a + 1) := by
  unfold progressAfter
  apply Nat.div_le_div_right
  apply Nat.mul_le_mul_right
  have h : a * c ≤ (a + 1) * c := Nat.mul_le_mul_right _ (Nat.le_succ a)
  omega

/-- No decile is logged twice: the deciles of the expected lines increase
strictly, starting above the decile reached before. -/
theorem expectedLines_deciles (c F : Nat) (n a : Nat) :
    (expectedLines c F a n).Pairwise (fun x y => x / 10 < y / 10) ∧
      ∀ x ∈ expectedLines c F a n, progressAfter c F a / 10 < x / 10 := by
  induction n generalizing a with
  | zero => simp [expectedLines]
  | succ n ih =>
    obtain ⟨ih1, ih2⟩ := ih (a + 1)
    have hm := Nat.div_le_div_right (c := 10) (progressAfter_mono c F a)
    unfold expectedLines
    split_ifs with h1 h2
    · refine ⟨?_, ?_⟩
      · rw [List.singleton_append, List.pairwise_cons]
        exact ⟨ih2, ih1⟩
      · intro x hx
        rw [List.singleton_append, List.mem_cons] at hx
        rcases hx with rfl | hx
        · exact h2
        · exact lt_of_le_of_lt hm (ih2 x hx)
    · refine ⟨by simpa using ih1, ?_⟩
      intro x hx
      rw [List.nil_append] at hx
      exact lt_of_le_of_lt hm (ih2 x hx)
    · simp

theorem expectedLines_done (c F a n : Nat) (h : ¬ a * c < F) : expectedLines c F a n = [] := by
  cases n with
  | zero => rfl
  | succ n => simp [expectedLines, h]

/-- One chunk of a healthy job below the end of its file, on a file whose size
times 100 fits `uint64`: the progress is `(offset + chunk) * 100 / fileSize`
and is logged, and remembered, exactly when its decile exceeds that of the
last logged progress. -/
theorem SendPatchChunk_progress (c : Nat) (fs : FileSys) (s : Nat) (j : PatchJob)
    (hc0 : 0 < c) (hc : c ≤ 65535) (h : Healthy fs s j)
    (hF : j.Patch.FileSize * 100 < 2 ^ 64) :
    ∃ j1 ev, SendPatchChunk c fs j = some (j1, ev) ∧ j1.Patch = j.Patch ∧
      j1.Position = j.Position + min c (j.Patch.FileSize - j.Position) ∧ Healthy fs s j1 ∧
      (j.Position < j.Patch.FileSize →
        progressLines ev =
          (if (j.Position + min c (j.Patch.FileSize - j.Position)) * 100 / j.Patch.FileSize / 10 >
              j.LastLoggedProgress / 10
            then [(j.Position + min c (j.Patch.FileSize - j.Position)) * 100 / j.Patch.FileSize]
            else []) ∧
        j1.LastLoggedProgress =
          (if (j.Position + min c (j.Patch.FileSize - j.Position)) * 100 / j.Patch.FileSize / 10 >
              j.LastLoggedProgress / 10
            then (j.Position + min c (j.Patch.FileSize - j.Position)) * 100 / j.Patch.FileSize
            else j.LastLoggedProgress)) := by
  obtain ⟨j1, ev, hval, hp1, hpos1, -, hh1, -⟩ := SendPatchChunk_healthy c fs s j hc0 hc h
  refine ⟨j1, ev, hval, hp1, hpos1, hh1, ?_⟩
  intro hlt
  obtain ⟨hs, hs0, hact, hopen, hus, hnf, hin, hpos, hsz⟩ := h
  have hrem : (j.Patch.FileSize + 2 ^ 64 - j.Position) % 2 ^ 64 =
      j.Patch.FileSize - j.Position := by
    have h1 : j.Patch.FileSize + 2 ^ 64 - j.Position = (j.Patch.FileSize - j.Position) + 2 ^ 64 := by
      omega
    rw [h1, Nat.add_mod_right]
    exact Nat.mod_eq_of_lt (by omega)
  have hle : min c (j.Patch.FileSize - j.Position) ≤ c := Nat.min_le_left _ _
  have hle2 : min c (j.Patch.FileSize - j.Position) ≤ j.Patch.FileSize - j.Position :=
    Nat.min_le_right _ _
  have hchunk : min c (j.Patch.FileSize - j.Position) % 2 ^ 16 =
      min c (j.Patch.FileSize - j.Position) := Nat.mod_eq_of_lt (by omega)
  have hk0 : ¬ min c (j.Patch.FileSize - j.Position) = 0 := by
    rw [Nat.min_def]
    split_ifs <;> omega
  generalize hk : min c (j.Patch.FileSize - j.Position) = k at *
  have hsne : ¬ j.Session = 0 := by rw [hs]; exact hs0
  have hF0 : ¬ j.Patch.FileSize = 0 := by omega
  have hposn : (j.Position + k) % 2 ^ 64 = j.Position + k := Nat.mod_eq_of_lt (by omega)
  have hmul : (j.Position + k) * 100 % 2 ^ 64 = (j.Position + k) * 100 :=
    Nat.mod_eq_of_lt (by omega)
  have hq100 : (j.Position + k) * 100 / j.Patch.FileSize ≤ 100 := by
    apply Nat.div_le_of_le_mul
    have : j.Position + k ≤ j.Patch.FileSize := by omega
    calc (j.Position + k) * 100 ≤ j.Patch.FileSize * 100 := Nat.mul_le_mul_right _ this
      _ = j.Patch.FileSize * 100 := rfl
  have hq32 : (j.Position + k) * 100 / j.Patch.FileSize % 2 ^ 32 =
      (j.Position + k) * 100 / j.Patch.FileSize := Nat.mod_eq_of_lt (by omega)
  obtain ⟨hr1, -, -, -⟩ := read_usable fs j.File k hus hnf
  unfold SendPatchChunk at hval
  simp only [hsne, if_false, hrem, hk, hchunk, hk0, hr1, hF0, hposn, hmul, hq32,
    Bool.false_eq_true] at hval
  split_ifs at hval with hq
  · simp only [Option.some.injEq, Prod.mk.injEq] at hval
    obtain ⟨rfl, rfl⟩ := hval
    simp [progressLines, hq]
  · simp only [Option.some.injEq, Prod.mk.injEq] at hval
    obtain ⟨rfl, rfl⟩ := hval
    simp [progressLines, hq]

theorem ticks_empty (fs : FileSys) (n : Nat) (m m' : PatchMgr) (hno : m._jobs = [])
    (hrun : run fs (List.replicate n Op.tick) m = some m') :
    m'.trace = m.trace ∧ m'._jobs = [] := by
  induction n generalizing m with
  | zero =>
    simp only [List.replicate, run, Option.some.injEq] at hrun
    subst hrun
    exact ⟨rfl, hno⟩
  | succ n ih =>
    obtain ⟨m1, h1, h2⟩ := run_cons_some fs _ _ m m' hrun
    simp only [step, UpdateJobs, hno, driveJobs] at h1
    split_ifs at h1
    · simp only [Option.some.injEq] at h1
      rw [← h1] at h2
      exact ih m hno h2
    · simp only [Option.some.injEq] at h1
      rw [← h1] at h2
      obtain ⟨r1, r2⟩ := ih _ rfl h2
      exact ⟨by simpa using r1, r2⟩

theorem UpdateJobs_single (fs : FileSys) (m : PatchMgr) (j j1 : PatchJob) (ev : List Event)
    (hen : m._enabled = true) (hjobs : m._jobs = [j]) (hact : j.Active = true)
    (hopen : j.File.is_open = true) (hval : SendPatchChunk m._chunkSize fs j = some (j1, ev)) :
    ∃ m1, UpdateJobs fs m = some m1 ∧ m1._enabled = true ∧ m1._chunkSize = m._chunkSize ∧
      m1._jobs = (if completed j1 then [] else [j1]) ∧
      progressLines m1.trace = progressLines m.trace ++ progressLines ev := by
  refine ⟨{ m with
      _jobs := [j1].filter (fun job => !completed job),
      trace := m.trace ++ ev ++ ([j1].filter completed).map (fun _ => Event.logCompleted) },
    ?_, hen, rfl, ?_, ?_⟩
  · simp [UpdateJobs, hen, hjobs, driveJobs, hact, hopen, hval]
  · cases hcomp : completed j1 <;> simp [hcomp]
  · simp only [progressLines_append, progressLines_logCompleted, List.append_nil]

/-- The progress lines of a lone healthy job that has sent `a` chunks from
offset 0, during `n` further ticks. -/
theorem ticks_progress (fs : FileSys) (s c F : Nat) (hc0 : 0 < c) (hc : c ≤ 65535)
    (hF : F * 100 < 2 ^ 64) (n : Nat) (m m' : PatchMgr) (j : PatchJob) (a : Nat)
    (hen : m._enabled = true) (hcs : m._chunkSize = c) (hjobs : m._jobs = [j])
    (hh : Healthy fs s j) (hsize : j.Patch.FileSize = F) (hpos : j.Position = a * c)
    (hlt : a * c < F) (hinv : j.LastLoggedProgress / 10 = progressAfter c F a / 10)
    (hrun : run fs (List.replicate n Op.tick) m = some m') :
    progressLines m'.trace = progressLines m.trace ++ expectedLines c F a n := by
  induction n generalizing m j a with
  | zero =>
    simp only [List.replicate, run, Option.some.injEq] at hrun
    subst hrun
    simp [expectedLines]
  | succ n ih =>
    obtain ⟨m1, h1, h2⟩ := run_cons_some fs _ _ m m' hrun
    simp only [step] at h1
    obtain ⟨j1, ev, hval, hp1, hpos1, hh1, hprog⟩ :=
      SendPatchChunk_progress c fs s j hc0 hc hh (by rw [hsize]; exact hF)
    obtain ⟨hl, hllp⟩ := hprog (by rw [hsize, hpos]; exact hlt)
    obtain ⟨m1', hu, hen1, hcs1, hj1, ht1⟩ :=
      UpdateJobs_single fs m j j1 ev hen hjobs hh.active hh.isOpen (by rw [hcs]; exact hval)
    have hm1 : m1' = m1 := by
      rw [hu] at h1
      exact Option.some.inj h1
    subst hm1
    have hnext : j.Position + min c (j.Patch.FileSize - j.Position) = min ((a + 1) * c) F := by
      rw [hsize, hpos, Nat.succ_mul]
      generalize a * c = x at *
      omega
    have hq : (j.Position + min c (j.Patch.FileSize - j.Position)) * 100 / j.Patch.FileSize =
        progressAfter c F (a + 1) := by
      rw [hnext, hsize]
      rfl
    rw [hq, hinv] at hl hllp
    have hmono := Nat.div_le_div_right (c := 10) (progressAfter_mono c F a)
    unfold expectedLines
    rw [if_pos hlt, ← List.append_assoc, ← hl, ← ht1]
    by_cases hdone : (a + 1) * c < F
    · have hpos2 : j1.Position = (a + 1) * c := by
        rw [hpos1, hnext]
        exact Nat.min_eq_left (Nat.le_of_lt hdone)
      have hcomp : completed j1 = false := by
        simp only [completed, decide_eq_false_iff_not, hp1, hsize, hpos2]
        omega
      have hinv1 : j1.LastLoggedProgress / 10 = progressAfter c F (a + 1) / 10 := by
        rw [hllp]
        split_ifs with hcond
        · rfl
        · rw [hinv]
          omega
      exact ih m1' j1 (a + 1) hen1 (hcs1.trans hcs) (by simp [hj1, hcomp]) hh1
        (by rw [hp1]; exact hsize) hpos2 hdone hinv1 h2
    · have hcomp : completed j1 = true := by
        simp only [completed, decide_eq_true_eq]
        rw [hp1, hsize, hpos1, hnext]
        exact le_min (Nat.le_of_not_lt hdone) (le_refl _)
      obtain ⟨r1, -⟩ := ticks_empty fs n m1' m' (by simp [hj1, hcomp]) h2
      rw [expectedLines_done c F (a + 1) n hdone, r1, List.append_nil]

/-- C19 as the code has it: for a transfer from offset 0 on its own in the
job set, with `fileSize * 100` inside `uint64`, the progress lines logged
during `n` ticks are exactly those of the chunks after which the decile of
`floor(offset * 100 / fileSize)` is higher than after the chunk before (decile
0 before the first chunk). So the logged deciles increase strictly: no decile
is logged twice however many chunks land in it, decile 0 is never logged, and
deciles passed inside one chunk get no line of their own. -/
theorem progress_logged_on_new_decile (fs : FileSys) (m m' : PatchMgr) (s : Nat) (p : PatchInfo)
    (data : List Nat) (n : Nat) (hempty : m._jobs = []) (hen : m._enabled = true)
    (hc0 : 0 < m._chunkSize) (hc : m._chunkSize ≤ 65535) (hs : s ≠ 0)
    (hpos : 0 < p.FileSize) (hF : p.FileSize * 100 < 2 ^ 64)
    (hfile : fs.content p.FilePath = some data)
    (hnf : ∀ pos, fs.readFault p.FilePath pos = false)
    (hrun : run fs (Op.initiate s (some p) :: Op.accept s :: List.replicate n Op.tick) m
      = some m') :
    progressLines m'.trace =
      progressLines m.trace ++ expectedLines m._chunkSize p.FileSize 0 n ∧
    (expectedLines m._chunkSize p.FileSize 0 n).Pairwise (fun x y => x / 10 < y / 10) ∧
    ∀ x ∈ expectedLines m._chunkSize p.FileSize 0 n, 1 ≤ x / 10 := by
  have hrun2 : run fs (List.replicate n Op.tick)
      (HandleXferAccept fs (InitiatePatch m s (some p)).1 s).1 = some m' := hrun
  have hjobs : (HandleXferAccept fs (InitiatePatch m s (some p)).1 s).1._jobs =
      [{ Session := s, Patch := p,
         File := { is_open := true, path := p.FilePath, cursor := 0, failbit := false,
                   eofbit := false, badbit := false },
         Position := 0, Active := true, LastLoggedProgress := 0 }] := by
    simp [HandleXferAccept, InitiatePatch, hs, hempty, RemoveJob, acceptLoop, IfStream.open,
      IfStream.closed, hfile, IfStream.fail]
  have htr : progressLines (HandleXferAccept fs (InitiatePatch m s (some p)).1 s).1.trace =
      progressLines m.trace := by
    simp [HandleXferAccept, InitiatePatch, hs, progressLines_append, progressLines]
  have hen2 : (HandleXferAccept fs (InitiatePatch m s (some p)).1 s).1._enabled = true := by
    simpa [HandleXferAccept, InitiatePatch, hs] using hen
  have hcs2 : (HandleXferAccept fs (InitiatePatch m s (some p)).1 s).1._chunkSize =
      m._chunkSize := by
    simp [HandleXferAccept, InitiatePatch, hs]
  have hdec := expectedLines_deciles m._chunkSize p.FileSize n 0
  have hsz : p.FileSize < 2 ^ 64 := by omega
  refine ⟨?_, hdec.1, ?_⟩
  · rw [← htr]
    exact ticks_progress fs s m._chunkSize p.FileSize hc0 hc hF n _ m' _ 0 hen2 hcs2 hjobs
      ⟨rfl, hs, rfl, rfl, rfl, hnf, Nat.zero_le _, hpos, hsz⟩ rfl (by simp)
      (by simpa using hpos) (by simp [progressAfter]) hrun2
  · intro x hx
    have := hdec.2 x hx
    omega

/-- C19 as the code has it, on scenario 3: the four chunks of 300, 300, 300 and
100 bytes log 30, 60, 90 and 100. -/
theorem progress_logged_on_new_decile_witness :
    expectedLines 300 1000 0 4 = [30, 60, 90, 100] ∧
    ∃ m', run diskFs (Op.initiate 1 (some patchEnGB) :: Op.accept 1 :: List.replicate 4 Op.tick)
        (mgrWith [patchEnGB] 300) = some m' ∧
      progressLines m'.trace =
        progressLines (mgrWith [patchEnGB] 300).trace ++ expectedLines 300 1000 0 4 :=
  have h : (run diskFs (Op.initiate 1 (some patchEnGB) :: Op.accept 1 ::
      List.replicate 4 Op.tick) (mgrWith [patchEnGB] 300)).isSome = true := by decide
  ⟨by decide, _, (Option.some_get h).symm,
    (progress_logged_on_new_decile diskFs (mgrWith [patchEnGB] 300) _ 1 patchEnGB
      (List.replicate 1000 1) 4 rfl rfl (by decide) (by decide) (by decide) (by decide)
      (by decide) (by decide) (fun _ => rfl) (Option.some_get h).symm).1⟩

/-! ## Case of the requested locale -/

theorem tolower_caseVariant (a b : Nat) (h : caseVariant a b = true) : tolower a = tolower b := by
  simp only [caseVariant, isAsciiLetter, Bool.or_eq_true, Bool.and_eq_true,
    decide_eq_true_eq] at h
  unfold tolower
  split_ifs <;> omega

theorem toLowerStr_sameUpToCase (l l' : List Nat) (h : sameUpToCase l l' = true) :
    toLowerStr l = toLowerStr l' := by
  induction l generalizing l' with
  | nil =>
    cases l' with
    | nil => rfl
    | cons b bs => simp [sameUpToCase] at h
  | cons a as ih =>
    cases l' with
    | nil => simp [sameUpToCase] at h
    | cons b bs =>
      simp only [sameUpToCase, Bool.and_eq_true] at h
      simp only [toLowerStr, List.map_cons, List.cons.injEq]
      exact ⟨tolower_caseVariant a b h.1, ih bs h.2⟩

/-- C28: for locales `L` and `L'` that differ only in the case of ASCII
letters, `FindPatchForClient(B, L)` and `FindPatchForClient(B, L')` return the
same result, for every manager and build. -/
theorem FindPatchForClient_case_insensitive (m : PatchMgr) (build : Nat) (l l' : List Nat)
    (h : sameUpToCase l l' = true) :
    FindPatchForClient m build l = FindPatchForClient m build l' := by
  unfold FindPatchForClient
  rw [toLowerStr_sameUpToCase l l' h]

/-- C28 for `enGB` and `ENgb` on the registry of scenario 2. -/
theorem FindPatchForClient_case_insensitive_witness :
    sameUpToCase (ascii "enGB") (ascii "ENgb") = true ∧
    FindPatchForClient (mgrWith [patchEnGB, patchFrFR] 1500) 12340 (ascii "enGB") =
      FindPatchForClient (mgrWith [patchEnGB, patchFrFR] 1500) 12340 (ascii "ENgb") ∧
    FindPatchForClient (mgrWith [patchEnGB, patchFrFR] 1500) 12340 (ascii "ENgb") =
      some patchEnGB :=
  ⟨by decide,
    FindPatchForClient_case_insensitive (mgrWith [patchEnGB, patchFrFR] 1500) 12340
      (ascii "enGB") (ascii "ENgb") (by decide),
    by decide⟩

/-! ## Configuration -/

/-- C22: whatever `Initialize` returns has the configured chunk size clamped
to `[100, 65535]`: 100 below 100, 65535 above 65535, the value itself
otherwise; with patching disabled it always returns. -/
theorem Initialize_clamps_chunk_size (md5 : List (List Nat) → List Nat) (ulongBits : Nat)
    (fs : FileSys) (dir : Option (List DirEntry)) (en : Bool) (minBuild : Nat)
    (cfgDir : String) (v : Nat) (m : PatchMgr) :
    (∀ m', Initialize md5 ulongBits fs dir en minBuild cfgDir v m = some m' →
      m'._chunkSize = (if v < 100 then 100 else if v > 65535 then 65535 else v) ∧
      100 ≤ m'._chunkSize ∧ m'._chunkSize ≤ 65535) ∧
    (en = false → ∃ m', Initialize md5 ulongBits fs dir en minBuild cfgDir v m = some m') ∧
    (dir = none → ∃ m', Initialize md5 ulongBits fs dir en minBuild cfgDir v m = some m') := by
  have hclamp : (if (if v < 100 then 100 else v) > 65535 then 65535
      else (if v < 100 then 100 else v)) =
      (if v < 100 then 100 else if v > 65535 then 65535 else v) := by
    split_ifs <;> omega
  refine ⟨?_, ?_, ?_⟩
  · intro m' h
    have hc : m'._chunkSize = (if v < 100 then 100 else if v > 65535 then 65535 else v) := by
      rw [← hclamp]
      unfold Initialize at h
      simp only at h
      cases en with
      | false =>
        simp only [Bool.false_eq_true, if_false, Option.some.injEq] at h
        rw [← h]
      | true =>
        simp only [if_true, LoadPatches] at h
        cases dir with
        | none =>
          simp only [Option.some.injEq] at h
          rw [← h]
        | some entries =>
          simp only at h
          cases hl : loadLoop md5 ulongBits fs entries [] with
          | none => simp [hl] at h
          | some ps =>
            simp only [hl, Option.map_some', Option.some.injEq] at h
            rw [← h]
    rw [hc]
    split_ifs <;> omega
  · intro hen
    subst hen
    exact ⟨_, rfl⟩
  · intro hd
    subst hd
    cases en <;> exact ⟨_, rfl⟩

/-- C22 at 50, 1500 and 70000, patching disabled and enabled. -/
theorem Initialize_clamps_chunk_size_witness :
    (Initialize sumHash 64 diskFs (some scenarioDir) false 12340 "ClientPatches" 50
      PatchMgr.new).map (fun m' => m'._chunkSize) = some 100 ∧
    (Initialize sumHash 64 diskFs (some scenarioDir) true 12340 "ClientPatches" 1500
      PatchMgr.new).map (fun m' => m'._chunkSize) = some 1500 ∧
    (Initialize sumHash 64 diskFs (some scenarioDir) true 12340 "ClientPatches" 70000
      PatchMgr.new).map (fun m' => (m'._chunkSize, m'._patches.map (fun p => p.Build))) =
      some (65535, [12340, 0]) ∧
    ∃ m', Initialize sumHash 64 diskFs (some scenarioDir) false 12340 "ClientPatches" 50
      PatchMgr.new = some m' :=
  ⟨by decide, by decide, by decide,
    (Initialize_clamps_chunk_size sumHash 64 diskFs (some scenarioDir) false 12340
      "ClientPatches" 50 PatchMgr.new).2.1 rfl⟩

/-! ## File names of the registry -/

/-- C23 at its failing inputs: a file named `enGB99999999999999999999.mpq`
makes `std::stoul` throw, which ends `LoadPatches` and `Initialize` (for a 64
bit and a 32 bit `unsigned long` alike); a file named `enGB4294967296.mpq` is
loaded with build 0 where `unsigned long` has 64 bits. -/
theorem LoadPatches_build_overflow :
    matchPatchName hugeBuildEntry.filename =
      some (ascii "enGB", ascii "99999999999999999999") ∧
    loadEntry sumHash 64 uniformFs hugeBuildEntry = none ∧
    loadEntry sumHash 32 uniformFs hugeBuildEntry = none ∧
    Initialize sumHash 64 uniformFs (some (scenarioDir ++ [hugeBuildEntry])) true 12340
      "ClientPatches" 1500 PatchMgr.new = none ∧
    decimalValue (ascii "4294967296") = 4294967296 ∧
    (loadEntry sumHash 64 uniformFs wrapBuildEntry).map
      (fun r => r.map (fun p => (p.Locale, p.Build))) = some (some (ascii "engb", 0)) ∧
    loadEntry sumHash 32 uniformFs wrapBuildEntry = none :=
  ⟨by decide, by decide, by decide, by decide, by decide, by decide, by decide⟩

theorem matchPatchName_wellformed (letters digits ext : List Nat) (hl : letters.length = 4)
    (hla : ∀ c ∈ letters, isAsciiLetter c = true) (hd : digits ≠ [])
    (hda : ∀ c ∈ digits, isDigit c = true) (hext : toLowerStr ext = ascii ".mpq") :
    matchPatchName (letters ++ digits ++ ext) = some (letters, digits) := by
  have hel : ext.length = 4 := by
    have h := congrArg List.length hext
    simpa [toLowerStr, ascii] using h
  have hdl : 0 < digits.length := List.length_pos.mpr hd
  have h1 : (letters ++ digits ++ ext).take 4 = letters := by
    rw [List.append_assoc, List.take_append_of_le_length (by omega), List.take_of_length_le (by omega)]
  have h2 : (letters ++ digits ++ ext).drop 4 = digits ++ ext := by
    rw [List.append_assoc, ← hl, List.drop_left]
  have h3 : (digits ++ ext).length - 4 = digits.length := by
    rw [List.length_append]
    omega
  unfold matchPatchName
  simp only [h1, h2, h3, List.take_left, List.drop_left, hext]
  have h4 : 9 ≤ letters.length + (digits.length + ext.length) := by omega
  have h5 : letters.all isAsciiLetter = true := List.all_eq_true.mpr hla
  have h6 : digits.all isDigit = true := List.all_eq_true.mpr hda
  simp [h4, h5, h6]

/-- C23, amended: a regular file named by four ASCII letters, one or more
decimal digits whose value is below `2^32` (the range of the `uint32` field
`Build`), and the extension in any case, whose file can be opened for hashing,
is neither skipped nor ends the load: the loop body yields a `PatchInfo` with
the four letters in lower case as locale and the decimal value of the digits as
build. -/
theorem loadEntry_parses_name (md5 : List (List Nat) → List Nat) (ulongBits : Nat)
    (fs : FileSys) (entry : DirEntry) (letters digits ext data : List Nat)
    (hreg : entry.is_regular_file = true) (hname : entry.filename = letters ++ digits ++ ext)
    (hl : letters.length = 4) (hla : ∀ c ∈ letters, isAsciiLetter c = true) (hd : digits ≠ [])
    (hda : ∀ c ∈ digits, isDigit c = true) (hext : toLowerStr ext = ascii ".mpq")
    (hval : decimalValue digits < 2 ^ 32) (hul : 32 ≤ ulongBits)
    (hfile : fs.content entry.path = some data) :
    ∃ digest, loadEntry md5 ulongBits fs entry =
      some (some { Build := decimalValue digits, Locale := toLowerStr letters,
                   FileSize := entry.file_size, MD5 := digest, FilePath := entry.path,
                   DataLoaded := false }) := by
  have hm := matchPatchName_wellformed letters digits ext hl hla hd hda hext
  have hlt : decimalValue digits < 2 ^ ulongBits :=
    lt_of_lt_of_le hval (Nat.pow_le_pow_right (by decide) hul)
  have hmd5 : ∃ digest, CalculateMD5 md5 fs entry.path = some digest := by
    simp [CalculateMD5, IfStream.open, IfStream.closed, hfile, IfStream.fail]
  obtain ⟨digest, hdg⟩ := hmd5
  refine ⟨digest, ?_⟩
  simp only [loadEntry, hreg, hname, hm, stoul, hlt, hdg, Bool.not_true, Bool.false_eq_true,
    if_false, if_true, Nat.mod_eq_of_lt hval]

/-- C23, amended, on the first file of the scenarios: `enGB12340.mpq` is loaded
as locale `engb`, build 12340. -/
theorem loadEntry_parses_name_witness :
    decimalValue (ascii "12340") = 12340 ∧ toLowerStr (ascii "enGB") = ascii "engb" ∧
    ∃ digest, loadEntry sumHash 64 diskFs
        { filename := ascii "enGB12340.mpq", is_regular_file := true,
          path := patchEnGB.FilePath, file_size := 1000 } =
      some (some { Build := decimalValue (ascii "12340"), Locale := toLowerStr (ascii "enGB"),
                   FileSize := 1000, MD5 := digest, FilePath := patchEnGB.FilePath,
                   DataLoaded := false }) :=
  ⟨by decide, by decide,
    loadEntry_parses_name sumHash 64 diskFs
      { filename := ascii "enGB12340.mpq", is_regular_file := true,
        path := patchEnGB.FilePath, file_size := 1000 }
      (ascii "enGB") (ascii "12340") (ascii ".mpq") (List.replicate 1000 1)
      rfl (by decide) (by decide) (by decide) (by decide) (by decide) (by decide) (by decide)
      (by decide) (by decide)⟩


/-! ## Hashing a patch file -/

theorem hashBlocks_done (fs : FileSys) (fuel : Nat) (f : IfStream) (hg : f.good = false) :
    hashBlocks fs fuel f = [] := by
  cases fuel with
  | zero => rfl
  | succ n => simp [hashBlocks, IfStream.extract, hg, IfStream.fail]

theorem hashBlocks_block_size (fs : FileSys) (fuel : Nat) :
    ∀ f : IfStream, ∀ b ∈ hashBlocks fs fuel f, 0 < b.length ∧ b.length ≤ 8192 := by
  induction fuel with
  | zero => intro f b hb; simp [hashBlocks] at hb
  | succ n ih =>
    intro f b hb
    have hlen : (f.extract fs 8192).2.length ≤ 8192 := by
      simp only [IfStream.extract]
      split_ifs <;> simp [List.length_take]
    have hfull : (f.extract fs 8192).1.fail = false → (f.extract fs 8192).2.length = 8192 := by
      simp only [IfStream.extract]
      split_ifs with h1 h2 h3 h4
      · simp [IfStream.fail]
      · simp [IfStream.fail]
      · simp [IfStream.fail]
      · simp [IfStream.fail]
      · intro _
        have := List.length_take_le 8192 (List.drop f.cursor ((fs.content f.path).getD []))
        show (List.take 8192 (List.drop f.cursor ((fs.content f.path).getD []))).length = 8192
        omega
    simp only [hashBlocks] at hb
    by_cases hf : (f.extract fs 8192).1.fail = false
    · simp only [hf, Bool.not_false, if_true, List.mem_cons] at hb
      rcases hb with hb | hb
      · subst hb
        have := hfull hf
        omega
      · exact ih _ b hb
    · have hf' : (f.extract fs 8192).1.fail = true := by simpa using hf
      simp only [hf', Bool.not_true, Bool.false_eq_true, if_false] at hb
      by_cases hpos : (f.extract fs 8192).2.length > 0
      · simp only [hpos, if_true, List.mem_cons] at hb
        rcases hb with hb | hb
        · subst hb
          exact ⟨hpos, hlen⟩
        · exact ih _ b hb
      · simp [hpos] at hb

theorem hashBlocks_flatten (fs : FileSys) (path : String) (data : List Nat)
    (hfile : fs.content path = some data) (hnf : ∀ pos, fs.readFault path pos = false)
    (fuel : Nat) :
    ∀ (f : IfStream), f.good = true → f.is_open = true → f.path = path →
      f.cursor ≤ data.length → (data.length - f.cursor) / 8192 + 2 ≤ fuel →
      (hashBlocks fs fuel f).flatten = data.drop f.cursor := by
  induction fuel with
  | zero => intro f _ _ _ _ h; omega
  | succ n ih =>
    intro f hg ho hp hk hfuel
    have hlt : (List.take 8192 (List.drop f.cursor data)).length =
        min 8192 (data.length - f.cursor) := by
      rw [List.length_take, List.length_drop]
    by_cases hshort : data.length - f.cursor < 8192
    · have hval : f.extract fs 8192 =
          ({ f with cursor := f.cursor + (List.take 8192 (List.drop f.cursor data)).length,
                    failbit := true, eofbit := true },
            List.take 8192 (List.drop f.cursor data)) := by
        unfold IfStream.extract
        simp only [hg, ho, hp, hnf, hfile, Option.getD_some, Bool.not_true, Bool.false_eq_true,
          if_false]
        rw [if_pos (by rw [hlt]; omega)]
      have htake : List.take 8192 (List.drop f.cursor data) = List.drop f.cursor data :=
        List.take_of_length_le (by rw [List.length_drop]; omega)
      simp only [hashBlocks, hval, IfStream.fail, Bool.true_or, Bool.not_true,
        Bool.false_eq_true, if_false]
      by_cases hpos : (List.take 8192 (List.drop f.cursor data)).length > 0
      · rw [if_pos hpos, hashBlocks_done fs n _ (by simp [IfStream.good])]
        simp [htake]
      · rw [if_neg hpos]
        have h0 : (List.drop f.cursor data).length = 0 := by
          rw [← htake]
          omega
        rw [List.length_eq_zero.mp h0]
        rfl
    · have hval : f.extract fs 8192 =
          ({ f with cursor := f.cursor + 8192 }, List.take 8192 (List.drop f.cursor data)) := by
        unfold IfStream.extract
        simp only [hg, ho, hp, hnf, hfile, Option.getD_some, Bool.not_true, Bool.false_eq_true,
          if_false]
        rw [if_neg (by rw [hlt]; omega)]
      have hff : f.failbit = false ∧ f.badbit = false ∧ f.eofbit = false := by
        simp only [IfStream.good] at hg
        revert hg
        cases f.failbit <;> cases f.badbit <;> cases f.eofbit <;> simp
      have hnext := ih { f with cursor := f.cursor + 8192 }
        (by simp [IfStream.good, hff.1, hff.2.1, hff.2.2]) ho hp
        (by simp only; omega) (by simp only; omega)
      simp only [hashBlocks, hval, IfStream.fail, hff.1, hff.2.1, Bool.or_false, Bool.not_false,
        if_true, List.flatten_cons]
      simp only [hff.1, hff.2.1] at hnext
      rw [hnext, ← List.drop_drop, List.take_append_drop]

theorem CalculateMD5_of_file (md5 : List (List Nat) → List Nat)
    (hlaw : ∀ blocks, md5 blocks = md5 [blocks.flatten]) (fs : FileSys) (path : String)
    (data : List Nat) (hfile : fs.content path = some data)
    (hnf : ∀ pos, fs.readFault path pos = false) :
    CalculateMD5 md5 fs path = some (md5 [data]) := by
  have hopen : IfStream.closed.open fs path =
      { is_open := true, path := path, cursor := 0, failbit := false, eofbit := false,
        badbit := false } := by
    simp [IfStream.open, IfStream.closed, hfile]
  have hflat := hashBlocks_flatten fs path data hfile hnf (data.length / 8192 + 2)
    { is_open := true, path := path, cursor := 0, failbit := false, eofbit := false,
      badbit := false } rfl rfl rfl (Nat.zero_le _) (by simp)
  simp only [CalculateMD5, hopen, IfStream.fail, Bool.or_self, Bool.false_eq_true, if_false,
    hfile, Option.getD_some]
  rw [hlaw, hflat]
  rfl

theorem loadEntry_digest (md5 : List (List Nat) → List Nat)
    (hlaw : ∀ blocks, md5 blocks = md5 [blocks.flatten]) (ulongBits : Nat) (fs : FileSys)
    (hnf : ∀ path pos, fs.readFault path pos = false) (entry : DirEntry) (p : PatchInfo)
    (h : loadEntry md5 ulongBits fs entry = some (some p)) :
    ∃ data, fs.content p.FilePath = some data ∧ p.MD5 = md5 [data] := by
  unfold loadEntry at h
  split_ifs at h
  · simp at h
  split at h
  · simp at h
  · split at h
    · simp at h
    · cases hc : fs.content entry.path with
      | none =>
        simp [CalculateMD5, IfStream.open, IfStream.closed, hc, IfStream.fail] at h
      | some data =>
        rw [CalculateMD5_of_file md5 hlaw fs entry.path data hc (hnf entry.path)] at h
        simp only [Option.some.injEq] at h
        subst h
        exact ⟨data, hc, rfl⟩

theorem loadLoop_digest (md5 : List (List Nat) → List Nat)
    (hlaw : ∀ blocks, md5 blocks = md5 [blocks.flatten]) (ulongBits : Nat) (fs : FileSys)
    (hnf : ∀ path pos, fs.readFault path pos = false) (entries : List DirEntry) :
    ∀ (acc out : List PatchInfo),
      (∀ p ∈ acc, ∃ data, fs.content p.FilePath = some data ∧ p.MD5 = md5 [data]) →
      loadLoop md5 ulongBits fs entries acc = some out →
      ∀ p ∈ out, ∃ data, fs.content p.FilePath = some data ∧ p.MD5 = md5 [data] := by
  induction entries with
  | nil =>
    intro acc out hacc h
    simp only [loadLoop, Option.some.injEq] at h
    subst h
    exact hacc
  | cons entry rest ih =>
    intro acc out hacc h
    simp only [loadLoop] at h
    cases he : loadEntry md5 ulongBits fs entry with
    | none => simp [he] at h
    | some r =>
      cases r with
      | none =>
        simp only [he] at h
        exact ih acc out hacc h
      | some patch =>
        simp only [he] at h
        refine ih (acc ++ [patch]) out ?_ h
        intro p hp
        rcases List.mem_append.mp hp with hp | hp
        · exact hacc p hp
        · rw [List.mem_singleton.mp hp]
          exact loadEntry_digest md5 hlaw ulongBits fs hnf entry patch he

/-- Hashing without read errors: for a hash whose digest depends only on the
concatenation of the blocks it was fed, and a disk without read errors, `CalculateMD5` of a file of
any length returns the digest of the whole content fed as one block; it feeds
blocks of 1 to 8192 bytes; and every patch that `LoadPatches` stores carries
the one-shot digest of the content of its file. -/
theorem CalculateMD5_whole_file (md5 : List (List Nat) → List Nat)
    (hlaw : ∀ blocks, md5 blocks = md5 [blocks.flatten]) (fs : FileSys)
    (hnf : ∀ path pos, fs.readFault path pos = false) :
    (∀ path data, fs.content path = some data →
      CalculateMD5 md5 fs path = some (md5 [data])) ∧
    (∀ fuel f, ∀ b ∈ hashBlocks fs fuel f, 0 < b.length ∧ b.length ≤ 8192) ∧
    (∀ ulongBits dir m m', LoadPatches md5 ulongBits fs dir m = some m' →
      ∀ p ∈ m'._patches, ∃ data, fs.content p.FilePath = some data ∧ p.MD5 = md5 [data]) := by
  refine ⟨fun path data hfile => CalculateMD5_of_file md5 hlaw fs path data hfile (hnf path),
    fun fuel f => hashBlocks_block_size fs fuel f, ?_⟩
  intro ulongBits dir m m' h
  cases dir with
  | none =>
    simp only [LoadPatches, Option.some.injEq] at h
    subst h
    intro p hp
    simp at hp
  | some entries =>
    simp only [LoadPatches, Option.map_eq_some'] at h
    obtain ⟨ps, hps, hm⟩ := h
    subst hm
    exact loadLoop_digest md5 hlaw ulongBits fs hnf entries [] ps (by simp) hps

/-- The disk of the scenarios with the byte-sum hash: the 1000-byte file
hashes to the digest of its content, and so do the two patches loaded from the
directory. -/
theorem CalculateMD5_whole_file_witness :
    CalculateMD5 sumHash diskFs patchEnGB.FilePath = some (sumHash [List.replicate 1000 1]) ∧
    ((LoadPatches sumHash 64 diskFs (some scenarioDir) PatchMgr.new).map
      (fun m' => m'._patches.map (fun p => p.MD5))) =
      some [sumHash [List.replicate 1000 1], sumHash [List.replicate 500 2]] :=
  ⟨(CalculateMD5_whole_file sumHash (fun blocks => by simp [sumHash]) diskFs
      (fun _ _ => rfl)).1 patchEnGB.FilePath (List.replicate 1000 1) (by decide),
    by decide⟩


/-! ## Pending jobs and the periodic update -/

theorem acceptLoop_other (fs : FileSys) (s t : Nat) (h : t ≠ s) (js : List PatchJob) :
    jobsOf s (acceptLoop fs t js).1 = jobsOf s js := by
  induction js with
  | nil => rfl
  | cons j rest ih =>
    by_cases hj : j.Session = t
    · have hne : ¬ j.Session = s := fun hs => h (hj.symm.trans hs)
      simp only [acceptLoop]
      split_ifs
      all_goals simp [jobsOf, List.filter_cons, hne]
    · simp only [acceptLoop, hj, if_false]
      simp only [jobsOf, List.filter_cons] at ih ⊢
      rw [ih]

theorem resumeLoop_other (fs : FileSys) (s t k : Nat) (h : t ≠ s) (js : List PatchJob) :
    jobsOf s (resumeLoop fs t k js).1 = jobsOf s js := by
  induction js with
  | nil => rfl
  | cons j rest ih =>
    by_cases hj : j.Session = t
    · have hne : ¬ j.Session = s := fun hs => h (hj.symm.trans hs)
      simp only [resumeLoop]
      split_ifs
      all_goals simp [jobsOf, List.filter_cons, hne]
    · simp only [resumeLoop, hj, if_false]
      simp only [jobsOf, List.filter_cons] at ih ⊢
      rw [ih]

/-- A call made for another session, or a tick, leaves a pending job of a
patch with bytes still to send as it is. -/
theorem step_keeps_pending (fs : FileSys) (s : Nat) (j : PatchJob) (m m' : PatchMgr) (op : Op)
    (hj : jobsOf s m._jobs = [j]) (hina : j.Active = false)
    (hlt : j.Position < j.Patch.FileSize) (hop : op.target ≠ some s)
    (hstep : step fs m op = some m') : jobsOf s m'._jobs = [j] := by
  cases op with
  | initiate t p =>
    have hts : t ≠ s := fun e => hop (by rw [e]; rfl)
    simp only [step, Option.some.injEq] at hstep
    subst hstep
    cases p with
    | none => exact hj
    | some p =>
      simp only [InitiatePatch]
      split_ifs
      · exact hj
      · have h1 := jobsOf_RemoveJob_other m._jobs t s (Ne.symm hts)
        simp only [jobsOf] at h1 hj ⊢
        simp [List.filter_append, h1, hj, List.filter_cons, hts]
  | accept t =>
    have hts : t ≠ s := fun e => hop (by rw [e]; rfl)
    simp only [step, Option.some.injEq] at hstep
    subst hstep
    simp only [HandleXferAccept]
    rw [acceptLoop_other fs s t hts, hj]
  | resume t k =>
    have hts : t ≠ s := fun e => hop (by rw [e]; rfl)
    simp only [step, Option.some.injEq] at hstep
    subst hstep
    simp only [HandleXferResume]
    rw [resumeLoop_other fs s t k hts, hj]
  | cancel t =>
    have hts : t ≠ s := fun e => hop (by rw [e]; rfl)
    simp only [step, Option.some.injEq] at hstep
    subst hstep
    simp only [HandleXferCancel]
    rw [jobsOf_RemoveJob_other m._jobs t s (Ne.symm hts), hj]
  | tick =>
    have hrun : run fs (List.replicate 1 Op.tick) m = some m' := by
      simp [List.replicate, run, hstep]
    exact (ticks_inactive fs s 1 m m' j hj hina hlt hrun).1

/-- C26 at its failing input: session 1 is offered a patch whose file has no
bytes; the pending job that `InitiatePatch` created is removed, and reported
as completed, by the next `UpdateJobs`, with no Accept, Resume or Cancel. -/
theorem tick_removes_pending_job_of_empty_patch :
    (InitiatePatch (mgrWith [patchEmpty] 300) 1 (some patchEmpty)).1._jobs =
      [{ Session := 1, Patch := patchEmpty, File := IfStream.closed, Position := 0,
         Active := false, LastLoggedProgress := 0 }] ∧
    (UpdateJobs emptyFileFs (InitiatePatch (mgrWith [patchEmpty] 300) 1 (some patchEmpty)).1).map
      (fun m' => (m'._jobs, m'.trace.getLast?)) = some ([], some Event.logCompleted) :=
  ⟨by decide, by decide⟩

/-- C26, amended: a pending job (`Active = false`) whose offset is below the
file size of its patch, as `InitiatePatch` creates for every patch with a
positive size, is not removed nor changed by `UpdateJobs`, nor by any sequence
of ticks and calls made for other sessions; Accept and Resume of its own
session keep the session one job, and Cancel and a superseding Initiate are
the calls that take it out of the job set. -/
theorem pending_job_leaves_only_by_cancel_or_initiate (fs : FileSys) (s : Nat) (j : PatchJob)
    (hina : j.Active = false) (hlt : j.Position < j.Patch.FileSize) :
    (∀ m m', jobsOf s m._jobs = [j] → UpdateJobs fs m = some m' → jobsOf s m'._jobs = [j]) ∧
    (∀ ops m m', jobsOf s m._jobs = [j] → (∀ op ∈ ops, op.target ≠ some s) →
      run fs ops m = some m' → jobsOf s m'._jobs = [j]) ∧
    (∀ m, jobsOf s m._jobs = [j] →
      (∃ j', jobsOf s (HandleXferAccept fs m s).1._jobs = [j'] ∧ j'.Patch = j.Patch) ∧
      (∀ k, ∃ j', jobsOf s (HandleXferResume fs m s k).1._jobs = [j'] ∧ j'.Patch = j.Patch) ∧
      jobsOf s (HandleXferCancel m s).1._jobs = [] ∧
      (∀ p, s ≠ 0 → jobsOf s (InitiatePatch m s (some p)).1._jobs =
        [{ Session := s, Patch := p, File := IfStream.closed, Position := 0, Active := false,
           LastLoggedProgress := 0 }])) := by
  refine ⟨?_, ?_, ?_⟩
  · intro m m' hj h
    exact step_keeps_pending fs s j m m' Op.tick hj hina hlt (by simp [Op.target]) h
  · intro ops
    induction ops with
    | nil =>
      intro m m' hj _ hrun
      simp only [run, Option.some.injEq] at hrun
      subst hrun
      exact hj
    | cons op ops ih =>
      intro m m' hj hops hrun
      obtain ⟨m1, h1, h2⟩ := run_cons_some fs op ops m m' hrun
      exact ih m1 m' (step_keeps_pending fs s j m m1 op hj hina hlt
        (hops op (List.mem_cons_self _ _)) h1)
        (fun o ho => hops o (List.mem_cons_of_mem _ ho)) h2
  · intro m hj
    have hs : j.Session = s := by
      have hmem : j ∈ jobsOf s m._jobs := by rw [hj]; exact List.mem_singleton.mpr rfl
      simpa [jobsOf] using (List.mem_filter.mp hmem).2
    refine ⟨?_, ?_, ?_, ?_⟩
    · simp only [HandleXferAccept]
      rw [(acceptLoop_jobsOf fs s m._jobs).1, hj]
      simp only [acceptLoop, hs, if_true]
      split_ifs
      all_goals exact ⟨_, rfl, rfl⟩
    · intro k
      simp only [HandleXferResume]
      rw [(resumeLoop_jobsOf fs s k m._jobs).1, hj]
      simp only [resumeLoop, hs, if_true]
      split_ifs
      all_goals exact ⟨_, rfl, rfl⟩
    · exact jobsOf_RemoveJob_self m._jobs s
    · intro p hs0
      exact (jobsOf_InitiatePatch m s p hs0).1

/-- C26, amended, on the scenarios: session 2 is pending on the 500-byte patch
while session 1 transfers; two ticks and a Cancel of session 1 leave the job of
session 2 as it was. -/
theorem pending_job_leaves_only_by_cancel_or_initiate_witness :
    jobsOf 2 activeAndPending._jobs =
      [{ Session := 2, Patch := patchFrFR, File := IfStream.closed, Position := 0,
         Active := false, LastLoggedProgress := 0 }] ∧
    ∀ m', run diskFs [Op.tick, Op.cancel 1, Op.tick] activeAndPending = some m' →
      jobsOf 2 m'._jobs =
        [{ Session := 2, Patch := patchFrFR, File := IfStream.closed, Position := 0,
           Active := false, LastLoggedProgress := 0 }] :=
  ⟨by decide, fun m' h =>
    (pending_job_leaves_only_by_cancel_or_initiate diskFs 2
      { Session := 2, Patch := patchFrFR, File := IfStream.closed, Position := 0,
        Active := false, LastLoggedProgress := 0 } rfl (by decide)).2.1
      [Op.tick, Op.cancel 1, Op.tick] activeAndPending m' (by decide) (by decide) h⟩


/-! ## Division by the file size -/

/-- C27 at its failing input: session 1 is offered a patch whose file has no
bytes and resumes at offset 5. The Resume is accepted, and the next
`UpdateJobs` reaches the progress quotient of `SendPatchChunk` with
`FileSize = 0`: the run has no next state. With Accept in place of Resume the
same tick returns. -/
theorem resume_on_empty_patch_divides_by_zero :
    (HandleXferResume emptyFileFs
      (InitiatePatch (mgrWith [patchEmpty] 300) 1 (some patchEmpty)).1 1 5).2 = true ∧
    ((run emptyFileFs [Op.initiate 1 (some patchEmpty), Op.resume 1 5]
      (mgrWith [patchEmpty] 300)).map
      (fun m => m._jobs.map (fun j => (j.Active, j.Position, j.Patch.FileSize)))) =
      some [(true, 5, 0)] ∧
    run emptyFileFs [Op.initiate 1 (some patchEmpty), Op.resume 1 5, Op.tick]
      (mgrWith [patchEmpty] 300) = none ∧
    (run emptyFileFs [Op.initiate 1 (some patchEmpty), Op.accept 1, Op.tick]
      (mgrWith [patchEmpty] 300)).map (fun m => m._jobs) = some [] :=
  ⟨by decide, by decide, by decide, by decide⟩

theorem SendPatchChunk_total_inRange (c : Nat) (fs : FileSys) (j : PatchJob)
    (hin : j.Position ≤ j.Patch.FileSize) : ∃ r, SendPatchChunk c fs j = some r := by
  by_cases hF : j.Patch.FileSize = 0
  · have hk : min c ((j.Patch.FileSize + 2 ^ 64 - j.Position) % 2 ^ 64) % 2 ^ 16 = 0 := by
      have hP : j.Position = 0 := by omega
      rw [hF, hP]
      simp
    refine ⟨(j, []), ?_⟩
    simp only [SendPatchChunk, hk, if_true]
    split_ifs <;> rfl
  · exact SendPatchChunk_total c fs j (by omega)

theorem driveJobs_total_inRange (c : Nat) (fs : FileSys) (js : List PatchJob)
    (h : ∀ j ∈ js, j.Position ≤ j.Patch.FileSize) : ∃ r, driveJobs c fs js = some r := by
  induction js with
  | nil => exact ⟨_, rfl⟩
  | cons j rest ih =>
    obtain ⟨r, hr⟩ := ih (fun x hx => h x (List.mem_cons_of_mem _ hx))
    obtain ⟨q, hq⟩ := SendPatchChunk_total_inRange c fs j (h j (List.mem_cons_self _ _))
    simp only [driveJobs, hr, hq, Option.map_some']
    split_ifs
    · exact ⟨_, rfl⟩
    · exact ⟨_, rfl⟩

/-- No call sequence whose Resume offsets stay within the file reaches the
division by zero: from an empty job set, the run has a final state. -/
theorem run_total_of_resumes_in_range (fs : FileSys) (ops : List Op) (m : PatchMgr)
    (hempty : m._jobs = []) (hops : runInRange fs ops m = true) :
    ∃ m', run fs ops m = some m' := by
  have key : ∀ (pre post : List Op) (m1 : PatchMgr), run fs pre m = some m1 →
      runInRange fs (pre ++ post) m = true → ∃ m', run fs post m1 = some m' := by
    intro pre post
    induction post generalizing pre with
    | nil => exact fun m1 _ _ => ⟨m1, rfl⟩
    | cons op post ih =>
      intro m1 hpre hr
      have hsplit : ∀ (pre : List Op) (m0 m1 : PatchMgr), run fs pre m0 = some m1 →
          runInRange fs (pre ++ op :: post) m0 = true →
          runInRange fs pre m0 = true ∧ opInRange m1 op = true := by
        intro pre
        induction pre with
        | nil =>
          intro m0 m1 h0 hr0
          simp only [run, Option.some.injEq] at h0
          subst h0
          simp only [List.nil_append, runInRange, Bool.and_eq_true] at hr0
          exact ⟨rfl, hr0.1⟩
        | cons o pre ihp =>
          intro m0 m1 h0 hr0
          obtain ⟨m2, h2, h3⟩ := run_cons_some fs o pre m0 m1 h0
          simp only [List.cons_append, runInRange, h2, Bool.and_eq_true] at hr0 ⊢
          exact ⟨⟨hr0.1, (ihp m2 m1 h3 hr0.2).1⟩, (ihp m2 m1 h3 hr0.2).2⟩
      obtain ⟨hrpre, hop⟩ := hsplit pre m m1 hpre hr
      have hinv := offset_within_file_of_resumes_in_range fs pre m m1 hempty hrpre hpre
      have hstep : ∃ m2, step fs m1 op = some m2 := by
        cases op with
        | initiate s p => exact ⟨_, rfl⟩
        | accept s => exact ⟨_, rfl⟩
        | resume s k => exact ⟨_, rfl⟩
        | cancel s => exact ⟨_, rfl⟩
        | tick =>
          obtain ⟨r, hd⟩ := driveJobs_total_inRange m1._chunkSize fs m1._jobs hinv
          simp only [step, UpdateJobs, hd]
          split_ifs
          · exact ⟨_, rfl⟩
          · exact ⟨_, rfl⟩
      obtain ⟨m2, h2⟩ := hstep
      have hpre2 : run fs (pre ++ [op]) m = some m2 := by
        have happ : ∀ (pre : List Op) (m0 m1 : PatchMgr), run fs pre m0 = some m1 →
            run fs (pre ++ [op]) m0 = step fs m1 op := by
          intro pre
          induction pre with
          | nil =>
            intro m0 m1 h0
            simp only [run, Option.some.injEq] at h0
            subst h0
            simp only [List.nil_append, run]
            cases step fs m0 op <;> rfl
          | cons o pre ihp =>
            intro m0 m1 h0
            obtain ⟨m3, h3, h4⟩ := run_cons_some fs o pre m0 m1 h0
            simp only [List.cons_append, run, h3]
            exact ihp m3 m1 h4
        rw [happ pre m m1 hpre, h2]
      obtain ⟨m', hm'⟩ := ih (pre ++ [op]) m2 hpre2 (by simpa using hr)
      exact ⟨m', by simp only [run, h2, hm']⟩
  exact key [] ops m rfl (by simpa using hops)


/-! ## The DATA frame -/

theorem read_exact (fs : FileSys) (f : IfStream) (n : Nat) (data : List Nat)
    (hg : f.good = true) (ho : f.is_open = true) (hfile : fs.content f.path = some data)
    (hnf : fs.readFault f.path f.cursor = false) (hlen : f.cursor + n ≤ data.length) :
    (f.read fs n).2 = (data.drop f.cursor).take n := by
  have hl : ((data.drop f.cursor).take n).length = n := by
    rw [List.length_take, List.length_drop]
    omega
  simp only [IfStream.read, hg, ho, hnf, hfile, Option.getD_some, Bool.not_true,
    Bool.false_eq_true, if_false]
  rw [if_neg (by omega)]

/-- C21 at its failing input: after Initiate and Resume at offset 2000 on the
1000-byte patch (chunk size 300) the tick sends the DATA frame `0x31`, length
300, and 300 zero bytes, while the file has no byte at `[2000, 2300)`. -/
theorem data_frame_past_end_of_file :
    (run diskFs [Op.initiate 1 (some patchEnGB), Op.resume 1 2000, Op.tick]
        (mgrWith [patchEnGB] 300)).map (fun m' => m'.trace.drop 1) =
      some [Event.sendPacket 1 ([0x31, 44, 1] ++ List.replicate 300 0),
            Event.logProgress patchEnGB.FilePath 230 2300 1000, Event.logCompleted] ∧
    (diskFs.content patchEnGB.FilePath).map (fun data => ((data.drop 2000).take 300, data.length))
      = some ([], 1000) :=
  ⟨by decide, by decide⟩

/-- The shape of every frame that `SendPatchChunk` sends, for any job: the
command byte `0x31`, the chunk length `k` (1 to 65535) in two bytes, least
significant first, and `k` payload bytes, `3 + k` bytes in all, sent to the
session of the job. Where the stream is in good state at the offset of the job
and the file holds `k` bytes from there, the payload is those bytes. -/
theorem SendPatchChunk_frame_layout (c : Nat) (fs : FileSys) (j j' : PatchJob)
    (ev : List Event) (h : SendPatchChunk c fs j = some (j', ev)) (t : Nat) (bytes : List Nat)
    (hmem : Event.sendPacket t bytes ∈ ev) :
    ∃ k payload, 0 < k ∧ k < 2 ^ 16 ∧ t = j.Session ∧
      bytes = XFER_DATA :: (k % 256) :: (k / 256 % 256) :: payload ∧
      payload.length = k ∧ bytes.length = 3 + k ∧ leDecode ((bytes.drop 1).take 2) = k ∧
      j'.Position = (j.Position + k) % 2 ^ 64 ∧
      ∀ data, j.File.good = true → j.File.is_open = true →
        fs.content j.File.path = some data → fs.readFault j.File.path j.File.cursor = false →
        j.File.cursor = j.Position → j.Position + k ≤ data.length →
        payload = (data.drop j.Position).take k := by
  have hk : min c ((j.Patch.FileSize + 2 ^ 64 - j.Position) % 2 ^ 64) % 2 ^ 16 < 2 ^ 16 :=
    Nat.mod_lt _ (by decide)
  generalize hkdef : min c ((j.Patch.FileSize + 2 ^ 64 - j.Position) % 2 ^ 64) % 2 ^ 16 = k
    at hk
  have hlen := read_length fs j.File k
  have hframe : dataPacket k (j.File.read fs k).2 =
      XFER_DATA :: (k % 256) :: (k / 256 % 256) :: (j.File.read fs k).2 := by
    simp [dataPacket, leBytes, List.range_succ]
  have hdec : k % 256 + 256 * (k / 256 % 256 + 256 * 0) = k := by omega
  have hgoal : ∀ jp : PatchJob, jp.Position = (j.Position + k) % 2 ^ 64 → k ≠ 0 →
      ∃ k' payload, 0 < k' ∧ k' < 2 ^ 16 ∧ j.Session = j.Session ∧
      dataPacket k (j.File.read fs k).2 =
        XFER_DATA :: (k' % 256) :: (k' / 256 % 256) :: payload ∧
      payload.length = k' ∧ (dataPacket k (j.File.read fs k).2).length = 3 + k' ∧
      leDecode (((dataPacket k (j.File.read fs k).2).drop 1).take 2) = k' ∧
      jp.Position = (j.Position + k') % 2 ^ 64 ∧
      ∀ data, j.File.good = true → j.File.is_open = true →
        fs.content j.File.path = some data → fs.readFault j.File.path j.File.cursor = false →
        j.File.cursor = j.Position → j.Position + k' ≤ data.length →
        payload = (data.drop j.Position).take k' := by
    intro jp hjp hk0
    refine ⟨k, (j.File.read fs k).2, Nat.pos_of_ne_zero hk0, hk, rfl, hframe, hlen, ?_, ?_, hjp,
      ?_⟩
    · rw [hframe]
      simp only [List.length_cons, hlen]
      omega
    · rw [hframe]
      simp only [List.drop_succ_cons, List.drop_zero, List.take_succ_cons, List.take_zero,
        leDecode]
      exact hdec
    · intro data hg ho hfile hnf hcur hle
      rw [← hcur]
      exact read_exact fs j.File k data hg ho hfile hnf (by omega)
  unfold SendPatchChunk at h
  simp only [hkdef] at h
  split_ifs at h with h1 h2 h3 h4 h5
  all_goals simp only [Option.some.injEq, Prod.mk.injEq] at h
  all_goals obtain ⟨hj', hev⟩ := h
  all_goals subst hev
  · simp at hmem
  · simp at hmem
  · simp at hmem
  · simp only [List.mem_cons, Event.sendPacket.injEq, List.mem_singleton, reduceCtorEq,
      List.not_mem_nil, or_false] at hmem
    obtain ⟨rfl, rfl⟩ := hmem
    exact hgoal j' (by rw [← hj']) h2
  · simp only [List.mem_singleton, Event.sendPacket.injEq] at hmem
    obtain ⟨rfl, rfl⟩ := hmem
    exact hgoal j' (by rw [← hj']) h2

/-- The frame layout on the first chunk of scenario 3: offset 0 of the
1000-byte file, chunk size 300. -/
theorem SendPatchChunk_frame_layout_scenario :
    (SendPatchChunk 300 diskFs
      { Session := 1, Patch := patchEnGB,
        File := { is_open := true, path := patchEnGB.FilePath, cursor := 0, failbit := false,
                  eofbit := false, badbit := false },
        Position := 0, Active := true, LastLoggedProgress := 0 }).map (fun r => r.2) =
      some [Event.sendPacket 1 ([0x31, 44, 1] ++ List.replicate 300 1),
            Event.logProgress patchEnGB.FilePath 30 300 1000] := by
  decide


/-! ## The installer: the next patch slot -/

theorem findSlot_spec (w : WinApi) (localeDir locale : List Nat) (fuel : Nat) :
    ∀ p : Int, 2 ≤ p → p ≤ 10 → 10 - p < fuel →
      ∃ r, findSlot w localeDir locale fuel p = some r ∧
        ((r = -1 ∧ ∀ n : Int, p ≤ n → n ≤ 9 →
            FileExists w (patchSlotPath w localeDir locale n) = true) ∨
         (p ≤ r ∧ r ≤ 9 ∧ FileExists w (patchSlotPath w localeDir locale r) = false ∧
            ∀ n : Int, p ≤ n → n < r →
              FileExists w (patchSlotPath w localeDir locale n) = true)) := by
  induction fuel with
  | zero => intro p _ h10 h; omega
  | succ fuel ih =>
    intro p hp h10 hfuel
    by_cases h9 : p ≤ 9
    · cases hex : FileExists w (patchSlotPath w localeDir locale p) with
      | false =>
        refine ⟨p, by simp [findSlot, h9, hex], Or.inr ⟨le_refl _, h9, hex, ?_⟩⟩
        intro n h1 h2
        omega
      | true =>
        obtain ⟨r, hr, hcase⟩ := ih (p + 1) (by omega) (by omega) (by omega)
        refine ⟨r, by simp [findSlot, h9, hex, hr], ?_⟩
        rcases hcase with ⟨h1, h2⟩ | ⟨h1, h2, h3, h4⟩
        · refine Or.inl ⟨h1, fun n hn1 hn2 => ?_⟩
          by_cases hnp : n = p
          · rw [hnp]; exact hex
          · exact h2 n (by omega) hn2
        · refine Or.inr ⟨by omega, h2, h3, fun n hn1 hn2 => ?_⟩
          by_cases hnp : n = p
          · rw [hnp]; exact hex
          · exact h4 n (by omega) hn2
    · refine ⟨-1, by simp [findSlot, h9], Or.inl ⟨rfl, fun n h1 h2 => ?_⟩⟩
      omega

theorem formatInt_digit (n : Int) (h2 : 2 ≤ n) (h9 : n ≤ 9) :
    formatInt n = [(48 + n).toNat] := by
  interval_cases n <;> decide

/-- C29: `FindNextPatchNumber` returns, and its result `r` is the least `n` in
2..9 whose `patch-<locale>-n.MPQ` path is not an existing file, or -1; it is -1
exactly when all eight paths are existing files; it is never 0, 1 or above 9.
A path that fits `MAX_PATH` is `<localeDir>\patch-<locale>-<n>.MPQ`. -/
theorem FindNextPatchNumber_least_free_slot (w : WinApi) (localeDir locale : List Nat) :
    ∃ r, FindNextPatchNumber w localeDir locale = some r ∧
      (r = -1 ↔ ∀ n : Int, 2 ≤ n → n ≤ 9 →
        FileExists w (patchSlotPath w localeDir locale n) = true) ∧
      (r ≠ -1 → 2 ≤ r ∧ r ≤ 9 ∧ FileExists w (patchSlotPath w localeDir locale r) = false ∧
        ∀ n : Int, 2 ≤ n → n < r →
          FileExists w (patchSlotPath w localeDir locale n) = true) ∧
      r ≠ 0 ∧ r ≠ 1 ∧ r ≤ 9 ∧
      (localeDir.length + locale.length + 13 < w.MAX_PATH → ∀ n : Int, 2 ≤ n → n ≤ 9 →
        patchSlotPath w localeDir locale n =
          localeDir ++ [92] ++ ascii "patch-" ++ locale ++ [45, (48 + n).toNat] ++ ascii ".MPQ") := by
  obtain ⟨r, hr, hcase⟩ := findSlot_spec w localeDir locale 9 2 (le_refl _) (by decide) (by decide)
  refine ⟨r, hr, ?_, ?_, ?_, ?_, ?_, ?_⟩
  · rcases hcase with ⟨h1, h2⟩ | ⟨h1, h2, h3, h4⟩
    · exact ⟨fun _ => h2, fun _ => h1⟩
    · refine ⟨fun h => by omega, fun h => ?_⟩
      rw [h r h1 h2] at h3
      exact absurd h3 (by decide)
  · intro hne
    rcases hcase with ⟨h1, _⟩ | ⟨h1, h2, h3, h4⟩
    · exact absurd h1 hne
    · exact ⟨h1, h2, h3, h4⟩
  · rcases hcase with ⟨h1, _⟩ | ⟨h1, _, _, _⟩ <;> omega
  · rcases hcase with ⟨h1, _⟩ | ⟨h1, _, _, _⟩ <;> omega
  · rcases hcase with ⟨h1, _⟩ | ⟨_, h2, _, _⟩ <;> omega
  · intro hfit n h2 h9
    have hlen : (localeDir ++ [92] ++ ascii "patch-" ++ locale ++ ascii "-" ++ formatInt n ++
        ascii ".MPQ").length ≤ w.MAX_PATH - 1 := by
      rw [formatInt_digit n h2 h9]
      simp only [List.length_append, List.length_cons, List.length_nil,
        show (ascii "patch-").length = 6 by decide, show (ascii "-").length = 1 by decide,
        show (ascii ".MPQ").length = 4 by decide]
      omega
    unfold patchSlotPath
    rw [List.take_of_length_le hlen, formatInt_digit n h2 h9]
    simp [ascii]

/-- C29 on two client folders: with slots 2 and 3 taken by files and slot 4 by
a directory the result is 4; with every path a file the result is -1. -/
theorem FindNextPatchNumber_scenarios :
    FindNextPatchNumber clientDir (ascii "Data" ++ [92] ++ ascii "frFR") (ascii "frFR") = some 4 ∧
    FindNextPatchNumber clientDir (ascii "Data" ++ [92] ++ ascii "deDE") (ascii "deDE") = some 2 ∧
    FindNextPatchNumber fullDir (ascii "Data" ++ [92] ++ ascii "frFR") (ascii "frFR") =
      some (-1) :=
  ⟨by decide, by decide, by decide⟩


/-! ## The installer: MD5 -/

/-- The installer's MD5 on the test strings of RFC 1321: the empty string and
"abc". -/
theorem CalculateFileMD5_test_suite :
    CalculateFileMD5 (some []) staleCtx = some (some (ascii "d41d8cd98f00b204e9800998ecf8427e")) ∧
    CalculateFileMD5 (some (ascii "abc")) staleCtx =
      some (some (ascii "900150983cd24fb0d6963f7d28e17f72")) ∧
    CalculateFileMD5 none staleCtx = some none :=
  ⟨by decide, by decide, by decide⟩


/-- C29 on the client folder of the scenarios: the result for `Data\frFR` is 4,
the least slot that is not a file, and it is none of 0, 1 or a number above
9. -/
theorem FindNextPatchNumber_least_free_slot_witness :
    FindNextPatchNumber clientDir (ascii "Data" ++ [92] ++ ascii "frFR") (ascii "frFR") = some 4 ∧
    ∃ r, FindNextPatchNumber clientDir (ascii "Data" ++ [92] ++ ascii "frFR") (ascii "frFR") =
      some r ∧ r ≠ 0 ∧ r ≠ 1 ∧ r ≤ 9 :=
  ⟨by decide,
    let ⟨r, h, _, _, h0, h1, h9, _⟩ :=
      FindNextPatchNumber_least_free_slot clientDir (ascii "Data" ++ [92] ++ ascii "frFR")
        (ascii "frFR")
    ⟨r, h, h0, h1, h9⟩⟩


/-- A device error on the second read: when the first 8192 bytes of a file are
read and the read at offset 8192 fails, `CalculateMD5` leaves its loop and
returns true with the digest of the first block alone. -/
theorem CalculateMD5_read_error (md5 : List (List Nat) → List Nat) (fs : FileSys)
    (path : String) (data : List Nat) (hfile : fs.content path = some data)
    (hlen : 8192 ≤ data.length) (h0 : fs.readFault path 0 = false)
    (h1 : fs.readFault path 8192 = true) :
    hashBlocks fs (data.length / 8192 + 2) (IfStream.closed.open fs path) = [data.take 8192] ∧
    CalculateMD5 md5 fs path = some (md5 [data.take 8192]) := by
  have hopen : IfStream.closed.open fs path =
      { is_open := true, path := path, cursor := 0, failbit := false, eofbit := false,
        badbit := false } := by
    simp [IfStream.open, IfStream.closed, hfile]
  have htl : (List.take 8192 data).length = 8192 := by
    rw [List.length_take]
    omega
  have hblocks : hashBlocks fs (data.length / 8192 + 2) (IfStream.closed.open fs path) =
      [data.take 8192] := by
    rw [hopen]
    simp only [hashBlocks, IfStream.extract, IfStream.good, IfStream.fail, h0, h1, hfile,
      Option.getD_some, List.drop_zero, htl, Bool.or_self, Bool.not_false, Bool.not_true,
      Bool.false_eq_true, if_false, if_true, lt_irrefl, Nat.zero_add, Bool.or_true,
      Bool.or_false, List.length_nil, gt_iff_lt]
  refine ⟨hblocks, ?_⟩
  simp only [CalculateMD5, hfile, Option.getD_some, hblocks]
  rw [hopen]
  rfl

/-- C24 at its failing input: a 10000-byte patch file (all bytes 1) whose read
at offset 8192 ends in a device error. `CalculateMD5` feeds the first 8192
bytes and returns true, `LoadPatches` stores the patch with the digest of that
prefix, and the digest of the 10000 bytes is another one. -/
theorem CalculateMD5_read_error_hashes_prefix :
    CalculateMD5 sumHash brokenDiskFs "ClientPatches/enGB12340.mpq" =
      some (sumHash [(List.replicate 10000 1).take 8192]) ∧
    (LoadPatches sumHash 64 brokenDiskFs (some brokenDiskDir) PatchMgr.new).map
      (fun m => m._patches.map (fun p => (p.Build, p.Locale, p.FileSize, p.MD5))) =
      some [(12340, ascii "engb", 10000, sumHash [(List.replicate 10000 1).take 8192])] ∧
    sumHash [(List.replicate 10000 1).take 8192] = List.replicate 16 0 ∧
    sumHash [List.replicate 10000 1] = List.replicate 16 16 := by
  have hfile : brokenDiskFs.content "ClientPatches/enGB12340.mpq" =
      some (List.replicate 10000 1) := by
    simp only [brokenDiskFs, ↓reduceIte]
  have hlen : 8192 ≤ (List.replicate 10000 1).length := by
    rw [List.length_replicate]
    decide
  have hmd5 := (CalculateMD5_read_error sumHash brokenDiskFs "ClientPatches/enGB12340.mpq"
    (List.replicate 10000 1) hfile hlen rfl rfl).2
  have hmatch : matchPatchName (ascii "enGB12340.mpq") = some (ascii "enGB", ascii "12340") := by
    decide
  have hstoul : stoul 64 (ascii "12340") = some 12340 := by decide
  have hlow : toLowerStr (ascii "enGB") = ascii "engb" := by decide
  have hentry : loadEntry sumHash 64 brokenDiskFs
      { filename := ascii "enGB12340.mpq", is_regular_file := true,
        path := "ClientPatches/enGB12340.mpq", file_size := 10000 } =
      some (some { Build := 12340, Locale := ascii "engb", FileSize := 10000,
                   MD5 := sumHash [(List.replicate 10000 1).take 8192],
                   FilePath := "ClientPatches/enGB12340.mpq", DataLoaded := false }) := by
    simp only [loadEntry, hmatch, hstoul, hmd5, hlow, Bool.not_true, Bool.false_eq_true,
      if_false]
    rfl
  refine ⟨hmd5, ?_, ?_, ?_⟩
  · simp only [LoadPatches, brokenDiskDir, loadLoop, hentry, Option.map_some', List.nil_append,
      List.map_cons, List.map_nil]
  · simp only [sumHash, List.take_replicate, List.flatten_cons, List.flatten_nil,
      List.append_nil, List.sum_replicate, smul_eq_mul]
    rfl
  · simp only [sumHash, List.flatten_cons, List.flatten_nil, List.append_nil,
      List.sum_replicate, smul_eq_mul]

/-! ## Accept after a refused Resume -/

/-- C17 at its failing input: the job that Initiate and Resume at offset 2000
leave on the 1000-byte patch, with chunk size 300. `fileSize - offset` is
below 0, so the chunk length of the claim is 0 and nothing is to be sent;
`SendPatchChunk` computes the chunk length 300, sends a frame of 300 bytes and
moves the offset to 2300. -/
theorem chunk_length_past_end_of_file :
    (run diskFs [Op.initiate 1 (some patchEnGB), Op.resume 1 2000]
        (mgrWith [patchEnGB] 300)).map
      (fun m => m._jobs.map (fun j => (j.Position, j.Patch.FileSize, j.Active))) =
      some [(2000, 1000, true)] ∧
    (run diskFs [Op.initiate 1 (some patchEnGB), Op.resume 1 2000]
        (mgrWith [patchEnGB] 300)).map
      (fun m => m._jobs.map (fun j =>
        (SendPatchChunk 300 diskFs j).map (fun r => r.1.Position))) = some [some 2300] ∧
    (run diskFs [Op.initiate 1 (some patchEnGB), Op.resume 1 2000]
        (mgrWith [patchEnGB] 300)).map
      (fun m => m._jobs.map (fun j =>
        (SendPatchChunk 300 diskFs j).map (fun r => dataLens 1 r.2))) = some [some [300]] ∧
    min (min (300 : Int) (1000 - 2000)) 65535 < 0 ∧
    min (min 300 (1000 - 2000)) 65535 = 0 ∧
    min 300 ((1000 + 2 ^ 64 - 2000) % 2 ^ 64) % 2 ^ 16 = 300 :=
  ⟨by decide, by decide, by decide, by decide, by decide, by decide⟩

/-! ## The extent of the job-set lock -/

theorem emitted_append (xs ys : List LockStep) : emitted (xs ++ ys) = emitted xs ++ emitted ys := by
  induction xs with
  | nil => rfl
  | cons x rest ih =>
    rw [List.cons_append]
    cases x <;> simp only [emitted, ih, List.cons_append]

theorem emitted_map_emit (f : α → Event) (xs : List α) :
    emitted (xs.map (fun x => LockStep.emit (f x))) = xs.map f := by
  induction xs with
  | nil => rfl
  | cons x rest ih => simp only [List.map_cons, emitted, ih]

theorem jobsAfter_append (xs ys : List LockStep) :
    ∀ js, jobsAfter js (xs ++ ys) = jobsAfter (jobsAfter js xs) ys := by
  induction xs with
  | nil => intro js; rfl
  | cons x rest ih =>
    intro js
    rw [List.cons_append]
    cases x <;> simp only [jobsAfter] <;> exact ih _

theorem jobsAfter_map_emit (f : α → Event) (xs : List α) (js : List PatchJob) :
    jobsAfter js (xs.map (fun x => LockStep.emit (f x))) = js := by
  induction xs with
  | nil => rfl
  | cons x rest ih => simp only [List.map_cons, jobsAfter, ih]

theorem lockScan_held_emits (guarded : LockStep → Bool) (f : α → Event) (xs : List α)
    (rest : List LockStep) :
    lockScan guarded true (xs.map (fun x => LockStep.emit (f x)) ++ rest) =
      lockScan guarded true rest := by
  induction xs with
  | nil => rfl
  | cons x more ih =>
    rw [List.map_cons, List.cons_append]
    simp only [lockScan, Bool.true_or, Bool.true_and]
    exact ih

/-- The steps of a call and the call itself agree: a call has steps exactly
when it has a next state, the trace grows by the effects of the steps, and the
job set afterwards is what the last step on `_jobs` left. -/
theorem stepsOf_agrees (fs : FileSys) (m : PatchMgr) (op : Op) :
    (stepsOf fs m op).isSome = (step fs m op).isSome ∧
    ∀ m' st, step fs m op = some m' → stepsOf fs m op = some st →
      m'.trace = m.trace ++ emitted st ∧ m'._jobs = jobsAfter m._jobs st := by
  cases op with
  | initiate s p =>
    refine ⟨rfl, ?_⟩
    intro m' st h1 h2
    simp only [step, stepsOf, Option.some.injEq] at h1 h2
    subst h1 h2
    cases p with
    | none => simp [InitiatePatch, InitiatePatchSteps, emitted, jobsAfter]
    | some p =>
      by_cases hs : s = 0
      · simp [InitiatePatch, InitiatePatchSteps, emitted, jobsAfter, hs]
      · simp [InitiatePatch, InitiatePatchSteps, emitted, jobsAfter, hs]
  | accept s =>
    refine ⟨rfl, ?_⟩
    intro m' st h1 h2
    simp only [step, stepsOf, Option.some.injEq] at h1 h2
    subst h1 h2
    simp [HandleXferAccept, HandleXferAcceptSteps, emitted, jobsAfter]
  | resume s k =>
    refine ⟨rfl, ?_⟩
    intro m' st h1 h2
    simp only [step, stepsOf, Option.some.injEq] at h1 h2
    subst h1 h2
    simp [HandleXferResume, HandleXferResumeSteps, emitted, jobsAfter]
  | cancel s =>
    refine ⟨rfl, ?_⟩
    intro m' st h1 h2
    simp only [step, stepsOf, Option.some.injEq] at h1 h2
    subst h1 h2
    simp [HandleXferCancel, HandleXferCancelSteps, emitted, jobsAfter]
  | tick =>
    simp only [step, stepsOf, UpdateJobs, UpdateJobsSteps]
    cases hen : m._enabled with
    | false =>
      refine ⟨rfl, ?_⟩
      intro m' st h1 h2
      simp only [Bool.not_false, if_true, Option.some.injEq] at h1 h2
      subst h1 h2
      simp [emitted, jobsAfter]
    | true =>
      cases hd : driveJobs m._chunkSize fs m._jobs with
      | none => exact ⟨rfl, fun m' st h1 _ => by simp at h1⟩
      | some r =>
        refine ⟨rfl, ?_⟩
        intro m' st h1 h2
        simp only [Bool.not_true, Bool.false_eq_true, if_false, Option.some.injEq] at h1 h2
        subst h1 h2
        have hev : emitted (r.2.map LockStep.emit) = r.2 := by
          have h := emitted_map_emit id r.2
          simpa using h
        have hjev : ∀ js, jobsAfter js (r.2.map LockStep.emit) = js := by
          intro js
          have h := jobsAfter_map_emit id r.2 js
          simpa using h
        constructor
        · simp only [emitted, emitted_append, hev, emitted_map_emit, List.append_nil,
            List.append_assoc]
        · simp only [jobsAfter, jobsAfter_append, hjev, jobsAfter_map_emit]

/-- C25 at its failing input: session 1 is offered the 1000-byte patch. The
INITIATE frame is handed to the session first and the lock is taken after it,
so the lock is not held over the whole call; and a tick tests `_enabled`
before it takes the lock. -/
theorem initiate_sends_before_lock :
    InitiatePatchSteps (mgrWith [patchEnGB] 300) 1 (some patchEnGB) =
      [LockStep.emit (Event.sendPacket 1 (initiatePacket patchEnGB)), LockStep.lock,
       LockStep.jobs [],
       LockStep.jobs [{ Session := 1, Patch := patchEnGB, File := IfStream.closed,
                        Position := 0, Active := false, LastLoggedProgress := 0 }],
       LockStep.unlock] ∧
    lockScan (fun _ => true) false
      (InitiatePatchSteps (mgrWith [patchEnGB] 300) 1 (some patchEnGB)) = false ∧
    lockScan LockStep.isEmit false
      (InitiatePatchSteps (mgrWith [patchEnGB] 300) 1 (some patchEnGB)) = false ∧
    (UpdateJobsSteps diskFs activeAndPending).map (fun st => st.take 2) =
      some [LockStep.enabled true, LockStep.lock] ∧
    (UpdateJobsSteps diskFs activeAndPending).map (lockScan (fun _ => true) false) =
      some false :=
  ⟨by decide, by decide, by decide, by decide, by decide⟩

/-- C25, amended: every read or write of the job set in the five calls is made
with the lock held, and each call that takes the lock releases it. Accept,
Resume and Cancel hold the lock over all they do. A tick tests `_enabled`
first; when enabled it then holds the lock over all the rest, the chunk of
every driven job and the removal of completed jobs included, and when disabled
it never takes it. Initiate hands its frame to the session first and holds the
lock over the rest, the replacement of the job of the session; with an absent
argument it does nothing. The steps are those of the calls: same effects, same
job set. -/
theorem job_set_accessed_under_lock (fs : FileSys) (m : PatchMgr) :
    (∀ op st, stepsOf fs m op = some st → lockScan LockStep.isJobs false st = true) ∧
    (∀ s, lockScan (fun _ => true) false (HandleXferAcceptSteps fs m s) = true) ∧
    (∀ s k, lockScan (fun _ => true) false (HandleXferResumeSteps fs m s k) = true) ∧
    (∀ s, lockScan (fun _ => true) false (HandleXferCancelSteps m s) = true) ∧
    (∀ st, UpdateJobsSteps fs m = some st →
      st.head? = some (LockStep.enabled m._enabled) ∧
      (m._enabled = false → st.tail = []) ∧
      (m._enabled = true → st.tail.head? = some LockStep.lock ∧
        lockScan (fun _ => true) false st.tail = true)) ∧
    (∀ s p, InitiatePatchSteps m s none = [] ∧ InitiatePatchSteps m 0 (some p) = [] ∧
      (s ≠ 0 →
        (InitiatePatchSteps m s (some p)).take 2 =
          [LockStep.emit (Event.sendPacket s (initiatePacket p)), LockStep.lock] ∧
        lockScan (fun _ => true) false (InitiatePatchSteps m s (some p)).tail = true)) ∧
    (∀ op, (stepsOf fs m op).isSome = (step fs m op).isSome ∧
      ∀ m' st, step fs m op = some m' → stepsOf fs m op = some st →
        m'.trace = m.trace ++ emitted st ∧ m'._jobs = jobsAfter m._jobs st) := by
  have htick : ∀ st, UpdateJobsSteps fs m = some st →
      st.head? = some (LockStep.enabled m._enabled) ∧
      (m._enabled = false → st.tail = []) ∧
      (m._enabled = true → st.tail.head? = some LockStep.lock ∧
        lockScan (fun _ => true) false st.tail = true) := by
    intro st h
    simp only [UpdateJobsSteps] at h
    cases hen : m._enabled with
    | false =>
      simp only [hen, Bool.not_false, if_true, Option.some.injEq] at h
      subst h
      exact ⟨rfl, fun _ => rfl, fun hc => by simp at hc⟩
    | true =>
      simp only [hen, Bool.not_true, Bool.false_eq_true, if_false] at h
      cases hd : driveJobs m._chunkSize fs m._jobs with
      | none => simp [hd] at h
      | some r =>
        simp only [hd, Option.some.injEq] at h
        subst h
        refine ⟨rfl, fun hc => by simp at hc, fun _ => ⟨rfl, ?_⟩⟩
        have h1 : ∀ rest, lockScan (fun _ => true) true (r.2.map LockStep.emit ++ rest) =
            lockScan (fun _ => true) true rest := by
          intro rest
          have h := lockScan_held_emits (fun _ => true) id r.2 rest
          simpa using h
        simp only [List.tail_cons, lockScan, Bool.not_false, Bool.true_and, h1, Bool.true_or,
          lockScan_held_emits (fun _ => true) (fun _ => Event.logCompleted), Bool.not_true,
          Bool.and_self]
  refine ⟨?_, fun _ => rfl, fun _ _ => rfl, fun _ => rfl, htick, ?_, stepsOf_agrees fs m⟩
  · intro op st h
    cases op with
    | initiate s p =>
      simp only [stepsOf, Option.some.injEq] at h
      subst h
      cases p with
      | none => rfl
      | some p =>
        by_cases hs : s = 0
        · simp [InitiatePatchSteps, hs, lockScan]
        · simp [InitiatePatchSteps, hs, lockScan, LockStep.isJobs]
    | accept s =>
      simp only [stepsOf, Option.some.injEq] at h
      subst h
      rfl
    | resume s k =>
      simp only [stepsOf, Option.some.injEq] at h
      subst h
      rfl
    | cancel s =>
      simp only [stepsOf, Option.some.injEq] at h
      subst h
      rfl
    | tick =>
      simp only [stepsOf] at h
      obtain ⟨hhead, hoff, hon⟩ := htick st h
      cases hen : m._enabled with
      | false =>
        cases st with
        | nil => simp at hhead
        | cons x rest =>
          simp only [List.head?_cons, Option.some.injEq] at hhead
          have hrest : rest = [] := hoff hen
          subst hhead hrest
          rfl
      | true =>
        cases st with
        | nil => simp at hhead
        | cons x rest =>
          simp only [List.head?_cons, Option.some.injEq] at hhead
          subst hhead
          have hall := (hon hen).2
          simp only [List.tail_cons] at hall
          have hmono : ∀ (held : Bool) (xs : List LockStep),
              lockScan (fun _ => true) held xs = true → lockScan LockStep.isJobs held xs = true := by
            intro held xs
            induction xs generalizing held with
            | nil => exact fun hx => hx
            | cons y ys ih =>
              intro hx
              cases y <;> simp only [lockScan, Bool.and_eq_true, Bool.or_eq_true,
                Bool.not_eq_true', Bool.not_true, Bool.or_false] at hx ⊢
              · exact ⟨hx.1, ih _ hx.2⟩
              · exact ⟨hx.1, ih _ hx.2⟩
              · exact ⟨Or.inl hx.1, ih _ hx.2⟩
              · exact ⟨Or.inl hx.1, ih _ hx.2⟩
              · exact ⟨Or.inl hx.1, ih _ hx.2⟩
          simp only [lockScan, LockStep.isJobs, Bool.not_false, Bool.or_true, Bool.true_and]
          exact hmono false rest hall
  · intro s p
    refine ⟨rfl, by simp [InitiatePatchSteps], fun hs => ?_⟩
    simp [InitiatePatchSteps, hs, lockScan]

/-- C25, amended, on the manager of the scenarios with one active and one
pending job: the steps of a tick and of an Initiate for session 3. -/
theorem job_set_accessed_under_lock_witness :
    (UpdateJobsSteps diskFs activeAndPending).map (lockScan LockStep.isJobs false) = some true ∧
    (UpdateJobsSteps diskFs activeAndPending).map
      (lockScan (fun x => x.isJobs || x.isEmit) false) = some true ∧
    lockScan LockStep.isJobs false
      (InitiatePatchSteps activeAndPending 3 (some patchEnGB)) = true ∧
    ∀ st, stepsOf diskFs activeAndPending (Op.initiate 3 (some patchEnGB)) = some st →
      lockScan LockStep.isJobs false st = true :=
  ⟨by decide, by decide, by decide,
    (job_set_accessed_under_lock diskFs activeAndPending).1 (Op.initiate 3 (some patchEnGB))⟩

end Patcher
